import Mathlib

/-!
# CPU scheduling simulator: a verification development of `main.go`

The four schedulers of `main.go` (`FCFSSchedule`, `SJFSchedule`,
`SJFPrioritySchedule`, `RRSchedule`) are embedded as Lean functions.

Conventions of the embedding.

* Go's `int64` and `int` values are modelled by `Int`.  `FCFSSchedule` and
  `SJFPrioritySchedule` are straight-line arithmetic on the input values, so
  every `int64` operation of theirs is written with its two's-complement
  wrap-around (`wrap64`, `add64`, `sub64`): an input near the ends of the
  `int64` range wraps at once, and the model wraps with it.  In `SJFSchedule`
  and `RRSchedule`, on non-negative arrival times, every computed value is
  bounded by the clock of the loop, which advances by at most `time_quantum`
  per pass; their arithmetic is read in `Int`.  The sentinel `math.MaxInt` of
  `SJFSchedule` is the constant `maxInt`.
* Go slices of fixed length are `List`s; `a[i]` is `getD a i 0` and
  `a[i] = v` is `List.set`.  The schedulers only index inside the slice,
  except `SJFPrioritySchedule` on the empty batch, whose run-time failure is
  the `none` result.
* `for i := range processes` is a left fold over `List.range n`; the
  condition-controlled loops of `SJFSchedule` and `RRSchedule` are a loop body
  (`sjfStep`, `rrStep`) iterated by `iterLoop`/`runLoop`.
* A row of the schedule table (`[]string` built with `fmt.Sprint`) is the
  record `Row` of the seven integers that are printed.
* The `float64` accumulators only ever hold integers.  They are modelled by
  the `Int` they denote: `float64 z` is the conversion `float64(z)` of an
  integer (round to nearest, ties to even, 53 significant bits) and `fadd` is
  the correctly rounded sum.  The three quotients handed to `outputSchedule`
  are values of `F64`: `+Inf`, `-Inf` and `NaN` as IEEE 754 division by zero
  yields them, and otherwise `finite q` for the exact quotient `q`, which
  stands for the `float64` nearest to `q` (the last rounding of a finite
  quotient is not modelled).
-/

namespace Sched

/-- Go `Process`. -/
structure Process where
  ProcessID : Int
  ArrivalTime : Int
  BurstDuration : Int
  Priority : Int
deriving DecidableEq, Repr

/-- Go `TimeSlice`. -/
structure TimeSlice where
  PID : Int
  Start : Int
  Stop : Int
deriving DecidableEq, Repr

/-- One entry of `schedule`: the seven printed columns
`ID, Priority, Burst, Arrival, Wait, Turnaround, Exit`. -/
structure Row where
  id : Int
  priority : Int
  burst : Int
  arrival : Int
  wait : Int
  turnaround : Int
  completion : Int
deriving DecidableEq, Repr

/-- The `int64` that Go computes for an operation whose exact result is `z`:
two's-complement wrap-around into `[-2^63, 2^63)`. -/
def wrap64 (z : Int) : Int :=
  (z + 9223372036854775808) % 18446744073709551616 - 9223372036854775808

/-- Go `x + y` on `int64`. -/
def add64 (x y : Int) : Int := wrap64 (x + y)

/-- Go `x - y` on `int64`. -/
def sub64 (x y : Int) : Int := wrap64 (x - y)

/-- The integer `z` lies in the range of `int64`. -/
@[reducible] def Int64 (z : Int) : Prop :=
  -9223372036854775808 ≤ z ∧ z ≤ 9223372036854775807

/-- Number of low bits that do not fit into a 53-bit significand:
how often `m` is halved until it is below `2^53` (`fuel` bounds the count). -/
def excessBits : Nat → Nat → Nat
  | 0, _ => 0
  | fuel + 1, m => if m < 9007199254740992 then 0 else excessBits fuel (m / 2) + 1

/-- Go `float64(z)` for an integer `z`, as the integer the result denotes:
`z` itself up to `2^53` in absolute value, beyond that the nearest multiple of
the spacing `2^sh` of the `float64`s around `z`, ties going to the even
significand. -/
def float64 (z : Int) : Int :=
  let m := z.natAbs
  if m ≤ 9007199254740992 then z
  else
    let sh := excessBits m m
    let q := m / 2 ^ sh
    let r := m % 2 ^ sh
    let half := 2 ^ (sh - 1)
    let q1 := if r < half then q else if half < r then q + 1
      else if q % 2 = 0 then q else q + 1
    Int.sign z * ((q1 * 2 ^ sh : Nat) : Int)

/-- Go `x + y` on two `float64`s that hold integers: the exact sum, rounded. -/
def fadd (x y : Int) : Int := float64 (x + y)

/-- A `float64` that is the result of a division. -/
inductive F64 where
  | finite (q : ℚ)
  | posInf
  | negInf
  | nan
deriving DecidableEq

/-- Go `x / y` on two `float64`s that hold integers. -/
def fdiv (x y : Int) : F64 :=
  if y = 0 then
    if 0 < x then F64.posInf else if x < 0 then F64.negInf else F64.nan
  else F64.finite ((x : ℚ) / (y : ℚ))

/-- What a scheduler hands to `outputGantt` and `outputSchedule`. -/
structure Report where
  gantt : List TimeSlice
  schedule : List Row
  aveWait : F64
  aveTurnaround : F64
  aveThroughput : F64

/-- Read `processes[i]`. -/
def procAt (processes : List Process) (i : Nat) : Process :=
  processes.getD i ⟨0, 0, 0, 0⟩

/-- Read `a[i]` of an `[]int64`. -/
def at64 (a : List Int) (i : Nat) : Int := a.getD i 0

/-- State after at most `k` passes of `for cond { body }`. -/
def iterLoop {σ : Type} (cond : σ → Bool) (body : σ → σ) : Nat → σ → σ
  | 0, s => s
  | k + 1, s => if cond s then iterLoop cond body k (body s) else s

/-- The loop `for cond { body }` run with a bound on the number of passes:
`some` final state when the condition fails within the bound. -/
def runLoop {σ : Type} (cond : σ → Bool) (body : σ → σ) : Nat → σ → Option σ
  | 0, s => if cond s then none else some s
  | k + 1, s => if cond s then runLoop cond body k (body s) else some s

/-! ## FCFSSchedule -/

/-- Local variables of `FCFSSchedule` that live across loop passes. -/
structure FCFSState where
  serviceTime : Int
  totalWait : Int
  totalTurnaround : Int
  lastCompletion : Int
  waitingTime : Int
  schedule : List Row
  gantt : List TimeSlice

def fcfsInit : FCFSState :=
  { serviceTime := 0, totalWait := 0, totalTurnaround := 0, lastCompletion := 0,
    waitingTime := 0, schedule := [], gantt := [] }

/-- Body of the `for i := range processes` loop of `FCFSSchedule`
on `p = processes[i]`. -/
def fcfsBody (s : FCFSState) (p : Process) : FCFSState :=
  let waitingTime :=
    if p.ArrivalTime > 0 then sub64 s.serviceTime p.ArrivalTime else s.waitingTime
  let totalWait := fadd s.totalWait (float64 waitingTime)
  let start := add64 waitingTime p.ArrivalTime
  let turnaround := add64 p.BurstDuration waitingTime
  let totalTurnaround := fadd s.totalTurnaround (float64 turnaround)
  let completion := add64 (add64 p.BurstDuration p.ArrivalTime) waitingTime
  let lastCompletion := float64 completion
  let row : Row :=
    { id := p.ProcessID, priority := p.Priority, burst := p.BurstDuration,
      arrival := p.ArrivalTime, wait := waitingTime, turnaround := turnaround,
      completion := completion }
  let serviceTime := add64 s.serviceTime p.BurstDuration
  { serviceTime := serviceTime, totalWait := totalWait,
    totalTurnaround := totalTurnaround, lastCompletion := lastCompletion,
    waitingTime := waitingTime, schedule := s.schedule ++ [row],
    gantt := s.gantt ++ [{ PID := p.ProcessID, Start := start, Stop := serviceTime }] }

def fcfsLoop (processes : List Process) : FCFSState :=
  processes.foldl fcfsBody fcfsInit

def FCFSSchedule (processes : List Process) : Report :=
  let s := fcfsLoop processes
  let count := float64 (processes.length : Int)
  { gantt := s.gantt, schedule := s.schedule,
    aveWait := fdiv s.totalWait count,
    aveTurnaround := fdiv s.totalTurnaround count,
    aveThroughput := fdiv count s.lastCompletion }

/-! ## The closing loop shared by `SJFSchedule`, `SJFPrioritySchedule`, `RRSchedule`

The three functions end with the same `for i := range processes` loop, which
differs only in the arrays the seven columns are read from.  `emitBody` is the
loop body of `SJFSchedule` and `RRSchedule`, `emitBody64` the same body with
the wrap-around of `int64`, for `SJFPrioritySchedule`. -/

/-- Accumulators of the closing loop. -/
structure EmitState where
  totalTurnaround : Int
  totalWaitTime : Int
  finalCompletion : Int
  schedule : List Row
  gantt : List TimeSlice

def emitInit : EmitState :=
  { totalTurnaround := 0, totalWaitTime := 0, finalCompletion := 0,
    schedule := [], gantt := [] }

/-- One pass of the closing loop: `pid` is `processes[i].ProcessID`, the other
arguments are the values printed in columns 1 to 6 of `schedule[i]`. -/
def emitBody (s : EmitState) (pid id priority burst arrival wait turnaround : Int) :
    EmitState :=
  let start := wait + arrival
  let totalTurnaround := fadd s.totalTurnaround (float64 turnaround)
  let tempCompletion := burst + arrival + wait
  let totalWaitTime := fadd s.totalWaitTime (float64 wait)
  let finalCompletion :=
    if s.finalCompletion < tempCompletion then tempCompletion else s.finalCompletion
  { totalTurnaround := totalTurnaround, totalWaitTime := totalWaitTime,
    finalCompletion := finalCompletion,
    schedule := s.schedule ++
      [{ id := id, priority := priority, burst := burst, arrival := arrival,
         wait := wait, turnaround := turnaround, completion := tempCompletion }],
    gantt := s.gantt ++ [{ PID := pid, Start := start, Stop := finalCompletion }] }

/-- One pass of the closing loop of `SJFPrioritySchedule`: the body of
`emitBody` with every `int64` sum wrapped. -/
def emitBody64 (s : EmitState) (pid id priority burst arrival wait turnaround : Int) :
    EmitState :=
  let start := add64 wait arrival
  let totalTurnaround := fadd s.totalTurnaround (float64 turnaround)
  let tempCompletion := add64 (add64 burst arrival) wait
  let totalWaitTime := fadd s.totalWaitTime (float64 wait)
  let finalCompletion :=
    if s.finalCompletion < tempCompletion then tempCompletion else s.finalCompletion
  { totalTurnaround := totalTurnaround, totalWaitTime := totalWaitTime,
    finalCompletion := finalCompletion,
    schedule := s.schedule ++
      [{ id := id, priority := priority, burst := burst, arrival := arrival,
         wait := wait, turnaround := turnaround, completion := tempCompletion }],
    gantt := s.gantt ++ [{ PID := pid, Start := start, Stop := finalCompletion }] }

/-- The closing loop over `n` processes, the columns given as functions of
the index. -/
def emitLoop (pid id priority burst arrival wait turnaround : Nat → Int) (n : Nat) :
    EmitState :=
  (List.range n).foldl
    (fun s i =>
      emitBody s (pid i) (id i) (priority i) (burst i) (arrival i) (wait i) (turnaround i))
    emitInit

/-- The closing loop of `SJFPrioritySchedule` over `n` processes, the columns
given as functions of the index. -/
def emitLoop64 (pid id priority burst arrival wait turnaround : Nat → Int) (n : Nat) :
    EmitState :=
  (List.range n).foldl
    (fun s i =>
      emitBody64 s (pid i) (id i) (priority i) (burst i) (arrival i) (wait i) (turnaround i))
    emitInit

/-- The averages and the throughput computed after the closing loop. -/
def emitReport (n : Nat) (s : EmitState) : Report :=
  { gantt := s.gantt, schedule := s.schedule,
    aveWait := fdiv s.totalWaitTime (float64 (n : Int)),
    aveTurnaround := fdiv s.totalTurnaround (float64 (n : Int)),
    aveThroughput := fdiv (float64 (n : Int)) (float64 s.finalCompletion) }

/-! ## SJFPrioritySchedule -/

/-- The four parallel working arrays. -/
structure PrioArrays where
  tempB : List Int
  tempPID : List Int
  tempPriority : List Int
  tempArr : List Int

/-- First loop: copy the batch; `tempPID[i]` is overwritten by `i+1`. -/
def prioCopy (processes : List Process) : PrioArrays :=
  let n := processes.length
  (List.range n).foldl
    (fun a i =>
      let tempPID := a.tempPID.set i (procAt processes i).ProcessID
      let tempPriority := a.tempPriority.set i (procAt processes i).Priority
      let tempB := a.tempB.set i (procAt processes i).BurstDuration
      let tempArr := a.tempArr.set i (procAt processes i).ArrivalTime
      let tempPID := tempPID.set i ((i : Int) + 1)
      { tempB := tempB, tempPID := tempPID, tempPriority := tempPriority,
        tempArr := tempArr })
    { tempB := List.replicate n 0, tempPID := List.replicate n 0,
      tempPriority := List.replicate n 0, tempArr := List.replicate n 0 }

/-- Inner loop of the selection sort: `pos = i; for j = i+1; j < n; j++`. -/
def prioFindPos (tempPriority : List Int) (n i : Nat) : Nat :=
  (List.range' (i + 1) (n - (i + 1))).foldl
    (fun pos j => if at64 tempPriority j < at64 tempPriority pos then j else pos) i

/-- The three-assignment exchange `temp = a[i]; a[i] = a[pos]; a[pos] = temp`. -/
def swap64 (a : List Int) (i pos : Nat) : List Int :=
  let temp := at64 a i
  let a := a.set i (at64 a pos)
  a.set pos temp

/-- One pass of the outer loop of the selection sort. -/
def prioSortBody (n : Nat) (a : PrioArrays) (i : Nat) : PrioArrays :=
  let pos := prioFindPos a.tempPriority n i
  { tempPriority := swap64 a.tempPriority i pos,
    tempB := swap64 a.tempB i pos,
    tempPID := swap64 a.tempPID i pos,
    tempArr := swap64 a.tempArr i pos }

def prioSort (n : Nat) (a : PrioArrays) : PrioArrays :=
  (List.range n).foldl (prioSortBody n) a

/-- Inner loop of the waiting-time computation, for a fixed `i`:
`waiting_time[i] = 0; for j = 0; j < i; j++ { waiting_time[i] = ... }`. -/
def prioWaitInner (a : PrioArrays) (waiting_time : List Int) (i : Nat) : List Int :=
  (List.range i).foldl
    (fun w j => w.set i (sub64 (add64 (at64 w j) (at64 a.tempB j)) (at64 a.tempArr i)))
    (waiting_time.set i 0)

/-- The loop `for i = 1; i < n; i++` of the waiting-time computation, after
`waiting_time[0] = 0`. (The variable `total` is never read and is left out.) -/
def prioWait (n : Nat) (a : PrioArrays) : List Int :=
  (List.range' 1 (n - 1)).foldl (prioWaitInner a) ((List.replicate n 0).set 0 0)

/-- The loop filling `tat`. -/
def prioTat (n : Nat) (a : PrioArrays) (waiting_time : List Int) : List Int :=
  (List.range n).foldl
    (fun tat i => tat.set i (add64 (at64 a.tempB i) (at64 waiting_time i)))
    (List.replicate n 0)

def prioEmit (processes : List Process) (a : PrioArrays) (waiting_time tat : List Int) :
    EmitState :=
  (List.range processes.length).foldl
    (fun s i =>
      emitBody64 s (procAt processes i).ProcessID (at64 a.tempPID i)
        (at64 a.tempPriority i) (at64 a.tempB i) (at64 a.tempArr i)
        (at64 waiting_time i) (at64 tat i))
    emitInit

/-- `SJFPrioritySchedule`; `none` is the index-out-of-range failure of
`waiting_time[0] = 0` on a batch of length 0. -/
def SJFPrioritySchedule (processes : List Process) : Option Report :=
  let n := processes.length
  let a := prioSort n (prioCopy processes)
  if n = 0 then none
  else
    let waiting_time := prioWait n a
    let tat := prioTat n a waiting_time
    some (emitReport n (prioEmit processes a waiting_time tat))

/-! ## SJFSchedule -/

/-- The constant `math.MaxInt` (64-bit `int`). -/
def maxInt : Int := 9223372036854775807

/-- Local variables of `SJFSchedule` that live across passes of the tick loop. -/
structure SJFState where
  rt : List Int
  waitingTime : List Int
  complete : Nat
  t : Int
  minm : Int
  shortest : Nat
  finishTime : Int
  check : Bool
deriving DecidableEq, Repr

/-- Copy of the bursts into `rt`. -/
def sjfInit (processes : List Process) : SJFState :=
  let x := processes.length
  { rt := (List.range x).foldl
      (fun rt i => rt.set i (procAt processes i).BurstDuration) (List.replicate x 0),
    waitingTime := List.replicate x 0,
    complete := 0, t := 0, minm := maxInt, shortest := 0, finishTime := 0,
    check := false }

/-- Body of the scan `for i := range processes` inside the tick loop, acting
on `(minm, shortest, check)`. -/
def sjfScanBody (processes : List Process) (rt : List Int) (t : Int)
    (acc : Int × Nat × Bool) (i : Nat) : Int × Nat × Bool :=
  if (procAt processes i).ArrivalTime ≤ t ∧ at64 rt i < acc.1 ∧ at64 rt i > 0 then
    (at64 rt i, i, true)
  else acc

def sjfScan (processes : List Process) (s : SJFState) : Int × Nat × Bool :=
  (List.range processes.length).foldl (sjfScanBody processes s.rt s.t)
    (s.minm, s.shortest, s.check)

/-- The process run at the tick of state `s`, if any. -/
def sjfPick (processes : List Process) (s : SJFState) : Option Nat :=
  let r := sjfScan processes s
  if r.2.2 = false then none else some r.2.1

/-- One pass of the tick loop `for complete < x`. -/
def sjfStep (processes : List Process) (s : SJFState) : SJFState :=
  let r := sjfScan processes s
  let minm := r.1
  let shortest := r.2.1
  let check := r.2.2
  if check = false then
    { s with minm := minm, shortest := shortest, check := check, t := s.t + 1 }
  else
    let rt := s.rt.set shortest (at64 s.rt shortest - 1)
    let minm := at64 rt shortest
    let minm := if minm = 0 then maxInt else minm
    if at64 rt shortest = 0 then
      let finishTime := s.t + 1
      let w := finishTime - (procAt processes shortest).BurstDuration
        - (procAt processes shortest).ArrivalTime
      let w := if w < 0 then 0 else w
      { rt := rt, waitingTime := s.waitingTime.set shortest w,
        complete := s.complete + 1, t := s.t + 1, minm := minm, shortest := shortest,
        finishTime := finishTime, check := false }
    else
      { rt := rt, waitingTime := s.waitingTime, complete := s.complete, t := s.t + 1,
        minm := minm, shortest := shortest, finishTime := s.finishTime, check := check }

/-- Loop condition `complete < x`. -/
def sjfCond (processes : List Process) (s : SJFState) : Bool :=
  decide (s.complete < processes.length)

/-- State of the tick loop after at most `k` passes. -/
def sjfIter (processes : List Process) (k : Nat) : SJFState :=
  iterLoop (sjfCond processes) (sjfStep processes) k (sjfInit processes)

def findTurnAroundTime (processes : List Process) (waitingTime : List Int) : List Int :=
  (List.range processes.length).foldl
    (fun tat i => tat.set i ((procAt processes i).BurstDuration + at64 waitingTime i))
    (List.replicate processes.length 0)

def sjfEmit (processes : List Process) (waitingTime : List Int) : EmitState :=
  (List.range processes.length).foldl
    (fun s i =>
      let turnaround := findTurnAroundTime processes waitingTime
      emitBody s (procAt processes i).ProcessID (procAt processes i).ProcessID
        (procAt processes i).Priority (procAt processes i).BurstDuration
        (procAt processes i).ArrivalTime (at64 waitingTime i) (at64 turnaround i))
    emitInit

/-- `SJFSchedule` with a bound on the passes of the tick loop; `none` when the
loop has not ended within the bound. -/
def SJFSchedule (fuel : Nat) (processes : List Process) : Option Report :=
  (runLoop (sjfCond processes) (sjfStep processes) fuel (sjfInit processes)).map
    (fun s => emitReport processes.length (sjfEmit processes s.waitingTime))

/-! ## RRSchedule -/

/-- The local `time_quantum`. -/
def time_quantum : Int := 2

/-- Local variables of `RRSchedule` that live across passes of the dispatch loop. -/
structure RRState where
  count : Nat
  time : Int
  remain : Int
  flag : Int
  wait_time : List Int
  turnaround_time : List Int
  rt : List Int
deriving DecidableEq, Repr

def rrInit (processes : List Process) : RRState :=
  let n := processes.length
  { count := 0, time := 0, remain := (n : Int), flag := 0,
    wait_time := List.replicate n 0, turnaround_time := List.replicate n 0,
    rt := (List.range n).foldl
      (fun rt count => rt.set count (procAt processes count).BurstDuration)
      (List.replicate n 0) }

/-- First `if`/`else` of the dispatch loop: consume burst of `processes[count]`. -/
def rrDispatch (s : RRState) : RRState :=
  if at64 s.rt s.count ≤ time_quantum ∧ 0 < at64 s.rt s.count then
    { s with time := s.time + at64 s.rt s.count, rt := s.rt.set s.count 0, flag := 1 }
  else if 0 < at64 s.rt s.count then
    { s with rt := s.rt.set s.count (at64 s.rt s.count - time_quantum),
             time := s.time + time_quantum }
  else s

/-- Second `if`: book a completion. -/
def rrComplete (processes : List Process) (s : RRState) : RRState :=
  if at64 s.rt s.count = 0 ∧ s.flag = 1 then
    { s with
      remain := s.remain - 1,
      wait_time := s.wait_time.set s.count
        (at64 s.wait_time s.count + s.time - (procAt processes s.count).ArrivalTime
          - (procAt processes s.count).BurstDuration),
      turnaround_time := s.turnaround_time.set s.count
        (at64 s.turnaround_time s.count + s.time
          - (procAt processes s.count).ArrivalTime),
      flag := 0 }
  else s

/-- Third `if`: move the cursor. -/
def rrAdvance (processes : List Process) (s : RRState) : RRState :=
  if (s.count : Int) = (processes.length : Int) - 1 then { s with count := 0 }
  else if (procAt processes (s.count + 1)).ArrivalTime ≤ s.time then
    { s with count := s.count + 1 }
  else { s with count := 0 }

/-- One pass of the dispatch loop `for remain != 0`. -/
def rrStep (processes : List Process) (s : RRState) : RRState :=
  rrAdvance processes (rrComplete processes (rrDispatch s))

/-- Loop condition `remain != 0`. -/
def rrCond (s : RRState) : Bool := decide (s.remain ≠ 0)

/-- State of the dispatch loop after at most `k` passes. -/
def rrIter (processes : List Process) (k : Nat) : RRState :=
  iterLoop rrCond (rrStep processes) k (rrInit processes)

def rrEmit (processes : List Process) (s : RRState) : EmitState :=
  (List.range processes.length).foldl
    (fun e i =>
      emitBody e (procAt processes i).ProcessID (procAt processes i).ProcessID
        (procAt processes i).Priority (procAt processes i).BurstDuration
        (procAt processes i).ArrivalTime (at64 s.wait_time i)
        (at64 s.turnaround_time i))
    emitInit

/-- `RRSchedule` with a bound on the passes of the dispatch loop; `none` when
the loop has not ended within the bound. -/
def RRSchedule (fuel : Nat) (processes : List Process) : Option Report :=
  (runLoop rrCond (rrStep processes) fuel (rrInit processes)).map
    (fun s => emitReport processes.length (rrEmit processes s))

/-! ## Quantities used in the statements -/

/-- Sum of the bursts of the first `i` processes of the batch. -/
def burstsBefore (processes : List Process) (i : Nat) : Int :=
  ((processes.take i).map (fun p => p.BurstDuration)).sum

/-- Sum of all bursts of the batch. -/
def totalBurst (processes : List Process) : Int :=
  (processes.map (fun p => p.BurstDuration)).sum

/-- Largest arrival time of the batch (0 for the empty batch). -/
def maxArrival (processes : List Process) : Int :=
  (processes.map (fun p => p.ArrivalTime)).foldl max 0

/-- Value of the variable `waitingTime` of `FCFSSchedule` after `i` passes. -/
def fcfsWaitAfter (processes : List Process) : Nat → Int
  | 0 => 0
  | i + 1 =>
    if (procAt processes i).ArrivalTime > 0 then
      wrap64 (burstsBefore processes i - (procAt processes i).ArrivalTime)
    else fcfsWaitAfter processes i

/-- Closed form of `schedule[i]` of `FCFSSchedule`. -/
def fcfsRowAt (processes : List Process) (i : Nat) : Row :=
  let p := procAt processes i
  let w := fcfsWaitAfter processes (i + 1)
  { id := p.ProcessID, priority := p.Priority, burst := p.BurstDuration,
    arrival := p.ArrivalTime, wait := w, turnaround := add64 p.BurstDuration w,
    completion := add64 (add64 p.BurstDuration p.ArrivalTime) w }

/-- Closed form of `gantt[i]` of `FCFSSchedule`. -/
def fcfsSliceAt (processes : List Process) (i : Nat) : TimeSlice :=
  { PID := (procAt processes i).ProcessID,
    Start := add64 (fcfsWaitAfter processes (i + 1)) (procAt processes i).ArrivalTime,
    Stop := wrap64 (burstsBefore processes (i + 1)) }

/-- Number of entries of `rt` that are still positive. -/
def unfinished (rt : List Int) : Nat := rt.countP (fun x => decide (0 < x))

/-- The batch of the concrete scenario: ids 1, 2, 3, bursts 5, 3, 8,
arrivals 0, 1, 2. -/
def batch1 : List Process := [⟨1, 0, 5, 0⟩, ⟨2, 1, 3, 0⟩, ⟨3, 2, 8, 0⟩]

/-- A batch with an idle gap: bursts 1, 1 and arrivals 0, 10. -/
def rrGapBatch : List Process := [⟨1, 0, 1, 0⟩, ⟨2, 10, 1, 0⟩]

/-! ## Loop invariants -/

/-- Invariant of the dispatch loop of `RRSchedule`, at the loop head. -/
structure RRInv (ps : List Process) (s : RRState) : Prop where
  len_rt : s.rt.length = ps.length
  len_wait : s.wait_time.length = ps.length
  len_tat : s.turnaround_time.length = ps.length
  count_lt : s.count < ps.length
  flag0 : s.flag = 0
  rt_nonneg : ∀ i, 0 ≤ at64 s.rt i
  rt_le : ∀ i, at64 s.rt i ≤ (procAt ps i).BurstDuration
  clock : s.time + s.rt.sum = totalBurst ps
  remain_eq : s.remain = (unfinished s.rt : Int)
  pending : ∀ i, 0 < at64 s.rt i →
    at64 s.wait_time i = 0 ∧ at64 s.turnaround_time i = 0
  finished : ∀ i, i < ps.length → at64 s.rt i = 0 →
    at64 s.turnaround_time i = at64 s.wait_time i + (procAt ps i).BurstDuration ∧
    at64 s.wait_time i + (procAt ps i).ArrivalTime + (procAt ps i).BurstDuration ≤ s.time
  last : s.remain = 0 → ∃ i, i < ps.length ∧
    at64 s.wait_time i + (procAt ps i).ArrivalTime + (procAt ps i).BurstDuration = s.time
  time_nonneg : 0 ≤ s.time
  cursor : s.count ≠ 0 → (procAt ps s.count).ArrivalTime ≤ s.time
  started : (procAt ps 0).ArrivalTime ≤ 0 → ∀ i, i < ps.length →
    at64 s.rt i < (procAt ps i).BurstDuration →
    (procAt ps i).ArrivalTime + (procAt ps i).BurstDuration - at64 s.rt i ≤ s.time
  wait_nonneg : (procAt ps 0).ArrivalTime ≤ 0 → ∀ i, 0 ≤ at64 s.wait_time i

/-- Process `j` is a candidate at the tick of state `s`: it has arrived and is
unfinished. -/
def sjfElig (ps : List Process) (s : SJFState) (j : Nat) : Prop :=
  j < ps.length ∧ (procAt ps j).ArrivalTime ≤ s.t ∧ 0 < at64 s.rt j

/-- Invariant of the tick loop of `SJFSchedule`, at the loop head. -/
structure SJFInv (ps : List Process) (s : SJFState) : Prop where
  len_rt : s.rt.length = ps.length
  rt_nonneg : ∀ i, 0 ≤ at64 s.rt i
  rt_lt : ∀ i, at64 s.rt i < maxInt
  complete_eq : s.complete + unfinished s.rt = ps.length
  sum_le : s.rt.sum ≤ totalBurst ps
  clock : s.t + s.rt.sum ≤ maxArrival ps + totalBurst ps
  t_nonneg : 0 ≤ s.t
  mode : (s.check = false ∧ s.minm = maxInt) ∨
    (s.check = true ∧ s.shortest < ps.length ∧ s.minm = at64 s.rt s.shortest ∧
      0 < s.minm ∧ (procAt ps s.shortest).ArrivalTime < s.t ∧
      ∀ j, j < ps.length → j ≠ s.shortest → (procAt ps j).ArrivalTime < s.t →
        0 < at64 s.rt j → s.minm < at64 s.rt j)

/-- The process that was run at the pass before pass `k` of the tick loop and
was left unfinished by it, if any. -/
def sjfHeld (ps : List Process) : Nat → Option Nat
  | 0 => none
  | k + 1 =>
    match sjfPick ps (sjfIter ps k) with
    | none => none
    | some p => if 0 < at64 (sjfIter ps (k + 1)).rt p then some p else none

/-- Running maximum of the completion times of the first `k` rows, starting
from the initial value 0 of `finalCompletion`. -/
def completionMax (schedule : List Row) (k : Nat) : Int :=
  ((schedule.take k).map (fun r => r.completion)).foldl max 0

/-- The stop field of the `i`-th interval is the running maximum of the
completion times of rows `0..i`, the stop fields are non-decreasing, and the
last stop field is the denominator of the throughput of a batch of `n`
processes. -/
def StopsAreRunningMax (n : Nat) (out : Report) : Prop :=
  out.gantt.length = out.schedule.length ∧
  (∀ i g, out.gantt[i]? = some g → g.Stop = completionMax out.schedule (i + 1)) ∧
  (∀ (i j : Nat) (gi gj : TimeSlice), i ≤ j → out.gantt[i]? = some gi → out.gantt[j]? = some gj →
    gi.Stop ≤ gj.Stop) ∧
  (∀ g, out.gantt.getLast? = some g →
    out.aveThroughput = fdiv (float64 (n : Int)) (float64 g.Stop))

/-- One interval and one row per process, in batch order: the `i`-th row
shows priority, burst and arrival of `processes[i]`, and the `i`-th interval
carries its `ProcessID` and starts at that row's waiting + arrival, the sum
being taken by `plus`. -/
def RowsInBatchOrder (plus : Int → Int → Int) (processes : List Process) (out : Report) :
    Prop :=
  out.gantt.length = processes.length ∧ out.schedule.length = processes.length ∧
  ∀ i, i < processes.length → ∃ r g, out.schedule[i]? = some r ∧ out.gantt[i]? = some g ∧
    r.priority = (procAt processes i).Priority ∧
    r.burst = (procAt processes i).BurstDuration ∧
    r.arrival = (procAt processes i).ArrivalTime ∧
    g.PID = (procAt processes i).ProcessID ∧
    g.Start = plus r.wait r.arrival

/-- One interval and one row per process, in the order of the working copy
`a`: the `i`-th row shows `tempPriority[i]`, `tempB[i]`, `tempArr[i]`, and the
`i`-th interval starts at that row's waiting + arrival, added as `int64`s. -/
def RowsInWorkingOrder (processes : List Process) (a : PrioArrays) (out : Report) : Prop :=
  out.gantt.length = processes.length ∧ out.schedule.length = processes.length ∧
  ∀ i, i < processes.length → ∃ r g, out.schedule[i]? = some r ∧ out.gantt[i]? = some g ∧
    r.priority = at64 a.tempPriority i ∧
    r.burst = at64 a.tempB i ∧
    r.arrival = at64 a.tempArr i ∧
    g.Start = add64 r.wait r.arrival

/-- Completion time shown in the last row of a schedule (0 when there is no row). -/
def lastRowCompletion (schedule : List Row) : Int :=
  match schedule.getLast? with
  | some r => r.completion
  | none => 0

/-- Entry `k` of the four parallel working arrays, as
`(tempPID[k], tempPriority[k], tempB[k], tempArr[k])`. -/
def prioQuadAt (a : PrioArrays) (k : Nat) : Int × Int × Int × Int :=
  (at64 a.tempPID k, at64 a.tempPriority k, at64 a.tempB k, at64 a.tempArr k)

/-- The first `n` entries of the working arrays, read together. -/
def prioQuads (a : PrioArrays) (n : Nat) : List (Int × Int × Int × Int) :=
  (List.range n).map (prioQuadAt a)

/-- The `(priority, burst, arrival)` triples of the first `n` entries of the
working arrays. -/
def prioTriples (a : PrioArrays) (n : Nat) : List (Int × Int × Int) :=
  (List.range n).map (fun k => (at64 a.tempPriority k, at64 a.tempB k, at64 a.tempArr k))

/-- The `(priority, burst, arrival)` triples of the input batch. -/
def batchTriples (processes : List Process) : List (Int × Int × Int) :=
  processes.map (fun p => (p.Priority, p.BurstDuration, p.ArrivalTime))

/-- Input process `k` as `(k + 1, priority, burst, arrival)`. -/
def batchQuadAt (processes : List Process) (k : Nat) : Int × Int × Int × Int :=
  ((k : Int) + 1, (procAt processes k).Priority, (procAt processes k).BurstDuration,
    (procAt processes k).ArrivalTime)

/-- The working arrays all have length `n`. -/
def PrioLens (n : Nat) (a : PrioArrays) : Prop :=
  a.tempB.length = n ∧ a.tempPID.length = n ∧ a.tempPriority.length = n ∧
    a.tempArr.length = n

/-- The waiting times as the specification states them: `waitingTime[0] = 0`
and `waitingTime[i] = waitingTime[i-1] + burst[i-1] - arrival[i]` for `i >= 1`,
over the working arrays `a`. -/
def prioWaitSpec (a : PrioArrays) : Nat → Int
  | 0 => 0
  | i + 1 => prioWaitSpec a i + at64 a.tempB i - at64 a.tempArr (i + 1)

/-- Value of `waiting_time[i]` after the nested loop of `SJFPrioritySchedule`
over the working arrays `a`: the same recurrence as the loop computes it, in
`int64` arithmetic. -/
def prioWaitAt (a : PrioArrays) : Nat → Int
  | 0 => 0
  | i + 1 => sub64 (add64 (prioWaitAt a i) (at64 a.tempB i)) (at64 a.tempArr (i + 1))

/-- Invariant of the tick loop of `SJFSchedule` that holds whatever the size
of the bursts: bookkeeping of `rt`, `waitingTime` and of the held process. -/
structure SJFRun (ps : List Process) (s : SJFState) : Prop where
  len_rt : s.rt.length = ps.length
  len_wait : s.waitingTime.length = ps.length
  rt_nonneg : ∀ i, 0 ≤ at64 s.rt i
  rt_le : ∀ i, at64 s.rt i ≤ (procAt ps i).BurstDuration
  complete_eq : s.complete + unfinished s.rt = ps.length
  held : s.check = true →
    s.shortest < ps.length ∧ (procAt ps s.shortest).ArrivalTime ≤ s.t ∧
      0 < at64 s.rt s.shortest
  started : ∀ i, i < ps.length → at64 s.rt i < (procAt ps i).BurstDuration →
    (procAt ps i).ArrivalTime + (procAt ps i).BurstDuration - at64 s.rt i ≤ s.t
  wait_nonneg : ∀ i, 0 ≤ at64 s.waitingTime i

/-- The report has exactly one row, and its averages are that row's waiting
and turnaround times and its throughput is 1 over that row's completion time. -/
def SingleRowAverages (out : Report) : Prop :=
  ∃ r, out.schedule = [r] ∧ out.aveWait = F64.finite (r.wait : ℚ) ∧
    out.aveTurnaround = F64.finite (r.turnaround : ℚ) ∧
    out.aveThroughput = F64.finite (1 / (r.completion : ℚ))

/-! ## SJFPrioritySchedule with checked indexing

The same function with every slice access bounds-checked, as Go does at run
time: `none` is the index-out-of-range failure. -/

/-- Checked read `a[i]`. -/
def read64 (a : List Int) (i : Nat) : Option Int :=
  if i < a.length then some (at64 a i) else none

/-- Checked write `a[i] = v`. -/
def write64 (a : List Int) (i : Nat) (v : Int) : Option (List Int) :=
  if i < a.length then some (a.set i v) else none

/-- Checked read `processes[i]`. -/
def readProc (processes : List Process) (i : Nat) : Option Process :=
  if i < processes.length then some (procAt processes i) else none

def prioCopyChecked (processes : List Process) : Option PrioArrays :=
  let n := processes.length
  (List.range n).foldlM
    (fun a i => do
      let p ← readProc processes i
      let tempPID ← write64 a.tempPID i p.ProcessID
      let tempPriority ← write64 a.tempPriority i p.Priority
      let tempB ← write64 a.tempB i p.BurstDuration
      let tempArr ← write64 a.tempArr i p.ArrivalTime
      let tempPID ← write64 tempPID i ((i : Int) + 1)
      pure ({ tempB := tempB, tempPID := tempPID, tempPriority := tempPriority,
              tempArr := tempArr } : PrioArrays))
    { tempB := List.replicate n 0, tempPID := List.replicate n 0,
      tempPriority := List.replicate n 0, tempArr := List.replicate n 0 }

def prioFindPosChecked (tempPriority : List Int) (n i : Nat) : Option Nat :=
  (List.range' (i + 1) (n - (i + 1))).foldlM
    (fun pos j => do
      let x ← read64 tempPriority j
      let y ← read64 tempPriority pos
      pure (if x < y then j else pos)) i

def swap64Checked (a : List Int) (i pos : Nat) : Option (List Int) := do
  let temp ← read64 a i
  let v ← read64 a pos
  let a ← write64 a i v
  write64 a pos temp

def prioSortBodyChecked (n : Nat) (a : PrioArrays) (i : Nat) : Option PrioArrays := do
  let pos ← prioFindPosChecked a.tempPriority n i
  let tempPriority ← swap64Checked a.tempPriority i pos
  let tempB ← swap64Checked a.tempB i pos
  let tempPID ← swap64Checked a.tempPID i pos
  let tempArr ← swap64Checked a.tempArr i pos
  pure { tempPriority := tempPriority, tempB := tempB, tempPID := tempPID,
         tempArr := tempArr }

def prioSortChecked (n : Nat) (a : PrioArrays) : Option PrioArrays :=
  (List.range n).foldlM (prioSortBodyChecked n) a

def prioWaitInnerChecked (a : PrioArrays) (waiting_time : List Int) (i : Nat) :
    Option (List Int) := do
  let w ← write64 waiting_time i 0
  (List.range i).foldlM
    (fun w j => do
      let x ← read64 w j
      let b ← read64 a.tempB j
      let r ← read64 a.tempArr i
      write64 w i (sub64 (add64 x b) r)) w

def prioWaitChecked (n : Nat) (a : PrioArrays) : Option (List Int) := do
  let w ← write64 (List.replicate n 0) 0 0
  (List.range' 1 (n - 1)).foldlM (prioWaitInnerChecked a) w

def prioTatChecked (n : Nat) (a : PrioArrays) (waiting_time : List Int) :
    Option (List Int) :=
  (List.range n).foldlM
    (fun tat i => do
      let b ← read64 a.tempB i
      let x ← read64 waiting_time i
      write64 tat i (add64 b x))
    (List.replicate n 0)

def prioEmitChecked (processes : List Process) (a : PrioArrays)
    (waiting_time tat : List Int) : Option EmitState :=
  (List.range processes.length).foldlM
    (fun s i => do
      let p ← readProc processes i
      let id ← read64 a.tempPID i
      let priority ← read64 a.tempPriority i
      let burst ← read64 a.tempB i
      let arrival ← read64 a.tempArr i
      let wait ← read64 waiting_time i
      let turnaround ← read64 tat i
      pure (emitBody64 s p.ProcessID id priority burst arrival wait turnaround))
    emitInit

/-- `SJFPrioritySchedule` with checked indexing. -/
def SJFPriorityScheduleChecked (processes : List Process) : Option Report := do
  let n := processes.length
  let a ← prioCopyChecked processes
  let a ← prioSortChecked n a
  let waiting_time ← prioWaitChecked n a
  let tat ← prioTatChecked n a waiting_time
  let s ← prioEmitChecked processes a waiting_time tat
  pure (emitReport n s)

/-! ## Lists as arrays -/

theorem at64_set (a : List Int) (i j : Nat) (v : Int) :
    at64 (a.set i v) j = if i = j ∧ i < a.length then v else at64 a j := by
  unfold at64
  induction a generalizing i j with
  | nil => simp
  | cons x xs ih =>
    cases i with
    | zero =>
      cases j with
      | zero => simp
      | succ j => simp
    | succ i =>
      cases j with
      | zero => simp
      | succ j => simpa using ih i j

theorem at64_set_self (a : List Int) (i : Nat) (v : Int) (h : i < a.length) :
    at64 (a.set i v) i = v := by
  rw [at64_set]; simp [h]

theorem at64_set_ne (a : List Int) (i j : Nat) (v : Int) (h : i ≠ j) :
    at64 (a.set i v) j = at64 a j := by
  rw [at64_set]; simp [h]

theorem at64_of_le (a : List Int) (i : Nat) (h : a.length ≤ i) : at64 a i = 0 := by
  unfold at64
  simp [List.getD, List.getElem?_eq_none h]

theorem sum_set (a : List Int) (i : Nat) (v : Int) (h : i < a.length) :
    (a.set i v).sum = a.sum - at64 a i + v := by
  unfold at64
  induction a generalizing i with
  | nil => simp at h
  | cons x xs ih =>
    cases i with
    | zero => simp; ring
    | succ i =>
      have := ih i (by simpa using h)
      simp only [List.set_cons_succ, List.sum_cons, this, List.getD_cons_succ]
      ring

theorem unfinished_set (a : List Int) (i : Nat) (v : Int) (h : i < a.length) :
    unfinished (a.set i v) + (if 0 < at64 a i then 1 else 0) =
      unfinished a + (if 0 < v then 1 else 0) := by
  unfold at64 unfinished
  induction a generalizing i with
  | nil => simp at h
  | cons x xs ih =>
    cases i with
    | zero =>
      simp only [List.set_cons_zero, List.countP_cons, List.getD_cons_zero,
        decide_eq_true_eq]
      omega
    | succ i =>
      have := ih i (by simpa using h)
      simp only [List.set_cons_succ, List.countP_cons, List.getD_cons_succ,
        decide_eq_true_eq] at this ⊢
      omega

theorem unfinished_eq_zero (a : List Int) (h : unfinished a = 0) (i : Nat) :
    at64 a i ≤ 0 := by
  unfold at64 unfinished at *
  induction a generalizing i with
  | nil => simp
  | cons x xs ih =>
    simp only [List.countP_cons, decide_eq_true_eq] at h
    cases i with
    | zero =>
      simp only [List.getD_cons_zero]
      by_contra hx
      simp [lt_of_not_ge hx] at h
    | succ i =>
      simp only [List.getD_cons_succ]
      exact ih (by omega) i

theorem unfinished_pos (a : List Int) (i : Nat) (h : 0 < at64 a i) : 0 < unfinished a := by
  by_contra hc
  have := unfinished_eq_zero a (by omega) i
  omega

/-- A loop `for i < m { a[i] = f i }` writes `f i` at every index below `m`. -/
theorem foldl_set_range (f : Nat → Int) (init : List Int) : ∀ m, m ≤ init.length →
    ((List.range m).foldl (fun acc i => acc.set i (f i)) init).length = init.length ∧
    ∀ i, at64 ((List.range m).foldl (fun acc i => acc.set i (f i)) init) i =
      if i < m then f i else at64 init i := by
  intro m
  induction m with
  | zero => intro _; simp
  | succ m ih =>
    intro hm
    obtain ⟨h1, h2⟩ := ih (by omega)
    rw [List.range_succ, List.foldl_append]
    simp only [List.foldl_cons, List.foldl_nil, List.length_set]
    refine ⟨h1, fun i => ?_⟩
    rw [at64_set, h1, h2]
    by_cases hi : m = i
    · subst hi; simp; omega
    · have : ¬ (m = i ∧ m < init.length) := fun h => hi h.1
      rw [if_neg this]
      by_cases h3 : i < m
      · simp [h3]; omega
      · have : ¬ i < m + 1 := by omega
        simp [h3, this]

theorem procAt_mem (ps : List Process) (i : Nat) (h : i < ps.length) : procAt ps i ∈ ps := by
  unfold procAt
  rw [List.getD_eq_getElem ps _ h]
  exact List.getElem_mem h

theorem take_succ_procAt (ps : List Process) (k : Nat) (hk : k < ps.length) :
    ps.take (k + 1) = ps.take k ++ [procAt ps k] := by
  rw [List.take_succ]
  simp [procAt, List.getD, List.getElem?_eq_getElem hk]

theorem burstsBefore_succ (ps : List Process) (k : Nat) (hk : k < ps.length) :
    burstsBefore ps (k + 1) = burstsBefore ps k + (procAt ps k).BurstDuration := by
  unfold burstsBefore
  rw [take_succ_procAt ps k hk]
  simp

theorem burstsBefore_lt (ps : List Process) (hb : ∀ p ∈ ps, 1 ≤ p.BurstDuration) :
    ∀ j, j ≤ ps.length → ∀ i, i < j → burstsBefore ps i < burstsBefore ps j := by
  intro j
  induction j with
  | zero => intro _ i hi; omega
  | succ j ih =>
    intro hj i hi
    have hj' : j < ps.length := hj
    have h1 := hb _ (procAt_mem ps j hj')
    rw [burstsBefore_succ ps j hj']
    rcases Nat.lt_succ_iff_lt_or_eq.mp hi with h | h
    · have := ih (Nat.le_of_lt hj') i h
      omega
    · subst h; omega

/-! ## int64 and float64 arithmetic -/

theorem wrap64_of_int64 (z : Int) (h : Int64 z) : wrap64 z = z := by
  unfold wrap64; unfold Int64 at h; omega

theorem wrap64_int64 (z : Int) : Int64 (wrap64 z) := by
  unfold wrap64 Int64; omega

theorem wrap64_add_left (x y : Int) : wrap64 (wrap64 x + y) = wrap64 (x + y) := by
  unfold wrap64; omega

theorem wrap64_add_right (x y : Int) : wrap64 (x + wrap64 y) = wrap64 (x + y) := by
  unfold wrap64; omega

theorem wrap64_sub_left (x y : Int) : wrap64 (wrap64 x - y) = wrap64 (x - y) := by
  unfold wrap64; omega

theorem wrap64_zero : wrap64 0 = 0 := by decide

/-- Go `a + b + c` on `int64` is the wrapped exact sum. -/
theorem add64_add64 (x y z : Int) : add64 (add64 x y) z = wrap64 (x + y + z) := by
  unfold add64; rw [wrap64_add_left]

/-- Integers up to `2^53` in absolute value are `float64`s. -/
theorem float64_of_le (z : Int) (h1 : -9007199254740992 ≤ z) (h2 : z ≤ 9007199254740992) :
    float64 z = z := by
  have h : z.natAbs ≤ 9007199254740992 := by omega
  unfold float64; simp only [h, if_true]

theorem fadd_zero (z : Int) (h1 : -9007199254740992 ≤ z) (h2 : z ≤ 9007199254740992) :
    fadd 0 (float64 z) = z := by
  unfold fadd
  rw [float64_of_le z h1 h2, zero_add, float64_of_le z h1 h2]

theorem fdiv_of_ne (x y : Int) (h : y ≠ 0) : fdiv x y = F64.finite ((x : ℚ) / (y : ℚ)) := by
  unfold fdiv; rw [if_neg h]

theorem fdiv_one (x : Int) : fdiv x 1 = F64.finite (x : ℚ) := by
  rw [fdiv_of_ne x 1 (by decide)]; simp

/-! ## FCFSSchedule: closed form of the loop -/

theorem fcfs_take (ps : List Process) : ∀ k, k ≤ ps.length →
    (fcfsLoop (ps.take k)).serviceTime = wrap64 (burstsBefore ps k) ∧
    (fcfsLoop (ps.take k)).waitingTime = fcfsWaitAfter ps k ∧
    (fcfsLoop (ps.take k)).schedule = (List.range k).map (fcfsRowAt ps) ∧
    (fcfsLoop (ps.take k)).gantt = (List.range k).map (fcfsSliceAt ps) := by
  intro k
  induction k with
  | zero =>
    intro _
    simp [fcfsLoop, fcfsInit, burstsBefore, fcfsWaitAfter, wrap64_zero]
  | succ k ih =>
    intro hk
    have hk' : k < ps.length := hk
    obtain ⟨h1, h2, h3, h4⟩ := ih (Nat.le_of_lt hk')
    have hs : fcfsLoop (ps.take (k + 1)) =
        fcfsBody (fcfsLoop (ps.take k)) (procAt ps k) := by
      unfold fcfsLoop
      rw [take_succ_procAt ps k hk', List.foldl_append]
      rfl
    rw [hs]
    refine ⟨?_, ?_, ?_, ?_⟩
    · simp only [fcfsBody, h1, burstsBefore_succ ps k hk', add64, wrap64_add_left]
    · simp only [fcfsBody, h1, h2, fcfsWaitAfter, sub64, wrap64_sub_left]
    · simp only [fcfsBody, h1, h2, h3, List.range_succ, List.map_append, List.map_cons,
        List.map_nil, fcfsRowAt, fcfsWaitAfter, sub64, wrap64_sub_left]
    · simp only [fcfsBody, h1, h2, h4, List.range_succ, List.map_append, List.map_cons,
        List.map_nil, fcfsSliceAt, fcfsWaitAfter, burstsBefore_succ ps k hk', sub64,
        wrap64_sub_left, add64, wrap64_add_left]

theorem fcfs_schedule (ps : List Process) :
    (FCFSSchedule ps).schedule = (List.range ps.length).map (fcfsRowAt ps) := by
  have h := (fcfs_take ps ps.length (le_refl _)).2.2.1
  rw [List.take_length] at h
  exact h

theorem fcfs_gantt (ps : List Process) :
    (FCFSSchedule ps).gantt = (List.range ps.length).map (fcfsSliceAt ps) := by
  have h := (fcfs_take ps ps.length (le_refl _)).2.2.2
  rw [List.take_length] at h
  exact h

theorem fcfs_schedule_at (ps : List Process) (i : Nat) (hi : i < ps.length) :
    (FCFSSchedule ps).schedule[i]? = some (fcfsRowAt ps i) := by
  rw [fcfs_schedule]
  simp [List.getElem?_map, List.getElem?_range hi]

theorem fcfs_gantt_at (ps : List Process) (i : Nat) (hi : i < ps.length) :
    (FCFSSchedule ps).gantt[i]? = some (fcfsSliceAt ps i) := by
  rw [fcfs_gantt]
  simp [List.getElem?_map, List.getElem?_range hi]

theorem fcfsWaitAfter_zero (ps : List Process)
    (ha : ∀ p ∈ ps, p.ArrivalTime = 0) : ∀ k, k ≤ ps.length → fcfsWaitAfter ps k = 0 := by
  intro k
  induction k with
  | zero => intro _; rfl
  | succ k ih =>
    intro hk
    have h0 := ha _ (procAt_mem ps k hk)
    simp only [fcfsWaitAfter, h0, gt_iff_lt, lt_self_iff_false, if_false]
    exact ih (Nat.le_of_lt hk)

theorem burstsBefore_length (ps : List Process) : burstsBefore ps ps.length = totalBurst ps := by
  unfold burstsBefore totalBurst
  rw [List.take_length]

/-- With bursts of at least 1 the sums of the first `k` bursts lie between 0
and the sum of all bursts. -/
theorem burstsBefore_bounds (ps : List Process) (hb : ∀ p ∈ ps, 1 ≤ p.BurstDuration)
    (k : Nat) (hk : k ≤ ps.length) :
    0 ≤ burstsBefore ps k ∧ burstsBefore ps k ≤ totalBurst ps := by
  have h0 : burstsBefore ps 0 = 0 := by simp [burstsBefore]
  constructor
  · rcases Nat.eq_zero_or_pos k with h | h
    · subst h; omega
    · have := burstsBefore_lt ps hb k hk 0 h
      omega
  · rw [← burstsBefore_length ps]
    rcases Nat.lt_or_ge k ps.length with h | h
    · have := burstsBefore_lt ps hb ps.length (le_refl _) k h
      omega
    · have : k = ps.length := by omega
      subst this; exact le_refl _

/-- The sums written by `fcfsRowAt` and `fcfsSliceAt`, as wrapped exact sums. -/
theorem fcfsRowAt_completion (ps : List Process) (i : Nat) :
    (fcfsRowAt ps i).completion = wrap64 ((procAt ps i).BurstDuration
      + (procAt ps i).ArrivalTime + fcfsWaitAfter ps (i + 1)) := by
  simp only [fcfsRowAt, add64_add64]

/-! ## FCFSSchedule: the claims -/

/-- C2, as stated, fails: on the batch with bursts 9223372036854775807, 1 and
arrivals 0, 1 the second process has a positive arrival time, the sum of the
bursts up to and including it is 9223372036854775808, and the completion time
reported for it is -9223372036854775808: the `int64` sum has wrapped. -/
theorem FCFS_completion_wrap_counterexample :
    0 < (procAt [⟨1, 0, 9223372036854775807, 0⟩, ⟨2, 1, 1, 0⟩] 1).ArrivalTime ∧
    (FCFSSchedule [⟨1, 0, 9223372036854775807, 0⟩, ⟨2, 1, 1, 0⟩]).schedule.map
      (fun r => r.completion) = [9223372036854775807, -9223372036854775808] ∧
    burstsBefore [⟨1, 0, 9223372036854775807, 0⟩, ⟨2, 1, 1, 0⟩] (1 + 1)
      = 9223372036854775808 := by
  decide

/-- C2, amended. In `FCFSSchedule`, for every batch and every index `i` whose
arrival time is positive and for which the three values (sum of the bursts
before `i`) - arrival, (sum of the bursts up to and including `i`) - arrival
and (sum of the bursts up to and including `i`) lie in the range of `int64`,
the row of process `i` reports waiting = (sum of the bursts before `i`) -
arrival, turnaround = waiting + burst and completion = sum of the bursts up to
and including `i`; and the batch of the concrete scenario yields waiting
`[0,4,6]`, turnaround `[5,7,14]`, completion `[5,8,16]`, average wait 10/3,
average turnaround 26/3 and throughput 3/16. -/
theorem FCFS_rows_of_positive_arrival (ps : List Process) (i : Nat) (hi : i < ps.length)
    (ha : 0 < (procAt ps i).ArrivalTime)
    (hw : Int64 (burstsBefore ps i - (procAt ps i).ArrivalTime))
    (ht : Int64 (burstsBefore ps (i + 1) - (procAt ps i).ArrivalTime))
    (hc : Int64 (burstsBefore ps (i + 1))) :
    (∃ r, (FCFSSchedule ps).schedule[i]? = some r ∧
      r.wait = burstsBefore ps i - (procAt ps i).ArrivalTime ∧
      r.turnaround = r.wait + (procAt ps i).BurstDuration ∧
      r.completion = burstsBefore ps (i + 1)) ∧
    (FCFSSchedule batch1).schedule.map (fun r => r.wait) = [0, 4, 6] ∧
    (FCFSSchedule batch1).schedule.map (fun r => r.turnaround) = [5, 7, 14] ∧
    (FCFSSchedule batch1).schedule.map (fun r => r.completion) = [5, 8, 16] ∧
    (FCFSSchedule batch1).aveWait = F64.finite (10 / 3) ∧
    (FCFSSchedule batch1).aveTurnaround = F64.finite (26 / 3) ∧
    (FCFSSchedule batch1).aveThroughput = F64.finite (3 / 16) := by
  have hwait : fcfsWaitAfter ps (i + 1) = burstsBefore ps i - (procAt ps i).ArrivalTime := by
    simp only [fcfsWaitAfter, gt_iff_lt, ha, if_true]
    exact wrap64_of_int64 _ hw
  have hsucc := burstsBefore_succ ps i hi
  have hn : float64 ((batch1.length : Nat) : Int) = 3 := by decide
  refine ⟨⟨fcfsRowAt ps i, fcfs_schedule_at ps i hi, ?_, ?_, ?_⟩, by decide, by decide,
    by decide, ?_, ?_, ?_⟩
  · simp only [fcfsRowAt, hwait]
  · have e : (procAt ps i).BurstDuration
        + (burstsBefore ps i - (procAt ps i).ArrivalTime)
        = burstsBefore ps (i + 1) - (procAt ps i).ArrivalTime := by omega
    simp only [fcfsRowAt, hwait, add64, e]
    rw [wrap64_of_int64 _ ht]
    omega
  · rw [fcfsRowAt_completion, hwait]
    have e : (procAt ps i).BurstDuration + (procAt ps i).ArrivalTime
        + (burstsBefore ps i - (procAt ps i).ArrivalTime) = burstsBefore ps (i + 1) := by
      omega
    rw [e, wrap64_of_int64 _ hc]
  · have h : (fcfsLoop batch1).totalWait = 10 := by decide
    show fdiv (fcfsLoop batch1).totalWait (float64 ((batch1.length : Nat) : Int)) = _
    rw [h, hn]; norm_num [fdiv]
  · have h : (fcfsLoop batch1).totalTurnaround = 26 := by decide
    show fdiv (fcfsLoop batch1).totalTurnaround (float64 ((batch1.length : Nat) : Int)) = _
    rw [h, hn]; norm_num [fdiv]
  · have h : (fcfsLoop batch1).lastCompletion = 16 := by decide
    show fdiv (float64 ((batch1.length : Nat) : Int)) (fcfsLoop batch1).lastCompletion = _
    rw [h, hn]; norm_num [fdiv]

/-- Witness of the amended C2 at process 1 of the scenario batch (arrival 1). -/
theorem FCFS_rows_of_positive_arrival_witness :
    1 < batch1.length ∧ 0 < (procAt batch1 1).ArrivalTime ∧
    Int64 (burstsBefore batch1 1 - (procAt batch1 1).ArrivalTime) ∧
    Int64 (burstsBefore batch1 (1 + 1) - (procAt batch1 1).ArrivalTime) ∧
    Int64 (burstsBefore batch1 (1 + 1)) ∧
    ∃ r, (FCFSSchedule batch1).schedule[1]? = some r ∧
      r.wait = burstsBefore batch1 1 - (procAt batch1 1).ArrivalTime ∧
      r.turnaround = r.wait + (procAt batch1 1).BurstDuration ∧
      r.completion = burstsBefore batch1 (1 + 1) :=
  ⟨by decide, by decide, by decide, by decide, by decide,
    (FCFS_rows_of_positive_arrival batch1 1 (by decide) (by decide) (by decide) (by decide)
      (by decide)).1⟩

/-- C3, as stated, fails: on the batch with bursts 5, 3 and arrivals 0, 0 the
completion reported for process 1 is 3, not the cumulative burst sum 8, and the
completions `[5, 3]` are not increasing. -/
theorem FCFS_zero_arrival_completion_counterexample :
    (∀ p ∈ [(⟨1, 0, 5, 0⟩ : Process), ⟨2, 0, 3, 0⟩],
      p.ArrivalTime = 0 ∧ 1 ≤ p.BurstDuration) ∧
    (FCFSSchedule [⟨1, 0, 5, 0⟩, ⟨2, 0, 3, 0⟩]).schedule.map (fun r => r.completion)
      = [5, 3] ∧
    burstsBefore [⟨1, 0, 5, 0⟩, ⟨2, 0, 3, 0⟩] 2 = 8 := by
  decide

/-- C3, amended. In `FCFSSchedule`, for every non-empty batch in which every
arrival time is 0, every burst is at least 1 and the bursts sum to at most
9223372036854775807 (so that no `int64` sum wraps), every process is reported
with waiting time 0 and completion time equal to its own burst; it is the stop
field of the `i`-th execution interval that equals the cumulative burst sum,
and these stop fields are strictly increasing in batch order. -/
theorem FCFS_zero_arrival_rows (ps : List Process)
    (ha : ∀ p ∈ ps, p.ArrivalTime = 0) (hb : ∀ p ∈ ps, 1 ≤ p.BurstDuration)
    (hs : totalBurst ps ≤ 9223372036854775807) :
    (∀ i, i < ps.length → ∃ r g, (FCFSSchedule ps).schedule[i]? = some r ∧
      (FCFSSchedule ps).gantt[i]? = some g ∧
      r.wait = 0 ∧ r.completion = (procAt ps i).BurstDuration ∧
      g.Stop = burstsBefore ps (i + 1)) ∧
    ((FCFSSchedule ps).gantt.map (fun g => g.Stop)).Pairwise (fun a b => a < b) := by
  have hstop : ∀ k, k ≤ ps.length → wrap64 (burstsBefore ps k) = burstsBefore ps k := by
    intro k hk
    have := burstsBefore_bounds ps hb k hk
    exact wrap64_of_int64 _ ⟨by omega, by omega⟩
  constructor
  · intro i hi
    have hw := fcfsWaitAfter_zero ps ha (i + 1) hi
    have h0 := ha _ (procAt_mem ps i hi)
    have h1 := hb _ (procAt_mem ps i hi)
    have hsucc := burstsBefore_succ ps i hi
    have hlo := burstsBefore_bounds ps hb i (Nat.le_of_lt hi)
    have hhi := burstsBefore_bounds ps hb (i + 1) hi
    refine ⟨fcfsRowAt ps i, fcfsSliceAt ps i, fcfs_schedule_at ps i hi,
      fcfs_gantt_at ps i hi, ?_, ?_, ?_⟩
    · simp only [fcfsRowAt, hw]
    · rw [fcfsRowAt_completion, hw, h0, add_zero, add_zero]
      exact wrap64_of_int64 _ ⟨by omega, by omega⟩
    · simp only [fcfsSliceAt]
      exact hstop (i + 1) hi
  · rw [fcfs_gantt, List.map_map, List.pairwise_map]
    refine List.Pairwise.imp_of_mem ?_ (List.pairwise_lt_range ps.length)
    intro a b ha' hb' hab
    simp only [Function.comp, fcfsSliceAt]
    have ha2 : a < ps.length := List.mem_range.mp ha'
    have hb2 : b < ps.length := List.mem_range.mp hb'
    rw [hstop (a + 1) ha2, hstop (b + 1) hb2]
    exact burstsBefore_lt ps hb (b + 1) hb2 (a + 1) (by omega)

/-- Witness of the amended C3 on the batch with bursts 5, 3 and arrivals 0, 0. -/
theorem FCFS_zero_arrival_rows_witness :
    totalBurst [⟨1, 0, 5, 0⟩, ⟨2, 0, 3, 0⟩] ≤ 9223372036854775807 ∧
    ((FCFSSchedule [⟨1, 0, 5, 0⟩, ⟨2, 0, 3, 0⟩]).gantt.map (fun g => g.Stop)).Pairwise
      (fun a b => a < b) :=
  ⟨by decide,
    (FCFS_zero_arrival_rows [⟨1, 0, 5, 0⟩, ⟨2, 0, 3, 0⟩] (by decide) (by decide)
      (by decide)).2⟩

/-- C4, as stated, fails: for the one-process batch with burst 1 and arrival 5
the reported waiting time is -5, while `max(0, serviceTime - arrivalTime)` is 0. -/
theorem FCFS_waiting_clamp_counterexample :
    (∀ p ∈ [(⟨1, 5, 1, 0⟩ : Process)], 0 ≤ p.ArrivalTime ∧ 1 ≤ p.BurstDuration) ∧
    0 < (procAt [⟨1, 5, 1, 0⟩] 0).ArrivalTime ∧
    (FCFSSchedule [⟨1, 5, 1, 0⟩]).schedule.map (fun r => r.wait) = [-5] ∧
    max 0 (burstsBefore [⟨1, 5, 1, 0⟩] 0 - (procAt [⟨1, 5, 1, 0⟩] 0).ArrivalTime) = 0 := by
  decide

/-- C4, amended. In `FCFSSchedule`, for every batch and every process with
arrival time > 0, the reported waiting time is `serviceTime - arrivalTime` as
`int64` arithmetic computes it, without any clamp, where `serviceTime` is the
sum of the bursts of the preceding processes; whenever that difference lies in
the range of `int64` the reported waiting time is the difference itself, and
it is non-negative exactly when the process arrives no later than
`serviceTime`. -/
theorem FCFS_waiting_unclamped (ps : List Process) (i : Nat) (hi : i < ps.length)
    (ha : 0 < (procAt ps i).ArrivalTime) :
    ∃ r, (FCFSSchedule ps).schedule[i]? = some r ∧
      r.wait = wrap64 (burstsBefore ps i - (procAt ps i).ArrivalTime) ∧
      (Int64 (burstsBefore ps i - (procAt ps i).ArrivalTime) →
        r.wait = burstsBefore ps i - (procAt ps i).ArrivalTime ∧
        (0 ≤ r.wait ↔ (procAt ps i).ArrivalTime ≤ burstsBefore ps i)) := by
  have hwait : (fcfsRowAt ps i).wait
      = wrap64 (burstsBefore ps i - (procAt ps i).ArrivalTime) := by
    simp only [fcfsRowAt, fcfsWaitAfter, gt_iff_lt, ha, if_true]
  refine ⟨fcfsRowAt ps i, fcfs_schedule_at ps i hi, hwait, ?_⟩
  intro hr
  rw [hwait, wrap64_of_int64 _ hr]
  exact ⟨rfl, by omega⟩

/-- Witness of the amended C4 at process 2 of the scenario batch. -/
theorem FCFS_waiting_unclamped_witness :
    2 < batch1.length ∧ 0 < (procAt batch1 2).ArrivalTime ∧
    ∃ r, (FCFSSchedule batch1).schedule[2]? = some r ∧
      r.wait = wrap64 (burstsBefore batch1 2 - (procAt batch1 2).ArrivalTime) ∧
      (Int64 (burstsBefore batch1 2 - (procAt batch1 2).ArrivalTime) →
        r.wait = burstsBefore batch1 2 - (procAt batch1 2).ArrivalTime ∧
        (0 ≤ r.wait ↔ (procAt batch1 2).ArrivalTime ≤ burstsBefore batch1 2)) :=
  ⟨by decide, by decide, FCFS_waiting_unclamped batch1 2 (by decide) (by decide)⟩

/-! ## RRSchedule: the invariant of the dispatch loop -/

theorem list_eq_of_at64 (a b : List Int) (hl : a.length = b.length)
    (h : ∀ i, at64 a i = at64 b i) : a = b := by
  apply List.ext_getElem hl
  intro i h1 h2
  have := h i
  unfold at64 at this
  rw [List.getD_eq_getElem a _ h1, List.getD_eq_getElem b _ h2] at this
  exact this

theorem at64_map_burst (ps : List Process) (i : Nat) :
    at64 (ps.map (fun p => p.BurstDuration)) i = (procAt ps i).BurstDuration := by
  unfold at64 procAt
  by_cases h : i < ps.length
  · rw [List.getD_eq_getElem _ _ (by simpa using h), List.getD_eq_getElem _ _ h]
    simp
  · have h' : ps.length ≤ i := Nat.le_of_not_lt h
    simp [List.getD, List.getElem?_eq_none h', List.getElem?_eq_none]

theorem at64_replicate (n i : Nat) : at64 (List.replicate n 0) i = 0 := by
  unfold at64
  by_cases h : i < n
  · rw [List.getD_eq_getElem _ _ (by simpa using h)]; simp
  · simp [List.getD, List.getElem?_eq_none, Nat.le_of_not_lt h]

theorem procAt_of_le (ps : List Process) (i : Nat) (h : ps.length ≤ i) :
    procAt ps i = ⟨0, 0, 0, 0⟩ := by
  unfold procAt
  simp [List.getD, List.getElem?_eq_none h]

theorem copy_bursts (ps : List Process) :
    (List.range ps.length).foldl
      (fun rt i => rt.set i (procAt ps i).BurstDuration) (List.replicate ps.length 0)
    = ps.map (fun p => p.BurstDuration) := by
  obtain ⟨h1, h2⟩ := foldl_set_range (fun i => (procAt ps i).BurstDuration)
    (List.replicate ps.length 0) ps.length (by simp)
  apply list_eq_of_at64
  · rw [h1]; simp
  · intro i
    rw [h2, at64_map_burst]
    by_cases h : i < ps.length
    · simp [h]
    · simp only [h, if_false, at64_replicate]
      rw [procAt_of_le ps i (Nat.le_of_not_lt h)]

theorem rrInit_rt (ps : List Process) :
    (rrInit ps).rt = ps.map (fun p => p.BurstDuration) := copy_bursts ps

theorem procAt_burst_pos (ps : List Process) (hb : ∀ p ∈ ps, 1 ≤ p.BurstDuration)
    (i : Nat) (hi : i < ps.length) : 1 ≤ (procAt ps i).BurstDuration :=
  hb _ (procAt_mem ps i hi)

theorem unfinished_bursts (ps : List Process) (hb : ∀ p ∈ ps, 1 ≤ p.BurstDuration) :
    unfinished (ps.map (fun p => p.BurstDuration)) = ps.length := by
  unfold unfinished
  induction ps with
  | nil => simp
  | cons p ps ih =>
    have h1 : 0 < p.BurstDuration := by
      have := hb p (List.mem_cons_self _ _); omega
    have := ih (fun q hq => hb q (List.mem_cons_of_mem _ hq))
    simp only [List.map_cons, List.countP_cons, decide_eq_true_eq, h1, if_true,
      List.length_cons] at this ⊢
    omega

theorem rrInv_init (ps : List Process) (hne : ps ≠ [])
    (hb : ∀ p ∈ ps, 1 ≤ p.BurstDuration) : RRInv ps (rrInit ps) := by
  have hrt := rrInit_rt ps
  have hpos : 0 < ps.length := List.length_pos.mpr hne
  have hge : ∀ i, 0 ≤ (procAt ps i).BurstDuration := by
    intro i
    by_cases h : i < ps.length
    · have := procAt_burst_pos ps hb i h; omega
    · rw [procAt_of_le ps i (Nat.le_of_not_lt h)]
  have hnz : ∀ i, i < ps.length → at64 (rrInit ps).rt i ≠ 0 := by
    intro i hi
    rw [hrt, at64_map_burst]
    have := procAt_burst_pos ps hb i hi; omega
  refine
    { len_rt := by rw [hrt]; simp
      len_wait := by simp [rrInit]
      len_tat := by simp [rrInit]
      count_lt := hpos
      flag0 := rfl
      rt_nonneg := fun i => by rw [hrt, at64_map_burst]; exact hge i
      rt_le := fun i => by rw [hrt, at64_map_burst]
      clock := by rw [hrt]; simp [rrInit, totalBurst]
      remain_eq := by rw [hrt, unfinished_bursts ps hb]; rfl
      pending := fun i _ => ⟨at64_replicate _ _, at64_replicate _ _⟩
      finished := fun i hi h0 => absurd h0 (hnz i hi)
      last := fun h => by
        have : (rrInit ps).remain = (ps.length : Int) := rfl
        omega
      time_nonneg := le_refl _
      cursor := fun h => absurd rfl h
      started := fun _ i _ h => by
        rw [hrt, at64_map_burst] at h; omega
      wait_nonneg := fun _ i => by
        have : at64 (rrInit ps).wait_time i = 0 := at64_replicate _ _
        omega }

theorem rrAdvance_fields (ps : List Process) (s : RRState) :
    (rrAdvance ps s).time = s.time ∧ (rrAdvance ps s).remain = s.remain ∧
    (rrAdvance ps s).flag = s.flag ∧ (rrAdvance ps s).wait_time = s.wait_time ∧
    (rrAdvance ps s).turnaround_time = s.turnaround_time ∧ (rrAdvance ps s).rt = s.rt := by
  unfold rrAdvance
  split_ifs <;> simp

theorem rrAdvance_count (ps : List Process) (s : RRState) (h : s.count < ps.length) :
    (rrAdvance ps s).count < ps.length ∧
    ((rrAdvance ps s).count ≠ 0 →
      (procAt ps (rrAdvance ps s).count).ArrivalTime ≤ s.time) := by
  unfold rrAdvance
  split_ifs with h1 h2
  · exact ⟨by simpa using Nat.lt_of_le_of_lt (Nat.zero_le _) h, fun h => absurd rfl h⟩
  · refine ⟨?_, fun _ => h2⟩
    show s.count + 1 < ps.length
    omega
  · exact ⟨by simpa using Nat.lt_of_le_of_lt (Nat.zero_le _) h, fun h => absurd rfl h⟩

theorem rrInv_advance (ps : List Process) (s : RRState) (h : RRInv ps s) :
    RRInv ps (rrAdvance ps s) := by
  obtain ⟨e1, e2, e3, e4, e5, e6⟩ := rrAdvance_fields ps s
  obtain ⟨c1, c2⟩ := rrAdvance_count ps s h.count_lt
  exact
    { len_rt := by rw [e6]; exact h.len_rt
      len_wait := by rw [e4]; exact h.len_wait
      len_tat := by rw [e5]; exact h.len_tat
      count_lt := c1
      flag0 := by rw [e3]; exact h.flag0
      rt_nonneg := by rw [e6]; exact h.rt_nonneg
      rt_le := by rw [e6]; exact h.rt_le
      clock := by rw [e1, e6]; exact h.clock
      remain_eq := by rw [e2, e6]; exact h.remain_eq
      pending := by rw [e4, e5, e6]; exact h.pending
      finished := by rw [e1, e4, e5, e6]; exact h.finished
      last := by rw [e1, e2, e4]; exact h.last
      time_nonneg := by rw [e1]; exact h.time_nonneg
      cursor := by rw [e1]; exact c2
      started := by rw [e1, e6]; exact h.started
      wait_nonneg := by rw [e4]; exact h.wait_nonneg }

/-- The pass that completes `processes[count]`. -/
theorem rrBody_finish (ps : List Process) (s : RRState) (hl : s.count < s.rt.length)
    (h1 : at64 s.rt s.count ≤ 2) (h2 : 0 < at64 s.rt s.count) :
    rrComplete ps (rrDispatch s) =
      { count := s.count, time := s.time + at64 s.rt s.count, remain := s.remain - 1,
        flag := 0,
        wait_time := s.wait_time.set s.count
          (at64 s.wait_time s.count + (s.time + at64 s.rt s.count)
            - (procAt ps s.count).ArrivalTime - (procAt ps s.count).BurstDuration),
        turnaround_time := s.turnaround_time.set s.count
          (at64 s.turnaround_time s.count + (s.time + at64 s.rt s.count)
            - (procAt ps s.count).ArrivalTime),
        rt := s.rt.set s.count 0 } := by
  unfold rrComplete rrDispatch
  simp [time_quantum, h1, h2, at64_set_self _ _ _ hl]

/-- The pass that consumes one quantum without completing. -/
theorem rrBody_slice (ps : List Process) (s : RRState)
    (hf : s.flag = 0) (h1 : 2 < at64 s.rt s.count) :
    rrComplete ps (rrDispatch s) =
      { s with rt := s.rt.set s.count (at64 s.rt s.count - 2), time := s.time + 2 } := by
  unfold rrComplete rrDispatch
  have h3 : ¬ at64 s.rt s.count ≤ 2 := by omega
  have h4 : 0 < at64 s.rt s.count := by omega
  simp [time_quantum, h3, h4, hf]

/-- The pass on an already completed process. -/
theorem rrBody_skip (ps : List Process) (s : RRState)
    (hf : s.flag = 0) (h1 : at64 s.rt s.count ≤ 0) :
    rrComplete ps (rrDispatch s) = s := by
  unfold rrComplete rrDispatch
  have h3 : ¬ 0 < at64 s.rt s.count := by omega
  simp [time_quantum, h3, hf]

theorem rrInv_finish (ps : List Process) (s : RRState) (h : RRInv ps s)
    (hb : ∀ p ∈ ps, 1 ≤ p.BurstDuration)
    (h1 : at64 s.rt s.count ≤ 2) (h2 : 0 < at64 s.rt s.count) :
    RRInv ps (rrComplete ps (rrDispatch s)) := by
  have hl : s.count < s.rt.length := by rw [h.len_rt]; exact h.count_lt
  have hlw : s.count < s.wait_time.length := by rw [h.len_wait]; exact h.count_lt
  have hlt : s.count < s.turnaround_time.length := by rw [h.len_tat]; exact h.count_lt
  rw [rrBody_finish ps s hl h1 h2]
  obtain ⟨hw0, ht0⟩ := h.pending s.count h2
  have hbc := procAt_burst_pos ps hb s.count h.count_lt
  have hle := h.rt_le s.count
  have htn := h.time_nonneg
  have harr : (procAt ps 0).ArrivalTime ≤ 0 → (procAt ps s.count).ArrivalTime ≤ s.time := by
    intro h0
    by_cases hc : s.count = 0
    · rw [hc]; omega
    · exact h.cursor hc
  have hdone : (procAt ps 0).ArrivalTime ≤ 0 →
      (procAt ps s.count).ArrivalTime + (procAt ps s.count).BurstDuration
        ≤ s.time + at64 s.rt s.count := by
    intro h0
    have ha := harr h0
    by_cases hst : at64 s.rt s.count < (procAt ps s.count).BurstDuration
    · have := h.started h0 s.count h.count_lt hst; omega
    · omega
  refine
    { len_rt := by simp [h.len_rt]
      len_wait := by simp [h.len_wait]
      len_tat := by simp [h.len_tat]
      count_lt := h.count_lt
      flag0 := rfl
      rt_nonneg := ?_
      rt_le := ?_
      clock := ?_
      remain_eq := ?_
      pending := ?_
      finished := ?_
      last := fun _ => ⟨s.count, h.count_lt, ?_⟩
      time_nonneg := ?_
      cursor := ?_
      started := ?_
      wait_nonneg := ?_ }
  · intro i
    show 0 ≤ at64 (s.rt.set s.count 0) i
    rw [at64_set]; split_ifs
    · exact le_refl _
    · exact h.rt_nonneg i
  · intro i
    show at64 (s.rt.set s.count 0) i ≤ _
    rw [at64_set]; split_ifs with hc
    · rw [← hc.1]; omega
    · exact h.rt_le i
  · show s.time + at64 s.rt s.count + (s.rt.set s.count 0).sum = _
    rw [sum_set _ _ _ hl, ← h.clock]; ring
  · show s.remain - 1 = (unfinished (s.rt.set s.count 0) : Int)
    have := unfinished_set s.rt s.count 0 hl
    simp only [h2, if_true, lt_self_iff_false, if_false] at this
    rw [h.remain_eq]; omega
  · intro i hi
    have hi' : 0 < at64 (s.rt.set s.count 0) i := hi
    have hne : s.count ≠ i := by
      intro hc; rw [← hc, at64_set_self _ _ _ hl] at hi'; omega
    rw [at64_set_ne _ _ _ _ hne] at hi'
    show at64 (s.wait_time.set s.count _) i = 0 ∧ at64 (s.turnaround_time.set s.count _) i = 0
    rw [at64_set_ne _ _ _ _ hne, at64_set_ne _ _ _ _ hne]
    exact h.pending i hi'
  · intro i hi h0
    have h0' : at64 (s.rt.set s.count 0) i = 0 := h0
    show at64 (s.turnaround_time.set s.count _) i
        = at64 (s.wait_time.set s.count _) i + _ ∧
      at64 (s.wait_time.set s.count _) i + _ + _ ≤ s.time + at64 s.rt s.count
    by_cases hc : s.count = i
    · subst hc
      rw [at64_set_self _ _ _ hlw, at64_set_self _ _ _ hlt, hw0, ht0]
      constructor
      · ring
      · omega
    · rw [at64_set_ne _ _ _ _ hc] at h0'
      rw [at64_set_ne _ _ _ _ hc, at64_set_ne _ _ _ _ hc]
      obtain ⟨f1, f2⟩ := h.finished i hi h0'
      exact ⟨f1, by omega⟩
  · show at64 (s.wait_time.set s.count _) s.count + _ + _ = s.time + at64 s.rt s.count
    rw [at64_set_self _ _ _ hlw, hw0]; ring
  · show 0 ≤ s.time + at64 s.rt s.count
    omega
  · intro hc
    show (procAt ps s.count).ArrivalTime ≤ s.time + at64 s.rt s.count
    have := h.cursor hc; omega
  · intro h0 i hi hst
    have hst' : at64 (s.rt.set s.count 0) i < (procAt ps i).BurstDuration := hst
    show _ + _ - at64 (s.rt.set s.count 0) i ≤ s.time + at64 s.rt s.count
    by_cases hc : s.count = i
    · subst hc
      rw [at64_set_self _ _ _ hl]
      have := hdone h0; omega
    · rw [at64_set_ne _ _ _ _ hc] at hst' ⊢
      have := h.started h0 i hi hst'; omega
  · intro h0 i
    show 0 ≤ at64 (s.wait_time.set s.count _) i
    rw [at64_set]; split_ifs
    · have := hdone h0; rw [hw0]; omega
    · exact h.wait_nonneg h0 i

theorem rrInv_slice (ps : List Process) (s : RRState) (h : RRInv ps s)
    (hr : s.remain ≠ 0) (h1 : 2 < at64 s.rt s.count) :
    RRInv ps (rrComplete ps (rrDispatch s)) := by
  have hl : s.count < s.rt.length := by rw [h.len_rt]; exact h.count_lt
  rw [rrBody_slice ps s h.flag0 h1]
  have h2 : 0 < at64 s.rt s.count := by omega
  obtain ⟨hw0, ht0⟩ := h.pending s.count h2
  have hle := h.rt_le s.count
  have htn := h.time_nonneg
  refine
    { len_rt := by simp [h.len_rt]
      len_wait := h.len_wait
      len_tat := h.len_tat
      count_lt := h.count_lt
      flag0 := h.flag0
      rt_nonneg := ?_
      rt_le := ?_
      clock := ?_
      remain_eq := ?_
      pending := ?_
      finished := ?_
      last := fun h0 => absurd h0 hr
      time_nonneg := ?_
      cursor := ?_
      started := ?_
      wait_nonneg := h.wait_nonneg }
  · intro i
    show 0 ≤ at64 (s.rt.set s.count _) i
    rw [at64_set]; split_ifs
    · omega
    · exact h.rt_nonneg i
  · intro i
    show at64 (s.rt.set s.count _) i ≤ _
    rw [at64_set]; split_ifs with hc
    · rw [← hc.1]; omega
    · exact h.rt_le i
  · show s.time + 2 + (s.rt.set s.count _).sum = _
    rw [sum_set _ _ _ hl, ← h.clock]; ring
  · show s.remain = (unfinished (s.rt.set s.count _) : Int)
    have := unfinished_set s.rt s.count (at64 s.rt s.count - 2) hl
    have h3 : 0 < at64 s.rt s.count - 2 := by omega
    simp only [h2, if_true, h3] at this
    rw [h.remain_eq]; omega
  · intro i hi
    have hi' : 0 < at64 (s.rt.set s.count (at64 s.rt s.count - 2)) i := hi
    show at64 s.wait_time i = 0 ∧ at64 s.turnaround_time i = 0
    by_cases hc : s.count = i
    · subst hc; exact ⟨hw0, ht0⟩
    · rw [at64_set_ne _ _ _ _ hc] at hi'
      exact h.pending i hi'
  · intro i hi h0
    have h0' : at64 (s.rt.set s.count (at64 s.rt s.count - 2)) i = 0 := h0
    show at64 s.turnaround_time i = at64 s.wait_time i + _ ∧
      at64 s.wait_time i + _ + _ ≤ s.time + 2
    have hc : s.count ≠ i := by
      intro hc; rw [← hc, at64_set_self _ _ _ hl] at h0'; omega
    rw [at64_set_ne _ _ _ _ hc] at h0'
    obtain ⟨f1, f2⟩ := h.finished i hi h0'
    exact ⟨f1, by omega⟩
  · show 0 ≤ s.time + 2
    omega
  · intro hc
    show (procAt ps s.count).ArrivalTime ≤ s.time + 2
    have := h.cursor hc; omega
  · intro h0 i hi hst
    have hst' : at64 (s.rt.set s.count (at64 s.rt s.count - 2)) i
      < (procAt ps i).BurstDuration := hst
    show _ + _ - at64 (s.rt.set s.count (at64 s.rt s.count - 2)) i ≤ s.time + 2
    by_cases hc : s.count = i
    · subst hc
      rw [at64_set_self _ _ _ hl]
      have ha : (procAt ps s.count).ArrivalTime ≤ s.time := by
        by_cases hz : s.count = 0
        · rw [hz]; omega
        · exact h.cursor hz
      by_cases hs2 : at64 s.rt s.count < (procAt ps s.count).BurstDuration
      · have := h.started h0 s.count hi hs2; omega
      · omega
    · rw [at64_set_ne _ _ _ _ hc] at hst' ⊢
      have := h.started h0 i hi hst'; omega

theorem rrInv_step (ps : List Process) (hb : ∀ p ∈ ps, 1 ≤ p.BurstDuration)
    (s : RRState) (h : RRInv ps s) (hr : s.remain ≠ 0) : RRInv ps (rrStep ps s) := by
  unfold rrStep
  apply rrInv_advance
  by_cases h2 : 0 < at64 s.rt s.count
  · by_cases h1 : at64 s.rt s.count ≤ 2
    · exact rrInv_finish ps s h hb h1 h2
    · exact rrInv_slice ps s h hr (by omega)
  · rw [rrBody_skip ps s h.flag0 (by omega)]
    exact h

/-! ## Condition-controlled loops -/

theorem iterLoop_succ {σ : Type} (cond : σ → Bool) (body : σ → σ) (k : Nat) (s : σ) :
    iterLoop cond body (k + 1) s =
      if cond (iterLoop cond body k s) then body (iterLoop cond body k s)
      else iterLoop cond body k s := by
  induction k generalizing s with
  | zero => simp [iterLoop]
  | succ k ih =>
    by_cases h : cond s
    · have e1 : iterLoop cond body (k + 1 + 1) s = iterLoop cond body (k + 1) (body s) := by
        rw [iterLoop]; simp [h]
      have e2 : iterLoop cond body (k + 1) s = iterLoop cond body k (body s) := by
        rw [iterLoop]; simp [h]
      rw [e1, e2, ih]
    · have e1 : ∀ m, iterLoop cond body (m + 1) s = s := by
        intro m; rw [iterLoop]; simp [h]
      rw [e1, e1]; simp [h]

theorem iterLoop_inv {σ : Type} (cond : σ → Bool) (body : σ → σ) (P : σ → Prop)
    (hstep : ∀ s, P s → cond s = true → P (body s)) (s : σ) (h0 : P s) :
    ∀ k, P (iterLoop cond body k s) := by
  intro k
  induction k with
  | zero => exact h0
  | succ k ih =>
    rw [iterLoop_succ]
    split_ifs with h
    · exact hstep _ ih h
    · exact ih

theorem runLoop_eq {σ : Type} (cond : σ → Bool) (body : σ → σ) (k : Nat) (s : σ) :
    runLoop cond body k s =
      if cond (iterLoop cond body k s) then none else some (iterLoop cond body k s) := by
  induction k generalizing s with
  | zero => simp [runLoop, iterLoop]
  | succ k ih =>
    by_cases h : cond s
    · rw [runLoop, iterLoop]; simp only [h, if_true]; exact ih (body s)
    · rw [runLoop, iterLoop]; simp [h]

theorem runLoop_some {σ : Type} (cond : σ → Bool) (body : σ → σ) (k : Nat) (s r : σ)
    (h : runLoop cond body k s = some r) :
    r = iterLoop cond body k s ∧ cond r = false := by
  rw [runLoop_eq] at h
  split_ifs at h with hc
  have e : iterLoop cond body k s = r := Option.some.inj h
  exact ⟨e.symm, by rw [← e]; simpa using hc⟩

theorem iterLoop_fixed {σ : Type} (cond : σ → Bool) (body : σ → σ) (s : σ)
    (h : body s = s) : ∀ k, iterLoop cond body k s = s := by
  intro k
  induction k with
  | zero => rfl
  | succ k ih => rw [iterLoop]; split_ifs <;> simp [h, ih]

/-! ## The closing loop -/

theorem emitLoop_succ (pid id pr b a w tt : Nat → Int) (n : Nat) :
    emitLoop pid id pr b a w tt (n + 1) =
      emitBody (emitLoop pid id pr b a w tt n) (pid n) (id n) (pr n) (b n) (a n) (w n)
        (tt n) := by
  unfold emitLoop
  rw [List.range_succ, List.foldl_append]
  rfl

theorem emit_fold (pid id pr b a w tt : Nat → Int) : ∀ n,
    (emitLoop pid id pr b a w tt n).schedule =
      (List.range n).map (fun i =>
        ({ id := id i, priority := pr i, burst := b i, arrival := a i, wait := w i,
           turnaround := tt i, completion := b i + a i + w i } : Row)) ∧
    0 ≤ (emitLoop pid id pr b a w tt n).finalCompletion ∧
    (∀ i, i < n → b i + a i + w i ≤ (emitLoop pid id pr b a w tt n).finalCompletion) ∧
    (∀ T, 0 ≤ T → (∀ i, i < n → b i + a i + w i ≤ T) →
      (emitLoop pid id pr b a w tt n).finalCompletion ≤ T) := by
  intro n
  induction n with
  | zero => simp [emitLoop, emitInit]
  | succ n ih =>
    obtain ⟨h1, h2, h3, h4⟩ := ih
    rw [emitLoop_succ]
    refine ⟨?_, ?_, ?_, ?_⟩
    · simp only [emitBody, h1, List.range_succ, List.map_append, List.map_cons, List.map_nil]
    · simp only [emitBody]; split_ifs <;> omega
    · intro i hi
      simp only [emitBody]
      rcases Nat.lt_succ_iff_lt_or_eq.mp hi with h | h
      · have := h3 i h; split_ifs <;> omega
      · subst h; split_ifs <;> omega
    · intro T hT hall
      simp only [emitBody]
      have := h4 T hT (fun i hi => hall i (Nat.lt_succ_of_lt hi))
      have := hall n (Nat.lt_succ_self n)
      split_ifs <;> omega

theorem emitLoop64_succ (pid id pr b a w tt : Nat → Int) (n : Nat) :
    emitLoop64 pid id pr b a w tt (n + 1) =
      emitBody64 (emitLoop64 pid id pr b a w tt n) (pid n) (id n) (pr n) (b n) (a n) (w n)
        (tt n) := by
  unfold emitLoop64
  rw [List.range_succ, List.foldl_append]
  rfl

theorem emit64_fold (pid id pr b a w tt : Nat → Int) : ∀ n,
    (emitLoop64 pid id pr b a w tt n).schedule =
      (List.range n).map (fun i =>
        ({ id := id i, priority := pr i, burst := b i, arrival := a i, wait := w i,
           turnaround := tt i, completion := add64 (add64 (b i) (a i)) (w i) } : Row)) ∧
    0 ≤ (emitLoop64 pid id pr b a w tt n).finalCompletion ∧
    (∀ i, i < n → add64 (add64 (b i) (a i)) (w i) ≤ (emitLoop64 pid id pr b a w tt n).finalCompletion) ∧
    (∀ T, 0 ≤ T → (∀ i, i < n → add64 (add64 (b i) (a i)) (w i) ≤ T) →
      (emitLoop64 pid id pr b a w tt n).finalCompletion ≤ T) := by
  intro n
  induction n with
  | zero => simp [emitLoop64, emitInit]
  | succ n ih =>
    obtain ⟨h1, h2, h3, h4⟩ := ih
    rw [emitLoop64_succ]
    refine ⟨?_, ?_, ?_, ?_⟩
    · simp only [emitBody64, h1, List.range_succ, List.map_append, List.map_cons, List.map_nil]
    · simp only [emitBody64]; split_ifs <;> omega
    · intro i hi
      simp only [emitBody64]
      rcases Nat.lt_succ_iff_lt_or_eq.mp hi with h | h
      · have := h3 i h; split_ifs <;> omega
      · subst h; split_ifs <;> omega
    · intro T hT hall
      simp only [emitBody64]
      have := h4 T hT (fun i hi => hall i (Nat.lt_succ_of_lt hi))
      have := hall n (Nat.lt_succ_self n)
      split_ifs <;> omega

theorem rrEmit_eq (ps : List Process) (s : RRState) :
    rrEmit ps s = emitLoop (fun i => (procAt ps i).ProcessID)
      (fun i => (procAt ps i).ProcessID) (fun i => (procAt ps i).Priority)
      (fun i => (procAt ps i).BurstDuration) (fun i => (procAt ps i).ArrivalTime)
      (fun i => at64 s.wait_time i) (fun i => at64 s.turnaround_time i) ps.length := rfl

theorem sjfEmit_eq (ps : List Process) (w : List Int) :
    sjfEmit ps w = emitLoop (fun i => (procAt ps i).ProcessID)
      (fun i => (procAt ps i).ProcessID) (fun i => (procAt ps i).Priority)
      (fun i => (procAt ps i).BurstDuration) (fun i => (procAt ps i).ArrivalTime)
      (fun i => at64 w i) (fun i => at64 (findTurnAroundTime ps w) i) ps.length := rfl

theorem prioEmit_eq (ps : List Process) (a : PrioArrays) (w tat : List Int) :
    prioEmit ps a w tat = emitLoop64 (fun i => (procAt ps i).ProcessID)
      (fun i => at64 a.tempPID i) (fun i => at64 a.tempPriority i)
      (fun i => at64 a.tempB i) (fun i => at64 a.tempArr i)
      (fun i => at64 w i) (fun i => at64 tat i) ps.length := rfl

theorem iterLoop_of_not_cond {σ : Type} (cond : σ → Bool) (body : σ → σ) (s : σ)
    (h : cond s = false) : ∀ k, iterLoop cond body k s = s := by
  intro k
  cases k with
  | zero => rfl
  | succ k => rw [iterLoop]; simp [h]

theorem mem_at64 (a : List Int) (x : Int) (h : x ∈ a) :
    ∃ i, i < a.length ∧ at64 a i = x := by
  obtain ⟨i, hi, e⟩ := List.getElem_of_mem h
  refine ⟨i, hi, ?_⟩
  unfold at64
  rw [List.getD_eq_getElem a _ hi]
  exact e

theorem sum_eq_zero_of_at64 (a : List Int) (h : ∀ i, at64 a i = 0) : a.sum = 0 := by
  induction a with
  | nil => rfl
  | cons x xs ih =>
    have h0 : x = 0 := by simpa [at64] using h 0
    have := ih (fun i => by simpa [at64] using h (i + 1))
    simp [h0, this]

theorem rrIter_inv (ps : List Process) (hne : ps ≠ [])
    (hb : ∀ p ∈ ps, 1 ≤ p.BurstDuration) (k : Nat) : RRInv ps (rrIter ps k) :=
  iterLoop_inv rrCond (rrStep ps) (RRInv ps)
    (fun s hs hc => rrInv_step ps hb s hs (by simpa [rrCond] using hc))
    _ (rrInv_init ps hne hb) k

theorem rrIter_nil (k : Nat) : rrIter [] k = rrInit [] :=
  iterLoop_of_not_cond rrCond (rrStep []) (rrInit []) (by decide) k

/-- When the dispatch loop ends, it ends in a state of the invariant with
`remain = 0`. -/
theorem rr_final (ps : List Process) (hne : ps ≠ [])
    (hb : ∀ p ∈ ps, 1 ≤ p.BurstDuration) (fuel : Nat) (s : RRState)
    (h : runLoop rrCond (rrStep ps) fuel (rrInit ps) = some s) :
    RRInv ps s ∧ s.remain = 0 := by
  obtain ⟨e, hc⟩ := runLoop_some _ _ _ _ _ h
  refine ⟨?_, by simpa [rrCond] using hc⟩
  rw [e]
  exact rrIter_inv ps hne hb fuel

theorem rr_final_rt (ps : List Process) (s : RRState) (h : RRInv ps s)
    (h0 : s.remain = 0) : ∀ i, at64 s.rt i = 0 := by
  intro i
  have h1 : unfinished s.rt = 0 := by
    have := h.remain_eq; omega
  have := unfinished_eq_zero s.rt h1 i
  have := h.rt_nonneg i
  omega

theorem rrEmit_schedule (ps : List Process) (s : RRState) :
    (rrEmit ps s).schedule = (List.range ps.length).map (fun i =>
      ({ id := (procAt ps i).ProcessID, priority := (procAt ps i).Priority,
         burst := (procAt ps i).BurstDuration, arrival := (procAt ps i).ArrivalTime,
         wait := at64 s.wait_time i, turnaround := at64 s.turnaround_time i,
         completion := (procAt ps i).BurstDuration + (procAt ps i).ArrivalTime
           + at64 s.wait_time i } : Row)) := by
  rw [rrEmit_eq]
  exact (emit_fold _ _ _ _ _ _ _ ps.length).1

theorem RRSchedule_some (ps : List Process) (fuel : Nat) (out : Report)
    (h : RRSchedule fuel ps = some out) :
    ∃ s, runLoop rrCond (rrStep ps) fuel (rrInit ps) = some s ∧
      out = emitReport ps.length (rrEmit ps s) := by
  unfold RRSchedule at h
  cases hr : runLoop rrCond (rrStep ps) fuel (rrInit ps) with
  | none => rw [hr] at h; simp at h
  | some s =>
    rw [hr] at h
    exact ⟨s, rfl, (Option.some.inj h).symm⟩

/-! ## RRSchedule: the claims -/

/-- C8, the loop does not terminate on the batch with bursts 1, 1 and arrivals
0, 10: after the first pass the dispatch loop of `RRSchedule` stays for ever in
the state with clock 1, cursor 0 and one unfinished process, so no bound on the
number of passes lets `RRSchedule` return. -/
theorem RR_idle_gap_never_terminates :
    (∀ p ∈ rrGapBatch, 1 ≤ p.BurstDuration ∧ 0 ≤ p.ArrivalTime) ∧
    ∀ k,
      rrIter rrGapBatch (k + 1) =
        { count := 0, time := 1, remain := 1, flag := 0, wait_time := [0, 0],
          turnaround_time := [1, 0], rt := [0, 1] } ∧
      (rrIter rrGapBatch k).remain ≠ 0 ∧
      RRSchedule k rrGapBatch = none := by
  refine ⟨by decide, ?_⟩
  have hfix : ∀ k, rrIter rrGapBatch (k + 1) =
      { count := 0, time := 1, remain := 1, flag := 0, wait_time := [0, 0],
        turnaround_time := [1, 0], rt := [0, 1] } := by
    intro k
    have h1 : rrIter rrGapBatch (k + 1) =
        iterLoop rrCond (rrStep rrGapBatch) k (rrStep rrGapBatch (rrInit rrGapBatch)) := by
      unfold rrIter
      rw [iterLoop]
      have : rrCond (rrInit rrGapBatch) = true := by decide
      simp [this]
    rw [h1]
    have h2 : rrStep rrGapBatch (rrInit rrGapBatch) =
        { count := 0, time := 1, remain := 1, flag := 0, wait_time := [0, 0],
          turnaround_time := [1, 0], rt := [0, 1] } := by decide
    rw [h2]
    exact iterLoop_fixed _ _ _ (by decide) k
  have hrem : ∀ k, (rrIter rrGapBatch k).remain ≠ 0 := by
    intro k
    cases k with
    | zero => decide
    | succ k => rw [hfix k]; decide
  intro k
  refine ⟨hfix k, hrem k, ?_⟩
  unfold RRSchedule
  rw [runLoop_eq]
  have : rrCond (iterLoop rrCond (rrStep rrGapBatch) k (rrInit rrGapBatch)) = true := by
    have := hrem k
    unfold rrIter at this
    simpa [rrCond] using this
  simp [this]

/-- C9. In `RRSchedule` (quantum 2), for every batch with every burst at least
1, at every pass of the dispatch loop clock + (sum of the remaining bursts) =
(sum of the original bursts) and every remaining burst is non-negative;
whenever the loop exits, the final clock equals the sum of all bursts, and so
does the maximum completion time of the rows (no row exceeds it, a row attains
it, and it is the value of `finalCompletion`). On the scenario batch the final
clock is 16 and the waiting times are `[7, 5, 6]`. -/
theorem RR_clock_accounts_for_bursts (ps : List Process)
    (hb : ∀ p ∈ ps, 1 ≤ p.BurstDuration) :
    (∀ k, (rrIter ps k).time + (rrIter ps k).rt.sum = totalBurst ps ∧
      ∀ x ∈ (rrIter ps k).rt, 0 ≤ x) ∧
    (∀ fuel s, runLoop rrCond (rrStep ps) fuel (rrInit ps) = some s →
      RRSchedule fuel ps = some (emitReport ps.length (rrEmit ps s)) ∧
      s.time = totalBurst ps ∧
      (rrEmit ps s).finalCompletion = totalBurst ps ∧
      (∀ r ∈ (rrEmit ps s).schedule, r.completion ≤ totalBurst ps) ∧
      (ps ≠ [] → ∃ r ∈ (rrEmit ps s).schedule, r.completion = totalBurst ps)) ∧
    ((runLoop rrCond (rrStep batch1) 12 (rrInit batch1)).map (fun s => s.time) = some 16 ∧
      (RRSchedule 12 batch1).map (fun o => o.schedule.map (fun r => r.wait))
        = some [7, 5, 6] ∧
      (RRSchedule 12 batch1).map (fun o => o.schedule.map (fun r => r.completion))
        = some [12, 9, 16] ∧
      totalBurst batch1 = 16) := by
  refine ⟨?_, ?_, by decide⟩
  · intro k
    by_cases hne : ps = []
    · subst hne
      rw [rrIter_nil]
      exact ⟨by decide, by decide⟩
    · have h := rrIter_inv ps hne hb k
      refine ⟨h.clock, fun x hx => ?_⟩
      obtain ⟨i, _, e⟩ := mem_at64 _ _ hx
      rw [← e]; exact h.rt_nonneg i
  · intro fuel s hs
    have hrun : RRSchedule fuel ps = some (emitReport ps.length (rrEmit ps s)) := by
      unfold RRSchedule; rw [hs]; rfl
    by_cases hne : ps = []
    · subst hne
      obtain ⟨e, _⟩ := runLoop_some _ _ _ _ _ hs
      have e' : s = rrInit [] := by
        rw [e]; exact rrIter_nil fuel
      subst e'
      exact ⟨hrun, by decide, by decide, by decide, fun h => absurd rfl h⟩
    · obtain ⟨h, h0⟩ := rr_final ps hne hb fuel s hs
      have hrt := rr_final_rt ps s h h0
      have htime : s.time = totalBurst ps := by
        have := h.clock
        rw [sum_eq_zero_of_at64 _ hrt] at this
        omega
      obtain ⟨_, f2, f3, f4⟩ := emit_fold (fun i => (procAt ps i).ProcessID)
        (fun i => (procAt ps i).ProcessID) (fun i => (procAt ps i).Priority)
        (fun i => (procAt ps i).BurstDuration) (fun i => (procAt ps i).ArrivalTime)
        (fun i => at64 s.wait_time i) (fun i => at64 s.turnaround_time i) ps.length
      rw [← rrEmit_eq] at f2 f3 f4
      have hle : ∀ i, i < ps.length →
          (procAt ps i).BurstDuration + (procAt ps i).ArrivalTime + at64 s.wait_time i
            ≤ s.time := by
        intro i hi
        have := (h.finished i hi (hrt i)).2
        omega
      obtain ⟨j, hj, hjt⟩ := h.last h0
      have hfc : (rrEmit ps s).finalCompletion = s.time := by
        have u := f4 s.time h.time_nonneg hle
        have l := f3 j hj
        simp only at l
        omega
      refine ⟨hrun, htime, by rw [hfc, htime], ?_, fun _ => ?_⟩
      · intro r hr
        rw [rrEmit_schedule, List.mem_map] at hr
        obtain ⟨i, hi, e⟩ := hr
        rw [← e, ← htime]
        exact hle i (List.mem_range.mp hi)
      · rw [rrEmit_schedule]
        refine ⟨_, List.mem_map_of_mem _ (List.mem_range.mpr hj), ?_⟩
        simp only
        omega

/-- Witness of C9 on the scenario batch, whose dispatch loop exits after 12
passes. -/
theorem RR_clock_accounts_for_bursts_witness :
    (∀ p ∈ batch1, 1 ≤ p.BurstDuration) ∧
    (∀ k, (rrIter batch1 k).time + (rrIter batch1 k).rt.sum = totalBurst batch1 ∧
      ∀ x ∈ (rrIter batch1 k).rt, 0 ≤ x) ∧
    (rrIter batch1 12).time = totalBurst batch1 ∧
    (rrEmit batch1 (rrIter batch1 12)).finalCompletion = totalBurst batch1 :=
  ⟨by decide, (RR_clock_accounts_for_bursts batch1 (by decide)).1,
    ((RR_clock_accounts_for_bursts batch1 (by decide)).2.1 12 (rrIter batch1 12)
      (by decide)).2.1,
    ((RR_clock_accounts_for_bursts batch1 (by decide)).2.1 12 (rrIter batch1 12)
      (by decide)).2.2.1⟩

/-- C10, as stated, fails: on the one-process batch with burst 1 and arrival 5
the first pass of the dispatch loop consumes the burst of process 0 at clock 0,
before its arrival time 5, and the reported waiting time is -5. -/
theorem RR_dispatch_before_arrival_counterexample :
    (∀ p ∈ [(⟨1, 5, 1, 0⟩ : Process)], 1 ≤ p.BurstDuration ∧ 0 ≤ p.ArrivalTime) ∧
    (rrIter [⟨1, 5, 1, 0⟩] 0).count = 0 ∧
    (rrIter [⟨1, 5, 1, 0⟩] 0).time = 0 ∧
    (rrIter [⟨1, 5, 1, 0⟩] 0).rt = [1] ∧
    (rrIter [⟨1, 5, 1, 0⟩] 1).rt = [0] ∧
    (rrIter [⟨1, 5, 1, 0⟩] 0).time < (procAt [⟨1, 5, 1, 0⟩] 0).ArrivalTime ∧
    (RRSchedule 1 [⟨1, 5, 1, 0⟩]).map (fun o => o.schedule.map (fun r => r.wait))
      = some [-5] := by
  decide

/-- C10, amended. In `RRSchedule`, for every batch with bursts at least 1, at
every pass of the dispatch loop the process under the cursor has arrived
(arrival <= clock) whenever the cursor is not at index 0; the process at index
0 is dispatched whatever its arrival time. When process 0 arrives at time 0,
every dispatch happens at a clock value >= the arrival time of the
dispatched process and every reported waiting time is >= 0. -/
theorem RR_dispatch_after_arrival (ps : List Process)
    (hb : ∀ p ∈ ps, 1 ≤ p.BurstDuration) (k : Nat) :
    ((rrIter ps k).count ≠ 0 →
      (procAt ps (rrIter ps k).count).ArrivalTime ≤ (rrIter ps k).time) ∧
    ((procAt ps 0).ArrivalTime ≤ 0 →
      (procAt ps (rrIter ps k).count).ArrivalTime ≤ (rrIter ps k).time ∧
      (∀ w ∈ (rrIter ps k).wait_time, 0 ≤ w) ∧
      ∀ out, RRSchedule k ps = some out → ∀ r ∈ out.schedule, 0 ≤ r.wait) := by
  by_cases hne : ps = []
  · subst hne
    rw [rrIter_nil]
    refine ⟨fun h => absurd rfl h, fun _ => ⟨by decide, by decide, ?_⟩⟩
    intro out ho r hr
    obtain ⟨s, _, e⟩ := RRSchedule_some _ _ _ ho
    have : out.schedule = [] := by rw [e]; rfl
    rw [this] at hr
    exact absurd hr (List.not_mem_nil r)
  · have h := rrIter_inv ps hne hb k
    refine ⟨h.cursor, fun h0 => ⟨?_, ?_, ?_⟩⟩
    · by_cases hc : (rrIter ps k).count = 0
      · rw [hc]; have := h.time_nonneg; omega
      · exact h.cursor hc
    · intro w hw
      obtain ⟨i, _, e⟩ := mem_at64 _ _ hw
      rw [← e]; exact h.wait_nonneg h0 i
    · intro out ho r hr
      obtain ⟨s, hs, e⟩ := RRSchedule_some _ _ _ ho
      obtain ⟨es, _⟩ := runLoop_some _ _ _ _ _ hs
      have es' : s = rrIter ps k := es
      rw [e, es'] at hr
      have hr' : r ∈ (rrEmit ps (rrIter ps k)).schedule := hr
      rw [rrEmit_schedule, List.mem_map] at hr'
      obtain ⟨i, _, e2⟩ := hr'
      rw [← e2]
      exact h.wait_nonneg h0 i

/-- Witness of the amended C10 on the scenario batch after one pass, when the
cursor is at process 1 (arrival 1) and the clock is 2. -/
theorem RR_dispatch_after_arrival_witness :
    (∀ p ∈ batch1, 1 ≤ p.BurstDuration) ∧
    (rrIter batch1 1).count = 1 ∧
    (procAt batch1 (rrIter batch1 1).count).ArrivalTime ≤ (rrIter batch1 1).time ∧
    (∀ w ∈ (rrIter batch1 1).wait_time, 0 ≤ w) :=
  ⟨by decide, by decide,
    (RR_dispatch_after_arrival batch1 (by decide) 1).1 (by decide),
    ((RR_dispatch_after_arrival batch1 (by decide) 1).2 (by decide)).2.1⟩

/-! ## SJFSchedule: the invariant of the tick loop -/

/-- What the scan over the first `k` indices has computed. -/
theorem sjfScan_range (ps : List Process) (rt : List Int) (t : Int)
    (acc0 : Int × Nat × Bool) : ∀ k,
    (((List.range k).foldl (sjfScanBody ps rt t) acc0 = acc0) ∧
      ∀ j, j < k → (procAt ps j).ArrivalTime ≤ t → 0 < at64 rt j → acc0.1 ≤ at64 rt j) ∨
    ((((List.range k).foldl (sjfScanBody ps rt t) acc0).2.2 = true) ∧
      ((List.range k).foldl (sjfScanBody ps rt t) acc0).2.1 < k ∧
      (procAt ps ((List.range k).foldl (sjfScanBody ps rt t) acc0).2.1).ArrivalTime ≤ t ∧
      0 < at64 rt ((List.range k).foldl (sjfScanBody ps rt t) acc0).2.1 ∧
      ((List.range k).foldl (sjfScanBody ps rt t) acc0).1 =
        at64 rt ((List.range k).foldl (sjfScanBody ps rt t) acc0).2.1 ∧
      ((List.range k).foldl (sjfScanBody ps rt t) acc0).1 < acc0.1 ∧
      (∀ j, j < k → (procAt ps j).ArrivalTime ≤ t → 0 < at64 rt j →
        ((List.range k).foldl (sjfScanBody ps rt t) acc0).1 ≤ at64 rt j) ∧
      (∀ j, j < k → (procAt ps j).ArrivalTime ≤ t → 0 < at64 rt j →
        at64 rt j = ((List.range k).foldl (sjfScanBody ps rt t) acc0).1 →
        ((List.range k).foldl (sjfScanBody ps rt t) acc0).2.1 ≤ j)) := by
  intro k
  induction k with
  | zero =>
    left
    exact ⟨rfl, fun j hj => absurd hj (Nat.not_lt_zero j)⟩
  | succ k ih =>
    rw [List.range_succ, List.foldl_append]
    simp only [List.foldl_cons, List.foldl_nil]
    generalize (List.range k).foldl (sjfScanBody ps rt t) acc0 = acc at ih ⊢
    by_cases hc : (procAt ps k).ArrivalTime ≤ t ∧ at64 rt k < acc.1 ∧ at64 rt k > 0
    · have e : sjfScanBody ps rt t acc k = (at64 rt k, k, true) := by
        unfold sjfScanBody; rw [if_pos hc]
      rw [e]
      right
      obtain ⟨c1, c2, c3⟩ := hc
      have hacc : acc.1 ≤ acc0.1 := by
        rcases ih with ⟨h1, _⟩ | ⟨_, _, _, _, _, h6, _, _⟩
        · rw [h1]
        · exact le_of_lt h6
      have hmin : ∀ j, j < k → (procAt ps j).ArrivalTime ≤ t → 0 < at64 rt j →
          acc.1 ≤ at64 rt j := by
        intro j hj ha hp
        rcases ih with ⟨h1, h2⟩ | ⟨_, _, _, _, _, _, h7, _⟩
        · rw [h1]; exact h2 j hj ha hp
        · exact h7 j hj ha hp
      refine ⟨rfl, Nat.lt_succ_self k, c1, c3, rfl, lt_of_lt_of_le c2 hacc, ?_, ?_⟩
      · intro j hj ha hp
        show at64 rt k ≤ at64 rt j
        rcases Nat.lt_succ_iff_lt_or_eq.mp hj with h | h
        · have := hmin j h ha hp; omega
        · rw [h]
      · intro j hj ha hp he
        show k ≤ j
        rcases Nat.lt_succ_iff_lt_or_eq.mp hj with h | h
        · have := hmin j h ha hp
          have he' : at64 rt j = at64 rt k := he
          omega
        · omega
    · have e : sjfScanBody ps rt t acc k = acc := by
        unfold sjfScanBody; rw [if_neg hc]
      rw [e]
      rcases ih with ⟨h1, h2⟩ | ⟨h1, h2, h3, h4, h5, h6, h7, h8⟩
      · left
        refine ⟨h1, ?_⟩
        intro j hj ha hp
        rcases Nat.lt_succ_iff_lt_or_eq.mp hj with h | h
        · exact h2 j h ha hp
        · subst h
          rw [h1] at hc
          by_contra hlt
          exact hc ⟨ha, lt_of_not_ge hlt, hp⟩
      · right
        refine ⟨h1, Nat.lt_succ_of_lt h2, h3, h4, h5, h6, ?_, ?_⟩
        · intro j hj ha hp
          rcases Nat.lt_succ_iff_lt_or_eq.mp hj with h | h
          · exact h7 j h ha hp
          · subst h
            by_contra hlt
            exact hc ⟨ha, lt_of_not_ge hlt, hp⟩
        · intro j hj ha hp he
          rcases Nat.lt_succ_iff_lt_or_eq.mp hj with h | h
          · exact h8 j h ha hp he
          · omega

/-- The scan leaves `check` false only when no process is a candidate. -/
theorem sjfScan_idle (ps : List Process) (s : SJFState) (h : SJFInv ps s)
    (hc : (sjfScan ps s).2.2 = false) :
    s.check = false ∧ sjfScan ps s = (s.minm, s.shortest, s.check) ∧
    ∀ j, ¬ sjfElig ps s j := by
  unfold sjfScan at hc ⊢
  rcases sjfScan_range ps s.rt s.t (s.minm, s.shortest, s.check) ps.length with
    ⟨h1, h2⟩ | ⟨h1, _⟩
  · rw [h1] at hc
    have hc' : s.check = false := hc
    refine ⟨hc', h1, ?_⟩
    rintro j ⟨hj, ha, hp⟩
    have hm : s.minm = maxInt := by
      rcases h.mode with ⟨_, m⟩ | ⟨c, _⟩
      · exact m
      · rw [hc'] at c; exact absurd c (by decide)
    have := h2 j hj ha hp
    have := h.rt_lt j
    simp only [hm] at *
    omega
  · rw [h1] at hc; exact absurd hc (by decide)

/-- The process selected by the scan is a candidate of least remaining burst;
either the scan has kept the process of the previous pass, or it has found the
lowest index among the candidates of least remaining burst. -/
theorem sjfScan_busy (ps : List Process) (s : SJFState) (h : SJFInv ps s)
    (hc : (sjfScan ps s).2.2 = true) :
    sjfElig ps s (sjfScan ps s).2.1 ∧
    (sjfScan ps s).1 = at64 s.rt (sjfScan ps s).2.1 ∧
    (∀ j, sjfElig ps s j → at64 s.rt (sjfScan ps s).2.1 ≤ at64 s.rt j) ∧
    ((s.check = true ∧ (sjfScan ps s).2.1 = s.shortest) ∨
      ((s.check = true → at64 s.rt (sjfScan ps s).2.1 < at64 s.rt s.shortest) ∧
        ∀ j, sjfElig ps s j → at64 s.rt j = at64 s.rt (sjfScan ps s).2.1 →
          (sjfScan ps s).2.1 ≤ j)) := by
  unfold sjfScan at hc ⊢
  rcases sjfScan_range ps s.rt s.t (s.minm, s.shortest, s.check) ps.length with
    ⟨h1, h2⟩ | ⟨h1, h2, h3, h4, h5, h6, h7, h8⟩
  · rw [h1] at hc ⊢
    have hc' : s.check = true := hc
    rcases h.mode with ⟨c, _⟩ | ⟨_, m1, m2, m3, m4, _⟩
    · rw [hc'] at c; exact absurd c (by decide)
    · refine ⟨⟨m1, le_of_lt m4, by rw [← m2]; exact m3⟩, m2, ?_, Or.inl ⟨hc', rfl⟩⟩
      rintro j ⟨hj, ha, hp⟩
      have := h2 j hj ha hp
      show at64 s.rt s.shortest ≤ at64 s.rt j
      rw [← m2]; exact this
  · refine ⟨⟨h2, h3, h4⟩, h5, ?_, Or.inr ⟨?_, ?_⟩⟩
    · rintro j ⟨hj, ha, hp⟩
      rw [← h5]; exact h7 j hj ha hp
    · intro hchk
      rcases h.mode with ⟨c, _⟩ | ⟨_, _, m2, _⟩
      · rw [hchk] at c; exact absurd c (by decide)
      · rw [← h5, ← m2]; exact h6
    · rintro j ⟨hj, ha, hp⟩ he
      exact h8 j hj ha hp (by rw [h5]; exact he)

theorem sjfStep_idle (ps : List Process) (s : SJFState)
    (hc : (sjfScan ps s).2.2 = false) :
    sjfStep ps s =
      { s with minm := (sjfScan ps s).1, shortest := (sjfScan ps s).2.1,
               check := (sjfScan ps s).2.2, t := s.t + 1 } := by
  unfold sjfStep
  simp only [hc, if_true]

theorem sjfStep_busy (ps : List Process) (s : SJFState)
    (hc : (sjfScan ps s).2.2 = true) (hl : (sjfScan ps s).2.1 < s.rt.length) :
    sjfStep ps s =
      if at64 s.rt (sjfScan ps s).2.1 - 1 = 0 then
        { rt := s.rt.set (sjfScan ps s).2.1 (at64 s.rt (sjfScan ps s).2.1 - 1),
          waitingTime := s.waitingTime.set (sjfScan ps s).2.1
            (if s.t + 1 - (procAt ps (sjfScan ps s).2.1).BurstDuration
                - (procAt ps (sjfScan ps s).2.1).ArrivalTime < 0 then 0
             else s.t + 1 - (procAt ps (sjfScan ps s).2.1).BurstDuration
                - (procAt ps (sjfScan ps s).2.1).ArrivalTime),
          complete := s.complete + 1, t := s.t + 1, minm := maxInt,
          shortest := (sjfScan ps s).2.1, finishTime := s.t + 1, check := false }
      else
        { rt := s.rt.set (sjfScan ps s).2.1 (at64 s.rt (sjfScan ps s).2.1 - 1),
          waitingTime := s.waitingTime, complete := s.complete, t := s.t + 1,
          minm := at64 s.rt (sjfScan ps s).2.1 - 1, shortest := (sjfScan ps s).2.1,
          finishTime := s.finishTime, check := true } := by
  unfold sjfStep
  simp only [hc, Bool.true_eq_false, if_false, at64_set_self _ _ _ hl]
  split_ifs <;> rfl

theorem sjfStep_t (ps : List Process) (s : SJFState) : (sjfStep ps s).t = s.t + 1 := by
  unfold sjfStep
  simp only
  split_ifs <;> rfl

theorem foldl_max_ge (l : List Int) : ∀ init : Int,
    init ≤ l.foldl max init ∧ ∀ x ∈ l, x ≤ l.foldl max init := by
  induction l with
  | nil => intro init; exact ⟨le_refl _, fun x hx => absurd hx (List.not_mem_nil x)⟩
  | cons y ys ih =>
    intro init
    obtain ⟨h1, h2⟩ := ih (max init y)
    simp only [List.foldl_cons]
    refine ⟨le_trans (le_max_left _ _) h1, ?_⟩
    intro x hx
    rcases List.mem_cons.mp hx with h | h
    · rw [h]; exact le_trans (le_max_right _ _) h1
    · exact h2 x h

theorem maxArrival_nonneg (ps : List Process) : 0 ≤ maxArrival ps :=
  (foldl_max_ge _ 0).1

theorem arrival_le_maxArrival (ps : List Process) (i : Nat) (hi : i < ps.length) :
    (procAt ps i).ArrivalTime ≤ maxArrival ps :=
  (foldl_max_ge _ 0).2 _ (List.mem_map_of_mem _ (procAt_mem ps i hi))

theorem foldl_max_mem (l : List Int) : ∀ init : Int,
    l.foldl max init = init ∨ l.foldl max init ∈ l := by
  induction l with
  | nil => intro init; exact Or.inl rfl
  | cons y ys ih =>
    intro init
    simp only [List.foldl_cons]
    rcases ih (max init y) with h | h
    · rw [h]
      rcases max_choice init y with h2 | h2
      · exact Or.inl h2
      · exact Or.inr (by rw [h2]; exact List.mem_cons_self _ _)
    · exact Or.inr (List.mem_cons_of_mem _ h)

/-- On a non-empty batch with non-negative arrival times, `maxArrival` is the
arrival time of some process, and no arrival time exceeds it. -/
theorem maxArrival_attained (ps : List Process) (hne : ps ≠ [])
    (ha : ∀ p ∈ ps, 0 ≤ p.ArrivalTime) :
    (∃ p ∈ ps, p.ArrivalTime = maxArrival ps) ∧ ∀ p ∈ ps, p.ArrivalTime ≤ maxArrival ps := by
  have hle : ∀ p ∈ ps, p.ArrivalTime ≤ maxArrival ps := fun p hp =>
    (foldl_max_ge _ 0).2 _ (List.mem_map_of_mem _ hp)
  refine ⟨?_, hle⟩
  rcases foldl_max_mem (ps.map (fun p => p.ArrivalTime)) 0 with h | h
  · obtain ⟨p, hp⟩ := List.exists_mem_of_ne_nil ps hne
    refine ⟨p, hp, ?_⟩
    have h1 := hle p hp
    have h2 := ha p hp
    have h3 : maxArrival ps = 0 := h
    omega
  · obtain ⟨p, hp, e⟩ := List.mem_map.mp h
    exact ⟨p, hp, e⟩

theorem exists_pos_of_unfinished (a : List Int) (h : 0 < unfinished a) :
    ∃ i, i < a.length ∧ 0 < at64 a i := by
  unfold unfinished at h
  induction a with
  | nil => simp at h
  | cons x xs ih =>
    by_cases hx : 0 < x
    · exact ⟨0, by simp, by simpa [at64] using hx⟩
    · simp only [List.countP_cons, decide_eq_true_eq, hx, if_false, add_zero] at h
      obtain ⟨i, hi, hp⟩ := ih h
      exact ⟨i + 1, by simpa using hi, by simpa [at64] using hp⟩

theorem sum_pos_of_pos (a : List Int) (hn : ∀ i, 0 ≤ at64 a i) (j : Nat)
    (hj : 0 < at64 a j) : 0 < a.sum := by
  induction a generalizing j with
  | nil => simp [at64] at hj
  | cons x xs ih =>
    have hx : 0 ≤ x := by simpa [at64] using hn 0
    have hxs : ∀ i, 0 ≤ at64 xs i := fun i => by simpa [at64] using hn (i + 1)
    have hsum : 0 ≤ xs.sum := by
      apply List.sum_nonneg
      intro y hy
      obtain ⟨i, _, e⟩ := mem_at64 _ _ hy
      rw [← e]; exact hxs i
    simp only [List.sum_cons]
    cases j with
    | zero =>
      have : 0 < x := by simpa [at64] using hj
      omega
    | succ j =>
      have := ih hxs j (by simpa [at64] using hj)
      omega

theorem sjfInit_rt (ps : List Process) :
    (sjfInit ps).rt = ps.map (fun p => p.BurstDuration) := copy_bursts ps

theorem sjfInv_init (ps : List Process)
    (hb : ∀ p ∈ ps, 1 ≤ p.BurstDuration ∧ p.BurstDuration < maxInt) :
    SJFInv ps (sjfInit ps) := by
  have hrt := sjfInit_rt ps
  have hb1 : ∀ p ∈ ps, 1 ≤ p.BurstDuration := fun p hp => (hb p hp).1
  have hrange : ∀ i, 0 ≤ (procAt ps i).BurstDuration ∧
      (procAt ps i).BurstDuration < maxInt := by
    intro i
    by_cases h : i < ps.length
    · have := hb _ (procAt_mem ps i h); omega
    · rw [procAt_of_le ps i (Nat.le_of_not_lt h)]; decide
  exact
    { len_rt := by rw [hrt]; simp
      rt_nonneg := fun i => by rw [hrt, at64_map_burst]; exact (hrange i).1
      rt_lt := fun i => by rw [hrt, at64_map_burst]; exact (hrange i).2
      complete_eq := by
        rw [hrt, unfinished_bursts ps hb1]
        show 0 + ps.length = ps.length
        omega
      sum_le := by rw [hrt]; exact le_refl _
      clock := by
        rw [hrt]
        have := maxArrival_nonneg ps
        show (0 : Int) + _ ≤ _
        unfold totalBurst
        omega
      t_nonneg := le_refl _
      mode := Or.inl ⟨rfl, rfl⟩ }

theorem sjfInv_step (ps : List Process) (s : SJFState) (h : SJFInv ps s)
    (hc : s.complete < ps.length) : SJFInv ps (sjfStep ps s) := by
  cases hchk : (sjfScan ps s).2.2 with
  | false =>
    obtain ⟨c0, e, hno⟩ := sjfScan_idle ps s h hchk
    rw [sjfStep_idle ps s hchk, e]
    have hm : s.minm = maxInt := by
      rcases h.mode with ⟨_, m⟩ | ⟨c, _⟩
      · exact m
      · rw [c0] at c; exact absurd c (by decide)
    have hun : 0 < unfinished s.rt := by
      have := h.complete_eq; omega
    obtain ⟨i, hi, hp⟩ := exists_pos_of_unfinished _ hun
    rw [h.len_rt] at hi
    have hlate : s.t < (procAt ps i).ArrivalTime := by
      by_contra hle
      exact hno i ⟨hi, le_of_not_lt hle, hp⟩
    have hmax := arrival_le_maxArrival ps i hi
    exact
      { len_rt := h.len_rt
        rt_nonneg := h.rt_nonneg
        rt_lt := h.rt_lt
        complete_eq := h.complete_eq
        sum_le := h.sum_le
        clock := by
          have := h.sum_le
          show s.t + 1 + s.rt.sum ≤ _
          omega
        t_nonneg := by
          have := h.t_nonneg
          show 0 ≤ s.t + 1
          omega
        mode := Or.inl ⟨c0, hm⟩ }
  | true =>
    obtain ⟨⟨e1, e2, e3⟩, _, hmin, _⟩ := sjfScan_busy ps s h hchk
    have hl : (sjfScan ps s).2.1 < s.rt.length := by rw [h.len_rt]; exact e1
    rw [sjfStep_busy ps s hchk hl]
    generalize (sjfScan ps s).2.1 = sh at e1 e2 e3 hmin hl
    have hsum := sum_set s.rt sh (at64 s.rt sh - 1) hl
    have hunf := unfinished_set s.rt sh (at64 s.rt sh - 1) hl
    have hlt := h.rt_lt sh
    have hnn : ∀ i, 0 ≤ at64 (s.rt.set sh (at64 s.rt sh - 1)) i := by
      intro i
      rw [at64_set]; split_ifs
      · omega
      · exact h.rt_nonneg i
    have hltm : ∀ i, at64 (s.rt.set sh (at64 s.rt sh - 1)) i < maxInt := by
      intro i
      rw [at64_set]; split_ifs
      · omega
      · exact h.rt_lt i
    have hsl := h.sum_le
    have hck := h.clock
    have htn := h.t_nonneg
    have hce := h.complete_eq
    simp only [e3, if_true] at hunf
    by_cases hz : at64 s.rt sh - 1 = 0
    · rw [if_pos hz]
      have hz' : ¬ (0 < at64 s.rt sh - 1) := by omega
      simp only [hz', if_false] at hunf
      exact
        { len_rt := by simp [h.len_rt]
          rt_nonneg := hnn
          rt_lt := hltm
          complete_eq := by
            show s.complete + 1 + unfinished (s.rt.set sh (at64 s.rt sh - 1)) = _
            omega
          sum_le := by
            show (s.rt.set sh (at64 s.rt sh - 1)).sum ≤ _
            omega
          clock := by
            show s.t + 1 + (s.rt.set sh (at64 s.rt sh - 1)).sum ≤ _
            omega
          t_nonneg := by
            show 0 ≤ s.t + 1
            omega
          mode := Or.inl ⟨rfl, rfl⟩ }
    · rw [if_neg hz]
      have hz' : 0 < at64 s.rt sh - 1 := by omega
      simp only [hz', if_true] at hunf
      exact
        { len_rt := by simp [h.len_rt]
          rt_nonneg := hnn
          rt_lt := hltm
          complete_eq := by
            show s.complete + unfinished (s.rt.set sh (at64 s.rt sh - 1)) = _
            omega
          sum_le := by
            show (s.rt.set sh (at64 s.rt sh - 1)).sum ≤ _
            omega
          clock := by
            show s.t + 1 + (s.rt.set sh (at64 s.rt sh - 1)).sum ≤ _
            omega
          t_nonneg := by
            show 0 ≤ s.t + 1
            omega
          mode := by
            right
            refine ⟨rfl, e1, ?_, hz', ?_, ?_⟩
            · show at64 s.rt sh - 1 = at64 (s.rt.set sh (at64 s.rt sh - 1)) sh
              rw [at64_set_self _ _ _ hl]
            · show (procAt ps sh).ArrivalTime < s.t + 1
              omega
            · intro j hj hne ha hp
              have ha' : (procAt ps j).ArrivalTime < s.t + 1 := ha
              have hp' : 0 < at64 (s.rt.set sh (at64 s.rt sh - 1)) j := hp
              show at64 s.rt sh - 1 < at64 (s.rt.set sh (at64 s.rt sh - 1)) j
              rw [at64_set_ne _ _ _ _ (Ne.symm hne)] at hp' ⊢
              have := hmin j ⟨hj, by omega, hp'⟩
              omega }

theorem sjfIter_inv (ps : List Process)
    (hb : ∀ p ∈ ps, 1 ≤ p.BurstDuration ∧ p.BurstDuration < maxInt) (k : Nat) :
    SJFInv ps (sjfIter ps k) :=
  iterLoop_inv (sjfCond ps) (sjfStep ps) (SJFInv ps)
    (fun s hs hc => sjfInv_step ps s hs (by simpa [sjfCond] using hc))
    _ (sjfInv_init ps hb) k

theorem sjfPick_some (ps : List Process) (s : SJFState) (i : Nat)
    (h : sjfPick ps s = some i) : (sjfScan ps s).2.2 = true ∧ (sjfScan ps s).2.1 = i := by
  unfold sjfPick at h
  simp only at h
  split_ifs at h with hc
  exact ⟨by simpa using hc, Option.some.inj h⟩

theorem sjfPick_none (ps : List Process) (s : SJFState)
    (h : sjfPick ps s = none) : (sjfScan ps s).2.2 = false := by
  unfold sjfPick at h
  simp only at h
  split_ifs at h with hc
  exact hc

theorem sjfIter_succ (ps : List Process) (k : Nat)
    (hrun : (sjfIter ps k).complete < ps.length) :
    sjfIter ps (k + 1) = sjfStep ps (sjfIter ps k) := by
  unfold sjfIter at hrun ⊢
  rw [iterLoop_succ]
  have : sjfCond ps (iterLoop (sjfCond ps) (sjfStep ps) k (sjfInit ps)) = true := by
    simpa [sjfCond] using hrun
  simp [this]

theorem sjfIter_running (ps : List Process) (k : Nat)
    (hrun : (sjfIter ps (k + 1)).complete < ps.length) :
    (sjfIter ps k).complete < ps.length := by
  by_contra hc
  have e : sjfIter ps (k + 1) = sjfIter ps k := by
    unfold sjfIter at hc ⊢
    rw [iterLoop_succ]
    have : sjfCond ps (iterLoop (sjfCond ps) (sjfStep ps) k (sjfInit ps)) = false := by
      simpa [sjfCond] using hc
    simp [this]
  rw [e] at hrun
  exact hc hrun

/-- While the tick loop runs, the tick equals the number of passes made. -/
theorem sjfIter_t (ps : List Process) : ∀ k,
    (sjfIter ps k).complete < ps.length → (sjfIter ps k).t = (k : Int) := by
  intro k
  induction k with
  | zero => intro _; rfl
  | succ k ih =>
    intro hrun
    have hk := sjfIter_running ps k hrun
    rw [sjfIter_succ ps k hk, sjfStep_t, ih hk]
    push_cast; ring

theorem sjfInv_final (ps : List Process) (s : SJFState) (h : SJFInv ps s)
    (hc : ¬ s.complete < ps.length) :
    (∀ x ∈ s.rt, x = 0) ∧ s.complete = ps.length ∧
      s.t ≤ maxArrival ps + totalBurst ps := by
  have hu : unfinished s.rt = 0 := by
    have := h.complete_eq; omega
  have hz : ∀ i, at64 s.rt i = 0 := by
    intro i
    have := unfinished_eq_zero s.rt hu i
    have := h.rt_nonneg i
    omega
  refine ⟨?_, by have := h.complete_eq; omega, ?_⟩
  · intro x hx
    obtain ⟨i, _, e⟩ := mem_at64 _ _ hx
    rw [← e]; exact hz i
  · have := h.clock
    rw [sum_eq_zero_of_at64 _ hz] at this
    omega

/-- The tick loop has ended after `maxArrival + totalBurst` passes. -/
theorem sjf_ends (ps : List Process)
    (hb : ∀ p ∈ ps, 1 ≤ p.BurstDuration ∧ p.BurstDuration < maxInt) :
    ¬ (sjfIter ps (maxArrival ps + totalBurst ps).toNat).complete < ps.length := by
  intro hrun
  have h := sjfIter_inv ps hb (maxArrival ps + totalBurst ps).toNat
  have ht := sjfIter_t ps _ hrun
  have hun : 0 < unfinished (sjfIter ps (maxArrival ps + totalBurst ps).toNat).rt := by
    have := h.complete_eq; omega
  obtain ⟨i, _, hp⟩ := exists_pos_of_unfinished _ hun
  have hs := sum_pos_of_pos _ h.rt_nonneg i hp
  have hck := h.clock
  omega

theorem SJFSchedule_some (ps : List Process) (fuel : Nat) (out : Report)
    (h : SJFSchedule fuel ps = some out) :
    ∃ s, runLoop (sjfCond ps) (sjfStep ps) fuel (sjfInit ps) = some s ∧
      out = emitReport ps.length (sjfEmit ps s.waitingTime) := by
  unfold SJFSchedule at h
  cases hr : runLoop (sjfCond ps) (sjfStep ps) fuel (sjfInit ps) with
  | none => rw [hr] at h; simp at h
  | some s =>
    rw [hr] at h
    exact ⟨s, rfl, (Option.some.inj h).symm⟩

theorem sjfEmit_schedule (ps : List Process) (w : List Int) :
    (sjfEmit ps w).schedule = (List.range ps.length).map (fun i =>
      ({ id := (procAt ps i).ProcessID, priority := (procAt ps i).Priority,
         burst := (procAt ps i).BurstDuration, arrival := (procAt ps i).ArrivalTime,
         wait := at64 w i, turnaround := at64 (findTurnAroundTime ps w) i,
         completion := (procAt ps i).BurstDuration + (procAt ps i).ArrivalTime
           + at64 w i } : Row)) := by
  rw [sjfEmit_eq]
  exact (emit_fold _ _ _ _ _ _ _ ps.length).1

theorem findTurnAroundTime_at (ps : List Process) (w : List Int) (i : Nat)
    (hi : i < ps.length) :
    at64 (findTurnAroundTime ps w) i = (procAt ps i).BurstDuration + at64 w i := by
  unfold findTurnAroundTime
  have := (foldl_set_range (fun i => (procAt ps i).BurstDuration + at64 w i)
    (List.replicate ps.length 0) ps.length (by simp)).2 i
  rw [this, if_pos hi]

theorem prioEmit_schedule (ps : List Process) (a : PrioArrays) (w tat : List Int) :
    (prioEmit ps a w tat).schedule = (List.range ps.length).map (fun i =>
      ({ id := at64 a.tempPID i, priority := at64 a.tempPriority i,
         burst := at64 a.tempB i, arrival := at64 a.tempArr i,
         wait := at64 w i, turnaround := at64 tat i,
         completion := add64 (add64 (at64 a.tempB i) (at64 a.tempArr i)) (at64 w i) }
        : Row)) := by
  rw [prioEmit_eq]
  exact (emit64_fold _ _ _ _ _ _ _ ps.length).1

theorem prioTat_at (n : Nat) (a : PrioArrays) (w : List Int) (i : Nat) (hi : i < n) :
    at64 (prioTat n a w) i = add64 (at64 a.tempB i) (at64 w i) := by
  unfold prioTat
  have := (foldl_set_range (fun i => add64 (at64 a.tempB i) (at64 w i))
    (List.replicate n 0) n (by simp)).2 i
  rw [this, if_pos hi]

/-- The variables `check` and `shortest` at the head of pass `k` record the
process held from the previous pass. -/
theorem sjfHeld_spec (ps : List Process)
    (hb : ∀ p ∈ ps, 1 ≤ p.BurstDuration ∧ p.BurstDuration < maxInt) :
    ∀ k, (sjfIter ps k).complete < ps.length →
      ((sjfIter ps k).check = true → sjfHeld ps k = some (sjfIter ps k).shortest) ∧
      ((sjfIter ps k).check = false → sjfHeld ps k = none) := by
  intro k
  cases k with
  | zero =>
    intro _
    have hc : (sjfIter ps 0).check = false := rfl
    rw [hc]
    exact ⟨fun h => absurd h (by decide), fun _ => rfl⟩
  | succ k =>
    intro hrun
    have hk := sjfIter_running ps k hrun
    have h := sjfIter_inv ps hb k
    have hstep := sjfIter_succ ps k hk
    cases hchk : (sjfScan ps (sjfIter ps k)).2.2 with
    | false =>
      have hp : sjfPick ps (sjfIter ps k) = none := by
        unfold sjfPick; simp [hchk]
      have hheld : sjfHeld ps (k + 1) = none := by
        rw [sjfHeld, hp]
      have hc : (sjfIter ps (k + 1)).check = false := by
        rw [hstep, sjfStep_idle ps _ hchk]; exact hchk
      rw [hc, hheld]
      exact ⟨fun h => absurd h (by decide), fun _ => rfl⟩
    | true =>
      obtain ⟨⟨e1, _, e3⟩, _, _, _⟩ := sjfScan_busy ps _ h hchk
      have hl : (sjfScan ps (sjfIter ps k)).2.1 < (sjfIter ps k).rt.length := by
        rw [h.len_rt]; exact e1
      have hp : sjfPick ps (sjfIter ps k) = some (sjfScan ps (sjfIter ps k)).2.1 := by
        unfold sjfPick; simp [hchk]
      have hst := sjfStep_busy ps _ hchk hl
      by_cases hz : at64 (sjfIter ps k).rt (sjfScan ps (sjfIter ps k)).2.1 - 1 = 0
      · rw [if_pos hz] at hst
        have hc : (sjfIter ps (k + 1)).check = false := by rw [hstep, hst]
        have hr : at64 (sjfIter ps (k + 1)).rt (sjfScan ps (sjfIter ps k)).2.1 = 0 := by
          rw [hstep, hst]
          show at64 (List.set _ _ _) _ = 0
          rw [at64_set_self _ _ _ hl]; exact hz
        have hheld : sjfHeld ps (k + 1) = none := by
          rw [sjfHeld, hp]
          simp only [hr, lt_self_iff_false, if_false]
        rw [hc, hheld]
        exact ⟨fun h => absurd h (by decide), fun _ => rfl⟩
      · rw [if_neg hz] at hst
        have hc : (sjfIter ps (k + 1)).check = true := by rw [hstep, hst]
        have hs : (sjfIter ps (k + 1)).shortest = (sjfScan ps (sjfIter ps k)).2.1 := by
          rw [hstep, hst]
        have hr : 0 < at64 (sjfIter ps (k + 1)).rt (sjfScan ps (sjfIter ps k)).2.1 := by
          rw [hstep, hst]
          show 0 < at64 (List.set _ _ _) _
          rw [at64_set_self _ _ _ hl]; omega
        have hheld : sjfHeld ps (k + 1) = some (sjfScan ps (sjfIter ps k)).2.1 := by
          rw [sjfHeld, hp]
          simp only [hr, if_true]
        rw [hc, hheld, hs]
        exact ⟨fun _ => rfl, fun h => absurd h (by decide)⟩

/-! ## SJFSchedule: the claims -/

/-- C5, as stated, fails: for the one-process batch with burst `math.MaxInt`
and arrival 0, tick 0 is idle although process 0 has arrived and has a positive
remaining burst (the scan requires `rt[i] < minm`, and `minm` is `math.MaxInt`). -/
theorem SJF_idle_with_candidate_counterexample :
    (∀ p ∈ [(⟨1, 0, 9223372036854775807, 0⟩ : Process)],
      1 ≤ p.BurstDuration ∧ 0 ≤ p.ArrivalTime) ∧
    (sjfIter [⟨1, 0, 9223372036854775807, 0⟩] 0).complete < 1 ∧
    sjfPick [⟨1, 0, 9223372036854775807, 0⟩]
      (sjfIter [⟨1, 0, 9223372036854775807, 0⟩] 0) = none ∧
    (procAt [⟨1, 0, 9223372036854775807, 0⟩] 0).ArrivalTime
      ≤ (sjfIter [⟨1, 0, 9223372036854775807, 0⟩] 0).t ∧
    0 < at64 (sjfIter [⟨1, 0, 9223372036854775807, 0⟩] 0).rt 0 ∧
    (sjfIter [⟨1, 0, 9223372036854775807, 0⟩] 1).rt = [9223372036854775807] := by
  decide

/-- C5, amended. In the tick loop of `SJFSchedule`, for every batch with
bursts >= 1 and below the sentinel `math.MaxInt`, at every tick at which a
process is run (its remaining burst is the one decremented) that process has
arrived, has a positive remaining burst before the decrement, and its
remaining burst is minimal among the arrived unfinished processes; a tick is
idle (no remaining burst changes) only when no process has arrived and is
unfinished. -/
theorem SJF_runs_shortest_candidate (ps : List Process)
    (hb : ∀ p ∈ ps, 1 ≤ p.BurstDuration ∧ p.BurstDuration < maxInt) (k : Nat)
    (hrun : (sjfIter ps k).complete < ps.length) :
    (∀ i, sjfPick ps (sjfIter ps k) = some i →
      i < ps.length ∧ (procAt ps i).ArrivalTime ≤ (sjfIter ps k).t ∧
      0 < at64 (sjfIter ps k).rt i ∧
      (∀ j, j < ps.length → (procAt ps j).ArrivalTime ≤ (sjfIter ps k).t →
        0 < at64 (sjfIter ps k).rt j → at64 (sjfIter ps k).rt i ≤ at64 (sjfIter ps k).rt j) ∧
      (sjfIter ps (k + 1)).rt = (sjfIter ps k).rt.set i (at64 (sjfIter ps k).rt i - 1)) ∧
    (sjfPick ps (sjfIter ps k) = none →
      (∀ j, j < ps.length →
        ¬ ((procAt ps j).ArrivalTime ≤ (sjfIter ps k).t ∧ 0 < at64 (sjfIter ps k).rt j)) ∧
      (sjfIter ps (k + 1)).rt = (sjfIter ps k).rt) := by
  have h := sjfIter_inv ps hb k
  have hstep := sjfIter_succ ps k hrun
  constructor
  · intro i hp
    obtain ⟨hchk, ei⟩ := sjfPick_some ps _ i hp
    obtain ⟨⟨e1, e2, e3⟩, _, hmin, _⟩ := sjfScan_busy ps _ h hchk
    have hl : (sjfScan ps (sjfIter ps k)).2.1 < (sjfIter ps k).rt.length := by
      rw [h.len_rt]; exact e1
    have hst := sjfStep_busy ps _ hchk hl
    rw [ei] at e1 e2 e3 hmin hst
    refine ⟨e1, e2, e3, fun j hj ha hpj => hmin j ⟨hj, ha, hpj⟩, ?_⟩
    rw [hstep, hst]
    split_ifs <;> rfl
  · intro hp
    have hchk := sjfPick_none ps _ hp
    obtain ⟨_, _, hno⟩ := sjfScan_idle ps _ h hchk
    refine ⟨fun j hj hc => hno j ⟨hj, hc.1, hc.2⟩, ?_⟩
    rw [hstep, sjfStep_idle ps _ hchk]

/-- Witness of the amended C5 on the scenario batch at tick 0, where process 0
is run. -/
theorem SJF_runs_shortest_candidate_witness :
    (∀ p ∈ batch1, 1 ≤ p.BurstDuration ∧ p.BurstDuration < maxInt) ∧
    (sjfIter batch1 0).complete < batch1.length ∧
    sjfPick batch1 (sjfIter batch1 0) = some 0 ∧
    (0 < batch1.length ∧ (procAt batch1 0).ArrivalTime ≤ (sjfIter batch1 0).t ∧
      0 < at64 (sjfIter batch1 0).rt 0 ∧
      (∀ j, j < batch1.length → (procAt batch1 j).ArrivalTime ≤ (sjfIter batch1 0).t →
        0 < at64 (sjfIter batch1 0).rt j →
        at64 (sjfIter batch1 0).rt 0 ≤ at64 (sjfIter batch1 0).rt j) ∧
      (sjfIter batch1 (0 + 1)).rt
        = (sjfIter batch1 0).rt.set 0 (at64 (sjfIter batch1 0).rt 0 - 1)) :=
  ⟨by decide, by decide, by decide,
    (SJF_runs_shortest_candidate batch1 (by decide) 0 (by decide)).1 0 (by decide)⟩

/-- C6, as stated, fails: on the batch with bursts 2, 3 and arrivals 1, 0, at
tick 1 both processes have arrived with remaining burst 2, and the one run is
process 1, which ran at tick 0, not the lower index 0 that has just arrived. -/
theorem SJF_tie_lowest_index_counterexample :
    (∀ p ∈ [(⟨1, 1, 2, 0⟩ : Process), ⟨2, 0, 3, 0⟩],
      1 ≤ p.BurstDuration ∧ p.BurstDuration < maxInt ∧ 0 ≤ p.ArrivalTime) ∧
    (sjfIter [⟨1, 1, 2, 0⟩, ⟨2, 0, 3, 0⟩] 1).complete < 2 ∧
    (sjfIter [⟨1, 1, 2, 0⟩, ⟨2, 0, 3, 0⟩] 1).t = 1 ∧
    (sjfIter [⟨1, 1, 2, 0⟩, ⟨2, 0, 3, 0⟩] 1).rt = [2, 2] ∧
    (procAt [⟨1, 1, 2, 0⟩, ⟨2, 0, 3, 0⟩] 0).ArrivalTime ≤ 1 ∧
    (procAt [⟨1, 1, 2, 0⟩, ⟨2, 0, 3, 0⟩] 1).ArrivalTime ≤ 1 ∧
    sjfPick [⟨1, 1, 2, 0⟩, ⟨2, 0, 3, 0⟩] (sjfIter [⟨1, 1, 2, 0⟩, ⟨2, 0, 3, 0⟩] 0) = some 1 ∧
    sjfPick [⟨1, 1, 2, 0⟩, ⟨2, 0, 3, 0⟩] (sjfIter [⟨1, 1, 2, 0⟩, ⟨2, 0, 3, 0⟩] 1) = some 1 ∧
    (sjfIter [⟨1, 1, 2, 0⟩, ⟨2, 0, 3, 0⟩] 2).rt = [2, 1] := by
  decide

/-- C6, amended. In `SJFSchedule`, at every tick at which a process is run:
if the process that was run at the previous tick is unfinished and shares the
minimum remaining burst, it is the one run again (a process that has just
arrived with an equal remaining burst does not preempt it, whatever its
index); otherwise the one run is the process with the lowest batch index among
the arrived unfinished processes that share the minimum remaining burst. -/
theorem SJF_tie_break (ps : List Process)
    (hb : ∀ p ∈ ps, 1 ≤ p.BurstDuration ∧ p.BurstDuration < maxInt) (k : Nat)
    (hrun : (sjfIter ps k).complete < ps.length) (i : Nat)
    (hpick : sjfPick ps (sjfIter ps k) = some i) :
    (∀ p, sjfHeld ps k = some p →
      at64 (sjfIter ps k).rt p = at64 (sjfIter ps k).rt i → i = p) ∧
    ((∀ p, sjfHeld ps k = some p →
        at64 (sjfIter ps k).rt p ≠ at64 (sjfIter ps k).rt i) →
      ∀ j, j < ps.length → (procAt ps j).ArrivalTime ≤ (sjfIter ps k).t →
        0 < at64 (sjfIter ps k).rt j →
        at64 (sjfIter ps k).rt j = at64 (sjfIter ps k).rt i → i ≤ j) := by
  have h := sjfIter_inv ps hb k
  obtain ⟨hchk, ei⟩ := sjfPick_some ps _ i hpick
  obtain ⟨hheld1, hheld2⟩ := sjfHeld_spec ps hb k hrun
  obtain ⟨_, _, _, halt⟩ := sjfScan_busy ps _ h hchk
  rw [ei] at halt
  constructor
  · intro p hp he
    cases hc : (sjfIter ps k).check with
    | false => rw [hheld2 hc] at hp; exact absurd hp (by simp)
    | true =>
      have hps : (sjfIter ps k).shortest = p := by
        have := hheld1 hc
        rw [this] at hp
        exact Option.some.inj hp
      rcases halt with ⟨_, e⟩ | ⟨hlt, _⟩
      · rw [e, hps]
      · have := hlt hc
        rw [hps] at this
        omega
  · intro hne j hj ha hp he
    rcases halt with ⟨hc, e⟩ | ⟨_, htie⟩
    · have := hne i (by rw [hheld1 hc, e])
      exact absurd rfl this
    · exact htie j ⟨hj, ha, hp⟩ he

/-- Witness of the amended C6 on the batch with bursts 2, 3 and arrivals 1, 0
at tick 1, where process 1 is run again. -/
theorem SJF_tie_break_witness :
    sjfPick [⟨1, 1, 2, 0⟩, ⟨2, 0, 3, 0⟩] (sjfIter [⟨1, 1, 2, 0⟩, ⟨2, 0, 3, 0⟩] 1) = some 1 ∧
    sjfHeld [⟨1, 1, 2, 0⟩, ⟨2, 0, 3, 0⟩] 1 = some 1 ∧
    ∀ p, sjfHeld [⟨1, 1, 2, 0⟩, ⟨2, 0, 3, 0⟩] 1 = some p →
      at64 (sjfIter [⟨1, 1, 2, 0⟩, ⟨2, 0, 3, 0⟩] 1).rt p
        = at64 (sjfIter [⟨1, 1, 2, 0⟩, ⟨2, 0, 3, 0⟩] 1).rt 1 → 1 = p :=
  ⟨by decide, by decide,
    (SJF_tie_break [⟨1, 1, 2, 0⟩, ⟨2, 0, 3, 0⟩] (by decide) 1 (by decide) 1 (by decide)).1⟩

/-- C7. For every batch with every burst at least 1 and below the sentinel
`math.MaxInt`, the tick loop of `SJFSchedule` terminates (within
`maxArrival + totalBurst` passes, so `SJFSchedule` returns), and whenever it
has terminated every remaining burst is 0 and the final tick count is at most
(maximum arrival time) + (sum of all bursts). -/
theorem SJF_terminates (ps : List Process)
    (hb : ∀ p ∈ ps, 1 ≤ p.BurstDuration ∧ p.BurstDuration < maxInt) :
    (∃ s, runLoop (sjfCond ps) (sjfStep ps) (maxArrival ps + totalBurst ps).toNat
        (sjfInit ps) = some s) ∧
    (∃ out, SJFSchedule (maxArrival ps + totalBurst ps).toNat ps = some out) ∧
    (∀ fuel s, runLoop (sjfCond ps) (sjfStep ps) fuel (sjfInit ps) = some s →
      (∀ x ∈ s.rt, x = 0) ∧ s.complete = ps.length ∧
      s.t ≤ maxArrival ps + totalBurst ps) := by
  have hend := sjf_ends ps hb
  have hsome : runLoop (sjfCond ps) (sjfStep ps) (maxArrival ps + totalBurst ps).toNat
      (sjfInit ps) = some (sjfIter ps (maxArrival ps + totalBurst ps).toNat) := by
    rw [runLoop_eq]
    have : sjfCond ps (iterLoop (sjfCond ps) (sjfStep ps)
        (maxArrival ps + totalBurst ps).toNat (sjfInit ps)) = false := by
      unfold sjfIter at hend
      simpa [sjfCond] using hend
    rw [this]; rfl
  refine ⟨⟨_, hsome⟩, ⟨_, by unfold SJFSchedule; rw [hsome]; rfl⟩, ?_⟩
  intro fuel s hs
  obtain ⟨e, hc⟩ := runLoop_some _ _ _ _ _ hs
  have hinv : SJFInv ps s := by rw [e]; exact sjfIter_inv ps hb fuel
  exact sjfInv_final ps s hinv (by simpa [sjfCond] using hc)

/-- Witness of C7 on the scenario batch. -/
theorem SJF_terminates_witness :
    (∀ p ∈ batch1, 1 ≤ p.BurstDuration ∧ p.BurstDuration < maxInt) ∧
    ∃ out, SJFSchedule (maxArrival batch1 + totalBurst batch1).toNat batch1 = some out :=
  ⟨by decide, (SJF_terminates batch1 (by decide)).2.1⟩

/-! ## All four schedulers: turnaround = waiting + burst -/

/-- C1, as stated, fails: `FCFSSchedule` on the batch with bursts 3,
9223372036854775807 and arrivals 0, 1 reports for the second process waiting 2
and turnaround -9223372036854775807, which is not waiting + burst: the `int64`
sum has wrapped. -/
theorem FCFS_turnaround_wrap_counterexample :
    (∀ p ∈ [(⟨1, 0, 3, 0⟩ : Process), ⟨2, 1, 9223372036854775807, 0⟩],
      1 ≤ p.BurstDuration ∧ 0 ≤ p.ArrivalTime) ∧
    (FCFSSchedule [⟨1, 0, 3, 0⟩, ⟨2, 1, 9223372036854775807, 0⟩]).schedule.map
      (fun r => (r.wait, r.burst, r.turnaround))
      = [(0, 3, 3), (2, 9223372036854775807, -9223372036854775807)] ∧
    ¬ (∀ r ∈ (FCFSSchedule [⟨1, 0, 3, 0⟩, ⟨2, 1, 9223372036854775807, 0⟩]).schedule,
      r.turnaround = r.wait + r.burst) := by
  decide

/-- C1, amended. For each of the four schedulers and every non-empty batch
with every burst at least 1 and every arrival at least 0 on which the
scheduler returns, every emitted metrics row has turnaround = waiting + burst
as `int64` addition computes it, the burst being the one shown in that row:
in `FCFSSchedule` and `SJFPrioritySchedule` the turnaround is the wrapped sum,
which is waiting + burst itself whenever that sum lies in the range of
`int64`; in `SJFSchedule` and `RRSchedule`, whose values are bounded by the
clock of the loop, it is waiting + burst (`FCFSSchedule` always returns, and
`SJFPrioritySchedule` returns on every non-empty batch). -/
theorem rows_turnaround_eq_wait_add_burst (ps : List Process) (hne : ps ≠ [])
    (hb : ∀ p ∈ ps, 1 ≤ p.BurstDuration ∧ 0 ≤ p.ArrivalTime) :
    (∀ r ∈ (FCFSSchedule ps).schedule, r.turnaround = wrap64 (r.wait + r.burst) ∧
      (Int64 (r.wait + r.burst) → r.turnaround = r.wait + r.burst)) ∧
    (∀ fuel out, SJFSchedule fuel ps = some out →
      ∀ r ∈ out.schedule, r.turnaround = r.wait + r.burst) ∧
    (∃ out, SJFPrioritySchedule ps = some out ∧
      ∀ r ∈ out.schedule, r.turnaround = wrap64 (r.wait + r.burst) ∧
        (Int64 (r.wait + r.burst) → r.turnaround = r.wait + r.burst)) ∧
    (∀ fuel out, RRSchedule fuel ps = some out →
      ∀ r ∈ out.schedule, r.turnaround = r.wait + r.burst) := by
  have hpos : 0 < ps.length := List.length_pos.mpr hne
  have hwrap : ∀ t w b : Int, t = add64 b w →
      t = wrap64 (w + b) ∧ (Int64 (w + b) → t = w + b) := by
    intro t w b e
    have e1 : t = wrap64 (w + b) := by rw [e, add64, add_comm]
    exact ⟨e1, fun h => by rw [e1, wrap64_of_int64 _ h]⟩
  refine ⟨?_, ?_, ?_, ?_⟩
  · intro r hr
    rw [fcfs_schedule, List.mem_map] at hr
    obtain ⟨i, _, e⟩ := hr
    rw [← e]
    exact hwrap _ _ _ rfl
  · intro fuel out ho r hr
    obtain ⟨s, _, e⟩ := SJFSchedule_some ps fuel out ho
    rw [e] at hr
    have hr' : r ∈ (sjfEmit ps s.waitingTime).schedule := hr
    rw [sjfEmit_schedule, List.mem_map] at hr'
    obtain ⟨i, hi, e2⟩ := hr'
    rw [← e2]
    simp only [findTurnAroundTime_at ps _ i (List.mem_range.mp hi)]
    ring
  · have hn : ps.length ≠ 0 := by omega
    have hsome : SJFPrioritySchedule ps = some (emitReport ps.length
        (prioEmit ps (prioSort ps.length (prioCopy ps))
          (prioWait ps.length (prioSort ps.length (prioCopy ps)))
          (prioTat ps.length (prioSort ps.length (prioCopy ps))
            (prioWait ps.length (prioSort ps.length (prioCopy ps)))))) := by
      unfold SJFPrioritySchedule
      simp only [hn, if_false]
    refine ⟨_, hsome, ?_⟩
    intro r hr
    have hr' : r ∈ (prioEmit ps (prioSort ps.length (prioCopy ps))
        (prioWait ps.length (prioSort ps.length (prioCopy ps)))
        (prioTat ps.length (prioSort ps.length (prioCopy ps))
          (prioWait ps.length (prioSort ps.length (prioCopy ps))))).schedule := hr
    rw [prioEmit_schedule, List.mem_map] at hr'
    obtain ⟨i, hi, e2⟩ := hr'
    rw [← e2]
    exact hwrap _ _ _ (prioTat_at _ _ _ i (List.mem_range.mp hi))
  · intro fuel out ho r hr
    obtain ⟨s, hs, e⟩ := RRSchedule_some ps fuel out ho
    obtain ⟨hinv, h0⟩ := rr_final ps hne (fun p hp => (hb p hp).1) fuel s hs
    have hrt := rr_final_rt ps s hinv h0
    rw [e] at hr
    have hr' : r ∈ (rrEmit ps s).schedule := hr
    rw [rrEmit_schedule, List.mem_map] at hr'
    obtain ⟨i, hi, e2⟩ := hr'
    rw [← e2]
    exact (hinv.finished i (List.mem_range.mp hi) (hrt i)).1

/-- Witness of the amended C1 on the scenario batch, on which `SJFSchedule`
returns within 16 passes and `RRSchedule` within 12. -/
theorem rows_turnaround_eq_wait_add_burst_witness :
    batch1 ≠ [] ∧ (∀ p ∈ batch1, 1 ≤ p.BurstDuration ∧ 0 ≤ p.ArrivalTime) ∧
    (SJFSchedule 16 batch1).isSome = true ∧ (RRSchedule 12 batch1).isSome = true ∧
    ((∀ r ∈ (FCFSSchedule batch1).schedule, r.turnaround = wrap64 (r.wait + r.burst) ∧
      (Int64 (r.wait + r.burst) → r.turnaround = r.wait + r.burst)) ∧
    (∀ fuel out, SJFSchedule fuel batch1 = some out →
      ∀ r ∈ out.schedule, r.turnaround = r.wait + r.burst) ∧
    (∃ out, SJFPrioritySchedule batch1 = some out ∧
      ∀ r ∈ out.schedule, r.turnaround = wrap64 (r.wait + r.burst) ∧
        (Int64 (r.wait + r.burst) → r.turnaround = r.wait + r.burst)) ∧
    (∀ fuel out, RRSchedule fuel batch1 = some out →
      ∀ r ∈ out.schedule, r.turnaround = r.wait + r.burst)) :=
  ⟨by decide, by decide, by decide, by decide,
    rows_turnaround_eq_wait_add_burst batch1 (by decide) (by decide)⟩

/-! ## The closing loop: intervals -/

theorem emit_finalCompletion_succ (pid id pr b a w tt : Nat → Int) (n : Nat) :
    (emitLoop pid id pr b a w tt (n + 1)).finalCompletion =
      max (emitLoop pid id pr b a w tt n).finalCompletion (b n + a n + w n) := by
  rw [emitLoop_succ]
  simp only [emitBody]
  rw [max_def]
  split_ifs <;> omega

theorem emit_gantt (pid id pr b a w tt : Nat → Int) : ∀ n,
    (emitLoop pid id pr b a w tt n).gantt =
      (List.range n).map (fun i =>
        ({ PID := pid i, Start := w i + a i,
           Stop := (emitLoop pid id pr b a w tt (i + 1)).finalCompletion } : TimeSlice)) := by
  intro n
  induction n with
  | zero => simp [emitLoop, emitInit]
  | succ n ih =>
    rw [List.range_succ, List.map_append, ← ih]
    simp only [List.map_cons, List.map_nil]
    rw [emitLoop_succ]
    simp only [emitBody]

theorem emit_finalCompletion_mono (pid id pr b a w tt : Nat → Int) (i j : Nat)
    (h : i ≤ j) :
    (emitLoop pid id pr b a w tt i).finalCompletion
      ≤ (emitLoop pid id pr b a w tt j).finalCompletion := by
  induction j with
  | zero =>
    have : i = 0 := by omega
    rw [this]
  | succ j ih =>
    rcases Nat.lt_succ_iff_lt_or_eq.mp (Nat.lt_succ_of_le h) with h1 | h1
    · have := ih (Nat.le_of_lt_succ h1)
      rw [emit_finalCompletion_succ]
      exact le_trans this (le_max_left _ _)
    · rw [h1]

theorem emit_completionMax (pid id pr b a w tt : Nat → Int) (n : Nat) : ∀ k, k ≤ n →
    completionMax (emitLoop pid id pr b a w tt n).schedule k =
      (emitLoop pid id pr b a w tt k).finalCompletion := by
  intro k
  induction k with
  | zero => intro _; simp [completionMax, emitLoop, emitInit]
  | succ k ih =>
    intro hk
    have hprev := ih (Nat.le_of_succ_le hk)
    rw [emit_finalCompletion_succ, ← hprev]
    unfold completionMax
    rw [(emit_fold pid id pr b a w tt n).1, ← List.map_take, List.take_range,
      ← List.map_take, List.take_range, Nat.min_eq_left hk,
      Nat.min_eq_left (Nat.le_of_succ_le hk), List.range_succ]
    simp only [List.map_append, List.map_cons, List.map_nil, List.foldl_append,
      List.foldl_cons, List.foldl_nil]

/-- The report built from the closing loop has the running-maximum stops. -/
theorem emit_stops (pid id pr b a w tt : Nat → Int) (n : Nat) :
    StopsAreRunningMax n (emitReport n (emitLoop pid id pr b a w tt n)) := by
  have hg := emit_gantt pid id pr b a w tt n
  have hs := (emit_fold pid id pr b a w tt n).1
  have hstop : ∀ i g, (emitLoop pid id pr b a w tt n).gantt[i]? = some g →
      i < n ∧ g.Stop = (emitLoop pid id pr b a w tt (i + 1)).finalCompletion := by
    intro i g hi
    rw [hg, List.getElem?_map] at hi
    by_cases hin : i < n
    · rw [List.getElem?_range hin] at hi
      simp only [Option.map_some'] at hi
      rw [← Option.some.inj hi]
      exact ⟨hin, rfl⟩
    · rw [List.getElem?_eq_none (by simpa using Nat.le_of_not_lt hin)] at hi
      simp at hi
  refine ⟨?_, ?_, ?_, ?_⟩
  · show (emitLoop pid id pr b a w tt n).gantt.length
      = (emitLoop pid id pr b a w tt n).schedule.length
    rw [hg, hs]; simp
  · intro i g hi
    obtain ⟨hin, e⟩ := hstop i g hi
    show g.Stop = completionMax (emitLoop pid id pr b a w tt n).schedule (i + 1)
    rw [emit_completionMax pid id pr b a w tt n (i + 1) hin, e]
  · intro i j gi gj hij hi hj
    obtain ⟨_, ei⟩ := hstop i gi hi
    obtain ⟨_, ej⟩ := hstop j gj hj
    rw [ei, ej]
    exact emit_finalCompletion_mono pid id pr b a w tt _ _ (Nat.succ_le_succ hij)
  · intro g hlast
    have hlast' : (emitLoop pid id pr b a w tt n).gantt.getLast? = some g := hlast
    rw [List.getLast?_eq_getElem?] at hlast'
    obtain ⟨hin, e⟩ := hstop _ g hlast'
    have hlen : (emitLoop pid id pr b a w tt n).gantt.length = n := by rw [hg]; simp
    rw [hlen] at e
    have hn : n - 1 + 1 = n := by
      rw [hlen] at hin; omega
    rw [hn] at e
    show fdiv (float64 (n : Int))
      (float64 (emitLoop pid id pr b a w tt n).finalCompletion) = _
    rw [e]

theorem emit_at (pid id pr b a w tt : Nat → Int) (n : Nat) :
    (emitLoop pid id pr b a w tt n).gantt.length = n ∧
    (emitLoop pid id pr b a w tt n).schedule.length = n ∧
    ∀ i, i < n →
      (emitLoop pid id pr b a w tt n).schedule[i]? =
        some { id := id i, priority := pr i, burst := b i, arrival := a i, wait := w i,
               turnaround := tt i, completion := b i + a i + w i } ∧
      (emitLoop pid id pr b a w tt n).gantt[i]? =
        some { PID := pid i, Start := w i + a i,
               Stop := (emitLoop pid id pr b a w tt (i + 1)).finalCompletion } := by
  rw [emit_gantt pid id pr b a w tt n, (emit_fold pid id pr b a w tt n).1]
  refine ⟨by simp, by simp, fun i hi => ⟨?_, ?_⟩⟩
  · simp [List.getElem?_map, List.getElem?_range hi]
  · simp [List.getElem?_map, List.getElem?_range hi]

theorem emit64_finalCompletion_succ (pid id pr b a w tt : Nat → Int) (n : Nat) :
    (emitLoop64 pid id pr b a w tt (n + 1)).finalCompletion =
      max (emitLoop64 pid id pr b a w tt n).finalCompletion (add64 (add64 (b n) (a n)) (w n)) := by
  rw [emitLoop64_succ]
  simp only [emitBody64]
  rw [max_def]
  split_ifs <;> omega

theorem emit64_gantt (pid id pr b a w tt : Nat → Int) : ∀ n,
    (emitLoop64 pid id pr b a w tt n).gantt =
      (List.range n).map (fun i =>
        ({ PID := pid i, Start := add64 (w i) (a i),
           Stop := (emitLoop64 pid id pr b a w tt (i + 1)).finalCompletion } : TimeSlice)) := by
  intro n
  induction n with
  | zero => simp [emitLoop64, emitInit]
  | succ n ih =>
    rw [List.range_succ, List.map_append, ← ih]
    simp only [List.map_cons, List.map_nil]
    rw [emitLoop64_succ]
    simp only [emitBody64]

theorem emit64_finalCompletion_mono (pid id pr b a w tt : Nat → Int) (i j : Nat)
    (h : i ≤ j) :
    (emitLoop64 pid id pr b a w tt i).finalCompletion
      ≤ (emitLoop64 pid id pr b a w tt j).finalCompletion := by
  induction j with
  | zero =>
    have : i = 0 := by omega
    rw [this]
  | succ j ih =>
    rcases Nat.lt_succ_iff_lt_or_eq.mp (Nat.lt_succ_of_le h) with h1 | h1
    · have := ih (Nat.le_of_lt_succ h1)
      rw [emit64_finalCompletion_succ]
      exact le_trans this (le_max_left _ _)
    · rw [h1]

theorem emit64_completionMax (pid id pr b a w tt : Nat → Int) (n : Nat) : ∀ k, k ≤ n →
    completionMax (emitLoop64 pid id pr b a w tt n).schedule k =
      (emitLoop64 pid id pr b a w tt k).finalCompletion := by
  intro k
  induction k with
  | zero => intro _; simp [completionMax, emitLoop64, emitInit]
  | succ k ih =>
    intro hk
    have hprev := ih (Nat.le_of_succ_le hk)
    rw [emit64_finalCompletion_succ, ← hprev]
    unfold completionMax
    rw [(emit64_fold pid id pr b a w tt n).1, ← List.map_take, List.take_range,
      ← List.map_take, List.take_range, Nat.min_eq_left hk,
      Nat.min_eq_left (Nat.le_of_succ_le hk), List.range_succ]
    simp only [List.map_append, List.map_cons, List.map_nil, List.foldl_append,
      List.foldl_cons, List.foldl_nil]

/-- The report built from the closing loop has the running-maximum stops. -/
theorem emit64_stops (pid id pr b a w tt : Nat → Int) (n : Nat) :
    StopsAreRunningMax n (emitReport n (emitLoop64 pid id pr b a w tt n)) := by
  have hg := emit64_gantt pid id pr b a w tt n
  have hs := (emit64_fold pid id pr b a w tt n).1
  have hstop : ∀ i g, (emitLoop64 pid id pr b a w tt n).gantt[i]? = some g →
      i < n ∧ g.Stop = (emitLoop64 pid id pr b a w tt (i + 1)).finalCompletion := by
    intro i g hi
    rw [hg, List.getElem?_map] at hi
    by_cases hin : i < n
    · rw [List.getElem?_range hin] at hi
      simp only [Option.map_some'] at hi
      rw [← Option.some.inj hi]
      exact ⟨hin, rfl⟩
    · rw [List.getElem?_eq_none (by simpa using Nat.le_of_not_lt hin)] at hi
      simp at hi
  refine ⟨?_, ?_, ?_, ?_⟩
  · show (emitLoop64 pid id pr b a w tt n).gantt.length
      = (emitLoop64 pid id pr b a w tt n).schedule.length
    rw [hg, hs]; simp
  · intro i g hi
    obtain ⟨hin, e⟩ := hstop i g hi
    show g.Stop = completionMax (emitLoop64 pid id pr b a w tt n).schedule (i + 1)
    rw [emit64_completionMax pid id pr b a w tt n (i + 1) hin, e]
  · intro i j gi gj hij hi hj
    obtain ⟨_, ei⟩ := hstop i gi hi
    obtain ⟨_, ej⟩ := hstop j gj hj
    rw [ei, ej]
    exact emit64_finalCompletion_mono pid id pr b a w tt _ _ (Nat.succ_le_succ hij)
  · intro g hlast
    have hlast' : (emitLoop64 pid id pr b a w tt n).gantt.getLast? = some g := hlast
    rw [List.getLast?_eq_getElem?] at hlast'
    obtain ⟨hin, e⟩ := hstop _ g hlast'
    have hlen : (emitLoop64 pid id pr b a w tt n).gantt.length = n := by rw [hg]; simp
    rw [hlen] at e
    have hn : n - 1 + 1 = n := by
      rw [hlen] at hin; omega
    rw [hn] at e
    show fdiv (float64 (n : Int))
      (float64 (emitLoop64 pid id pr b a w tt n).finalCompletion) = _
    rw [e]

theorem emit64_at (pid id pr b a w tt : Nat → Int) (n : Nat) :
    (emitLoop64 pid id pr b a w tt n).gantt.length = n ∧
    (emitLoop64 pid id pr b a w tt n).schedule.length = n ∧
    ∀ i, i < n →
      (emitLoop64 pid id pr b a w tt n).schedule[i]? =
        some { id := id i, priority := pr i, burst := b i, arrival := a i, wait := w i,
               turnaround := tt i, completion := add64 (add64 (b i) (a i)) (w i) } ∧
      (emitLoop64 pid id pr b a w tt n).gantt[i]? =
        some { PID := pid i, Start := add64 (w i) (a i),
               Stop := (emitLoop64 pid id pr b a w tt (i + 1)).finalCompletion } := by
  rw [emit64_gantt pid id pr b a w tt n, (emit64_fold pid id pr b a w tt n).1]
  refine ⟨by simp, by simp, fun i hi => ⟨?_, ?_⟩⟩
  · simp [List.getElem?_map, List.getElem?_range hi]
  · simp [List.getElem?_map, List.getElem?_range hi]

theorem SJFPrioritySchedule_some (ps : List Process) (out : Report)
    (h : SJFPrioritySchedule ps = some out) :
    ps ≠ [] ∧ out = emitReport ps.length
      (prioEmit ps (prioSort ps.length (prioCopy ps))
        (prioWait ps.length (prioSort ps.length (prioCopy ps)))
        (prioTat ps.length (prioSort ps.length (prioCopy ps))
          (prioWait ps.length (prioSort ps.length (prioCopy ps))))) := by
  unfold SJFPrioritySchedule at h
  simp only at h
  split_ifs at h with hn
  refine ⟨fun he => hn (by rw [he]; rfl), (Option.some.inj h).symm⟩

theorem SJFPrioritySchedule_of_ne (ps : List Process) (hne : ps ≠ []) :
    SJFPrioritySchedule ps = some (emitReport ps.length
      (prioEmit ps (prioSort ps.length (prioCopy ps))
        (prioWait ps.length (prioSort ps.length (prioCopy ps)))
        (prioTat ps.length (prioSort ps.length (prioCopy ps))
          (prioWait ps.length (prioSort ps.length (prioCopy ps)))))) := by
  have hn : ps.length ≠ 0 := fun h => hne (List.length_eq_zero.mp h)
  unfold SJFPrioritySchedule
  simp only [hn, if_false]

/-! ## Intervals and rows: the claims -/

/-- C17. In `SJFSchedule`, `SJFPrioritySchedule` and `RRSchedule`, for every
batch on which the scheduler returns, the stop field of the `i`-th emitted
execution interval equals the running maximum, started at 0, of the completion
times reported in rows `0..i`; hence the stop values are non-decreasing in
emission order and the last stop is the throughput denominator. -/
theorem stops_are_running_max (ps : List Process) :
    (∀ fuel out, SJFSchedule fuel ps = some out → StopsAreRunningMax ps.length out) ∧
    (∀ out, SJFPrioritySchedule ps = some out → StopsAreRunningMax ps.length out) ∧
    (∀ fuel out, RRSchedule fuel ps = some out → StopsAreRunningMax ps.length out) := by
  refine ⟨?_, ?_, ?_⟩
  · intro fuel out ho
    obtain ⟨s, _, e⟩ := SJFSchedule_some ps fuel out ho
    rw [e, sjfEmit_eq]
    exact emit_stops _ _ _ _ _ _ _ _
  · intro out ho
    obtain ⟨_, e⟩ := SJFPrioritySchedule_some ps out ho
    rw [e, prioEmit_eq]
    exact emit64_stops _ _ _ _ _ _ _ _
  · intro fuel out ho
    obtain ⟨s, _, e⟩ := RRSchedule_some ps fuel out ho
    rw [e, rrEmit_eq]
    exact emit_stops _ _ _ _ _ _ _ _

/-- Witness of C17 on the scenario batch: the three schedulers return, with
stops `[8, 8, 16]`, `[5, 8, 15]` and `[12, 12, 16]`. -/
theorem stops_are_running_max_witness :
    (SJFSchedule 16 batch1).map (fun o => o.gantt.map (fun g => g.Stop)) = some [8, 8, 16] ∧
    (SJFPrioritySchedule batch1).map (fun o => o.gantt.map (fun g => g.Stop))
      = some [5, 8, 15] ∧
    (RRSchedule 12 batch1).map (fun o => o.gantt.map (fun g => g.Stop)) = some [12, 12, 16] ∧
    ((∀ fuel out, SJFSchedule fuel batch1 = some out →
        StopsAreRunningMax batch1.length out) ∧
      (∀ out, SJFPrioritySchedule batch1 = some out →
        StopsAreRunningMax batch1.length out) ∧
      (∀ fuel out, RRSchedule fuel batch1 = some out →
        StopsAreRunningMax batch1.length out)) :=
  ⟨by decide, by decide, by decide, stops_are_running_max batch1⟩

theorem emit_rows_in_batch_order (ps : List Process) (w tt : Nat → Int) :
    RowsInBatchOrder Int.add ps (emitReport ps.length
      (emitLoop (fun i => (procAt ps i).ProcessID) (fun i => (procAt ps i).ProcessID)
        (fun i => (procAt ps i).Priority) (fun i => (procAt ps i).BurstDuration)
        (fun i => (procAt ps i).ArrivalTime) w tt ps.length)) := by
  obtain ⟨h1, h2, h3⟩ := emit_at (fun i => (procAt ps i).ProcessID)
    (fun i => (procAt ps i).ProcessID) (fun i => (procAt ps i).Priority)
    (fun i => (procAt ps i).BurstDuration) (fun i => (procAt ps i).ArrivalTime) w tt
    ps.length
  refine ⟨h1, h2, fun i hi => ?_⟩
  obtain ⟨e1, e2⟩ := h3 i hi
  exact ⟨_, _, e1, e2, rfl, rfl, rfl, rfl, rfl⟩

/-- C16, as stated, fails for `SJFPrioritySchedule`: on the batch with
priorities 3, 1 (bursts 5, 3, arrivals 0, 1) row 0 shows priority 1, burst 3,
arrival 1, which are those of input process 1, not of input process 0. -/
theorem priority_rows_not_in_batch_order_counterexample :
    (SJFPrioritySchedule [⟨7, 0, 5, 3⟩, ⟨8, 1, 3, 1⟩]).map
      (fun o => o.schedule.map (fun r => (r.priority, r.burst, r.arrival)))
      = some [(1, 3, 1), (3, 5, 0)] ∧
    ((procAt [⟨7, 0, 5, 3⟩, ⟨8, 1, 3, 1⟩] 0).Priority,
      (procAt [⟨7, 0, 5, 3⟩, ⟨8, 1, 3, 1⟩] 0).BurstDuration,
      (procAt [⟨7, 0, 5, 3⟩, ⟨8, 1, 3, 1⟩] 0).ArrivalTime) = (3, 5, 0) := by
  decide

/-- C16, amended. `FCFSSchedule` on every batch, and `SJFSchedule` and
`RRSchedule` on every batch with non-negative arrival times on which they
return, emit exactly one execution interval and one metrics row per process
in batch order: row `i` shows priority, burst and arrival of input process
`i`, and interval `i` carries its `ProcessID` and starts at that row's waiting
+ arrival, which `FCFSSchedule` adds as `int64`s, with wrap-around (`add64`),
and which in `SJFSchedule` and `RRSchedule` is bounded by the clock of the loop
(`Int.add`).  `SJFPrioritySchedule` also emits one interval and one row per
process, but in the order of its priority-sorted working copy: row `i` shows
`tempPriority[i]`, `tempB[i]`, `tempArr[i]`, and interval `i` starts at that
row's waiting + arrival, added as `int64`s.  In all four an interval start is
the row's waiting + arrival itself whenever that sum lies in the range of
`int64`. -/
theorem rows_and_intervals_order (ps : List Process) :
    RowsInBatchOrder add64 ps (FCFSSchedule ps) ∧
    ((∀ p ∈ ps, 0 ≤ p.ArrivalTime) →
      ∀ fuel out, SJFSchedule fuel ps = some out → RowsInBatchOrder Int.add ps out) ∧
    ((∀ p ∈ ps, 0 ≤ p.ArrivalTime) →
      ∀ fuel out, RRSchedule fuel ps = some out → RowsInBatchOrder Int.add ps out) ∧
    (∀ out, SJFPrioritySchedule ps = some out →
      RowsInWorkingOrder ps (prioSort ps.length (prioCopy ps)) out) ∧
    (∀ x y : Int, Int64 (x + y) → add64 x y = x + y ∧ Int.add x y = x + y) := by
  refine ⟨?_, ?_, ?_, ?_, ?_⟩
  · refine ⟨by rw [fcfs_gantt]; simp, by rw [fcfs_schedule]; simp, fun i hi => ?_⟩
    refine ⟨_, _, fcfs_schedule_at ps i hi, fcfs_gantt_at ps i hi, rfl, rfl, rfl, rfl, rfl⟩
  · intro _ fuel out ho
    obtain ⟨s, _, e⟩ := SJFSchedule_some ps fuel out ho
    rw [e, sjfEmit_eq]
    exact emit_rows_in_batch_order ps _ _
  · intro _ fuel out ho
    obtain ⟨s, _, e⟩ := RRSchedule_some ps fuel out ho
    rw [e, rrEmit_eq]
    exact emit_rows_in_batch_order ps _ _
  · intro out ho
    obtain ⟨_, e⟩ := SJFPrioritySchedule_some ps out ho
    rw [e, prioEmit_eq]
    obtain ⟨h1, h2, h3⟩ := emit64_at (fun i => (procAt ps i).ProcessID)
      (fun i => at64 (prioSort ps.length (prioCopy ps)).tempPID i)
      (fun i => at64 (prioSort ps.length (prioCopy ps)).tempPriority i)
      (fun i => at64 (prioSort ps.length (prioCopy ps)).tempB i)
      (fun i => at64 (prioSort ps.length (prioCopy ps)).tempArr i)
      (fun i => at64 (prioWait ps.length (prioSort ps.length (prioCopy ps))) i)
      (fun i => at64 (prioTat ps.length (prioSort ps.length (prioCopy ps))
        (prioWait ps.length (prioSort ps.length (prioCopy ps)))) i) ps.length
    refine ⟨h1, h2, fun i hi => ?_⟩
    obtain ⟨e1, e2⟩ := h3 i hi
    exact ⟨_, _, e1, e2, rfl, rfl, rfl, rfl⟩
  · intro x y h
    exact ⟨wrap64_of_int64 _ h, rfl⟩

/-- Witness of the amended C16 on the scenario batch. -/
theorem rows_and_intervals_order_witness :
    (SJFSchedule 16 batch1).isSome = true ∧ (RRSchedule 12 batch1).isSome = true ∧
    (SJFPrioritySchedule batch1).isSome = true ∧
    (∀ p ∈ batch1, 0 ≤ p.ArrivalTime) ∧
    RowsInBatchOrder add64 batch1 (FCFSSchedule batch1) ∧
    (∀ fuel out, SJFSchedule fuel batch1 = some out →
      RowsInBatchOrder Int.add batch1 out) ∧
    (∀ fuel out, RRSchedule fuel batch1 = some out →
      RowsInBatchOrder Int.add batch1 out) :=
  ⟨by decide, by decide, by decide, by decide, (rows_and_intervals_order batch1).1,
    (rows_and_intervals_order batch1).2.1 (by decide),
    (rows_and_intervals_order batch1).2.2.1 (by decide)⟩

/-! ## FCFSSchedule: throughput -/

theorem fcfs_lastCompletion (ps : List Process) : ∀ k, k < ps.length →
    (fcfsLoop (ps.take (k + 1))).lastCompletion = float64 (fcfsRowAt ps k).completion := by
  intro k hk
  obtain ⟨h1, h2, _, _⟩ := fcfs_take ps k (Nat.le_of_lt hk)
  have hs : fcfsLoop (ps.take (k + 1)) =
      fcfsBody (fcfsLoop (ps.take k)) (procAt ps k) := by
    unfold fcfsLoop
    rw [take_succ_procAt ps k hk, List.foldl_append]
    rfl
  rw [hs]
  simp only [fcfsBody, h1, h2, fcfsRowAt, fcfsWaitAfter, sub64, wrap64_sub_left]

theorem fcfs_throughput (ps : List Process) (hne : ps ≠ []) :
    (FCFSSchedule ps).aveThroughput =
      fdiv (float64 (ps.length : Int)) (float64 (fcfsRowAt ps (ps.length - 1)).completion) := by
  have hpos : 0 < ps.length := List.length_pos.mpr hne
  have h := fcfs_lastCompletion ps (ps.length - 1) (by omega)
  have hn : ps.length - 1 + 1 = ps.length := by omega
  rw [hn, List.take_length] at h
  show fdiv (float64 (ps.length : Int)) (fcfsLoop ps).lastCompletion = _
  rw [h]

theorem fcfs_lastRow (ps : List Process) (hne : ps ≠ []) :
    lastRowCompletion (FCFSSchedule ps).schedule
      = (fcfsRowAt ps (ps.length - 1)).completion := by
  have hpos : 0 < ps.length := List.length_pos.mpr hne
  unfold lastRowCompletion
  rw [fcfs_schedule, List.getLast?_map, List.getLast?_range]
  have hn : ps.length ≠ 0 := by omega
  simp only [hn, if_false, Option.map_some']

/-- When every process after the first has a positive arrival time, the
completion of row `i` is the wrapped sum of the bursts up to `i`. -/
theorem fcfs_completion_cumulative (ps : List Process)
    (ha0 : 0 ≤ (procAt ps 0).ArrivalTime)
    (ha : ∀ i, 1 ≤ i → i < ps.length → 0 < (procAt ps i).ArrivalTime)
    (i : Nat) (hi : i < ps.length) :
    (fcfsRowAt ps i).completion = wrap64 (burstsBefore ps (i + 1)) := by
  rw [burstsBefore_succ ps i hi, fcfsRowAt_completion]
  cases i with
  | zero =>
    have h0 : burstsBefore ps 0 = 0 := by simp [burstsBefore]
    simp only [fcfsWaitAfter]
    split_ifs with h
    · rw [wrap64_add_right, h0]
      congr 1; ring
    · have : (procAt ps 0).ArrivalTime = 0 := by omega
      rw [this, h0]
      congr 1; ring
  | succ i =>
    have := ha (i + 1) (by omega) hi
    simp only [fcfsWaitAfter]
    rw [if_pos this, wrap64_add_right]
    congr 1; ring

/-- C14, as stated, fails: on the batch with bursts 5, 3 and arrivals 0, 0 the
rows report completions 5 and 3; the throughput is 2/3 (count over the
completion of the last row), not 2/5 (count over the maximum completion). -/
theorem FCFS_throughput_max_counterexample :
    (∀ p ∈ [(⟨1, 0, 5, 0⟩ : Process), ⟨2, 0, 3, 0⟩],
      1 ≤ p.BurstDuration ∧ 0 ≤ p.ArrivalTime) ∧
    (FCFSSchedule [⟨1, 0, 5, 0⟩, ⟨2, 0, 3, 0⟩]).schedule.map (fun r => r.completion)
      = [5, 3] ∧
    completionMax (FCFSSchedule [⟨1, 0, 5, 0⟩, ⟨2, 0, 3, 0⟩]).schedule 2 = 5 ∧
    (FCFSSchedule [⟨1, 0, 5, 0⟩, ⟨2, 0, 3, 0⟩]).aveThroughput = F64.finite (2 / 3) ∧
    (FCFSSchedule [⟨1, 0, 5, 0⟩, ⟨2, 0, 3, 0⟩]).aveThroughput ≠ F64.finite (2 / 5) := by
  have h : (FCFSSchedule [⟨1, 0, 5, 0⟩, ⟨2, 0, 3, 0⟩]).aveThroughput = fdiv 2 3 := by
    have h1 : (fcfsLoop [⟨1, 0, 5, 0⟩, ⟨2, 0, 3, 0⟩]).lastCompletion = 3 := by decide
    show fdiv (float64 2) (fcfsLoop [⟨1, 0, 5, 0⟩, ⟨2, 0, 3, 0⟩]).lastCompletion = _
    rw [h1]; rfl
  refine ⟨by decide, by decide, by decide, ?_, ?_⟩
  · rw [h]; norm_num [fdiv]
  · rw [h]; norm_num [fdiv]

/-- C14, amended. For `FCFSSchedule` and every non-empty batch, the throughput
passed to the report is the `float64` quotient of (number of processes) by
(completion time of the last metrics row): for a batch of at most `2^53`
processes it is `+Inf` when that completion time is 0 and the exact ratio
count / completion when that completion time is non-zero and at most `2^53` in
absolute value. When moreover every burst is at least 1, arrivals are
non-negative, every process after the first has a positive arrival time and
the bursts sum to at most 9223372036854775807, the completion of the last row
is the sum of all bursts and is the maximum completion time over all rows. -/
theorem FCFS_throughput_last_row (ps : List Process) (hne : ps ≠ []) :
    (FCFSSchedule ps).aveThroughput =
      fdiv (float64 (ps.length : Int))
        (float64 (lastRowCompletion (FCFSSchedule ps).schedule)) ∧
    ((ps.length : Int) ≤ 9007199254740992 →
      (lastRowCompletion (FCFSSchedule ps).schedule = 0 →
        (FCFSSchedule ps).aveThroughput = F64.posInf) ∧
      (lastRowCompletion (FCFSSchedule ps).schedule ≠ 0 →
        -9007199254740992 ≤ lastRowCompletion (FCFSSchedule ps).schedule →
        lastRowCompletion (FCFSSchedule ps).schedule ≤ 9007199254740992 →
        (FCFSSchedule ps).aveThroughput = F64.finite ((ps.length : ℚ) /
          ((lastRowCompletion (FCFSSchedule ps).schedule : Int) : ℚ)))) ∧
    ((∀ p ∈ ps, 1 ≤ p.BurstDuration ∧ 0 ≤ p.ArrivalTime) →
      (∀ i, 1 ≤ i → i < ps.length → 0 < (procAt ps i).ArrivalTime) →
      totalBurst ps ≤ 9223372036854775807 →
      lastRowCompletion (FCFSSchedule ps).schedule = totalBurst ps ∧
      ∀ r ∈ (FCFSSchedule ps).schedule,
        r.completion ≤ lastRowCompletion (FCFSSchedule ps).schedule) := by
  have hpos : 0 < ps.length := List.length_pos.mpr hne
  have hthr : (FCFSSchedule ps).aveThroughput =
      fdiv (float64 (ps.length : Int))
        (float64 (lastRowCompletion (FCFSSchedule ps).schedule)) := by
    rw [fcfs_lastRow ps hne]; exact fcfs_throughput ps hne
  refine ⟨hthr, ?_, ?_⟩
  · intro hlen
    have hn : float64 (ps.length : Int) = (ps.length : Int) :=
      float64_of_le _ (by omega) hlen
    constructor
    · intro h0
      rw [hthr, h0, hn]
      have hz : float64 0 = 0 := by decide
      have hp : (0 : Int) < (ps.length : Int) := by omega
      rw [hz]
      unfold fdiv
      rw [if_pos rfl, if_pos hp]
    · intro hne0 hlo hhi
      rw [hthr, hn, float64_of_le _ hlo hhi, fdiv_of_ne _ _ hne0]
      simp
  · intro hb ha hs
    have hb1 : ∀ p ∈ ps, 1 ≤ p.BurstDuration := fun p hp => (hb p hp).1
    have ha0 : 0 ≤ (procAt ps 0).ArrivalTime := (hb _ (procAt_mem ps 0 hpos)).2
    have hcum : ∀ i, i < ps.length →
        (fcfsRowAt ps i).completion = burstsBefore ps (i + 1) := by
      intro i hi
      rw [fcfs_completion_cumulative ps ha0 ha i hi]
      have := burstsBefore_bounds ps hb1 (i + 1) hi
      exact wrap64_of_int64 _ ⟨by omega, by omega⟩
    have hn : ps.length - 1 + 1 = ps.length := by omega
    have hlast : lastRowCompletion (FCFSSchedule ps).schedule = totalBurst ps := by
      rw [fcfs_lastRow ps hne, hcum _ (by omega), hn, burstsBefore_length]
    refine ⟨hlast, ?_⟩
    intro r hr
    rw [hlast]
    rw [fcfs_schedule, List.mem_map] at hr
    obtain ⟨i, hi, e⟩ := hr
    have hi' : i < ps.length := List.mem_range.mp hi
    rw [← e, hcum i hi']
    exact (burstsBefore_bounds ps hb1 (i + 1) hi').2

/-- Witness of the amended C14 on the scenario batch: throughput 3/16, last
completion 16, which is the sum of the bursts and the maximum completion. -/
theorem FCFS_throughput_last_row_witness :
    batch1 ≠ [] ∧ lastRowCompletion (FCFSSchedule batch1).schedule = 16 ∧
    (FCFSSchedule batch1).aveThroughput =
      fdiv (float64 (batch1.length : Int))
        (float64 (lastRowCompletion (FCFSSchedule batch1).schedule)) ∧
    (FCFSSchedule batch1).aveThroughput = F64.finite ((batch1.length : ℚ) /
      ((lastRowCompletion (FCFSSchedule batch1).schedule : Int) : ℚ)) ∧
    (lastRowCompletion (FCFSSchedule batch1).schedule = totalBurst batch1 ∧
      ∀ r ∈ (FCFSSchedule batch1).schedule,
        r.completion ≤ lastRowCompletion (FCFSSchedule batch1).schedule) :=
  ⟨by decide, by decide, (FCFS_throughput_last_row batch1 (by decide)).1,
    ((FCFS_throughput_last_row batch1 (by decide)).2.1 (by decide)).2
      (by decide) (by decide) (by decide),
    (FCFS_throughput_last_row batch1 (by decide)).2.2 (by decide)
      (fun i h1 h2 => by
        have h3 : i < 3 := h2
        have h4 : i = 1 ∨ i = 2 := by omega
        rcases h4 with h | h <;> subst h <;> decide)
      (by decide)⟩

/-! ## SJFPrioritySchedule: the selection sort -/

theorem length_swap64 (a : List Int) (i pos : Nat) : (swap64 a i pos).length = a.length := by
  simp [swap64]

theorem at64_swap64 (a : List Int) (i pos k : Nat) (hi : i < a.length)
    (hp : pos < a.length) : at64 (swap64 a i pos) k = at64 a (Equiv.swap i pos k) := by
  unfold swap64
  simp only
  rw [at64_set, at64_set, List.length_set]
  by_cases h1 : pos = k
  · subst h1
    simp [hp, Equiv.swap_apply_right]
  · by_cases h2 : i = k
    · subst h2
      simp [h1, hi, Equiv.swap_apply_left]
    · have : Equiv.swap i pos k = k :=
        Equiv.swap_apply_of_ne_of_ne (Ne.symm h2) (Ne.symm h1)
      simp [h1, h2, this]

theorem range_map_swap_perm (n i j : Nat) (hi : i < n) (hj : j < n) :
    List.Perm ((List.range n).map (Equiv.swap i j)) (List.range n) := by
  apply (List.perm_ext_iff_of_nodup
    ((List.nodup_range n).map (Equiv.swap i j).injective) (List.nodup_range n)).mpr
  intro x
  simp only [List.mem_map, List.mem_range]
  constructor
  · rintro ⟨k, hk, rfl⟩
    rw [Equiv.swap_apply_def]
    split_ifs <;> omega
  · intro hx
    refine ⟨Equiv.swap i j x, ?_, Equiv.swap_apply_self i j x⟩
    rw [Equiv.swap_apply_def]
    split_ifs <;> omega

/-- What the scan `for j = i+1; j < i+1+m; j++` of the selection sort has found:
the first position of a least priority among positions `i .. i+m`. -/
theorem prioFindPos_scan (prio : List Int) (i : Nat) : ∀ m,
    i ≤ (List.range' (i + 1) m).foldl
        (fun pos j => if at64 prio j < at64 prio pos then j else pos) i ∧
    (List.range' (i + 1) m).foldl
        (fun pos j => if at64 prio j < at64 prio pos then j else pos) i ≤ i + m ∧
    (∀ j, i ≤ j → j ≤ i + m →
      at64 prio ((List.range' (i + 1) m).foldl
        (fun pos j => if at64 prio j < at64 prio pos then j else pos) i) ≤ at64 prio j) ∧
    (∀ j, i ≤ j → j < (List.range' (i + 1) m).foldl
        (fun pos j => if at64 prio j < at64 prio pos then j else pos) i →
      at64 prio ((List.range' (i + 1) m).foldl
        (fun pos j => if at64 prio j < at64 prio pos then j else pos) i) < at64 prio j) := by
  intro m
  induction m with
  | zero =>
    simp only [List.range'_zero, List.foldl_nil, Nat.add_zero, le_refl, true_and]
    refine ⟨?_, ?_⟩
    · intro j h1 h2
      have : j = i := by omega
      rw [this]
    · intro j h1 h2; omega
  | succ m ih =>
    rw [List.range'_concat, List.foldl_append]
    simp only [List.foldl_cons, List.foldl_nil, Nat.one_mul]
    generalize (List.range' (i + 1) m).foldl
      (fun pos j => if at64 prio j < at64 prio pos then j else pos) i = pos at ih ⊢
    obtain ⟨h1, h2, h3, h4⟩ := ih
    by_cases hc : at64 prio (i + 1 + m) < at64 prio pos
    · rw [if_pos hc]
      refine ⟨by omega, by omega, ?_, ?_⟩
      · intro j hj1 hj2
        rcases Nat.lt_or_ge j (i + 1 + m) with h | h
        · have := h3 j hj1 (by omega); omega
        · have : j = i + 1 + m := by omega
          rw [this]
      · intro j hj1 hj2
        have := h3 j hj1 (by omega); omega
    · rw [if_neg hc]
      refine ⟨h1, by omega, ?_, h4⟩
      intro j hj1 hj2
      rcases Nat.lt_or_ge j (i + 1 + m) with h | h
      · exact h3 j hj1 (by omega)
      · have : j = i + 1 + m := by omega
        rw [this]; omega

/-- The position chosen by pass `i` of the selection sort: it lies in
`i .. n-1`, holds a least priority of that range, and is the first such
position. -/
theorem prioFindPos_spec (prio : List Int) (n i : Nat) (hi : i < n) :
    i ≤ prioFindPos prio n i ∧ prioFindPos prio n i < n ∧
    (∀ j, i ≤ j → j < n → at64 prio (prioFindPos prio n i) ≤ at64 prio j) ∧
    (∀ j, i ≤ j → j < prioFindPos prio n i →
      at64 prio (prioFindPos prio n i) < at64 prio j) := by
  obtain ⟨h1, h2, h3, h4⟩ := prioFindPos_scan prio i (n - (i + 1))
  unfold prioFindPos
  exact ⟨h1, by omega, fun j hj1 hj2 => h3 j hj1 (by omega), h4⟩

theorem prioSortBody_lens (n : Nat) (a : PrioArrays) (i : Nat) (h : PrioLens n a) :
    PrioLens n (prioSortBody n a i) := by
  obtain ⟨h1, h2, h3, h4⟩ := h
  exact ⟨by simp [prioSortBody, length_swap64, h1], by simp [prioSortBody, length_swap64, h2],
    by simp [prioSortBody, length_swap64, h3], by simp [prioSortBody, length_swap64, h4]⟩

theorem prioSortBody_quadAt (n : Nat) (a : PrioArrays) (i : Nat) (h : PrioLens n a)
    (hi : i < n) (k : Nat) :
    prioQuadAt (prioSortBody n a i) k =
      prioQuadAt a (Equiv.swap i (prioFindPos a.tempPriority n i) k) := by
  obtain ⟨h1, h2, h3, h4⟩ := h
  obtain ⟨_, hp, _, _⟩ := prioFindPos_spec a.tempPriority n i hi
  simp only [prioQuadAt, prioSortBody]
  rw [at64_swap64 _ _ _ _ (by omega) (by omega), at64_swap64 _ _ _ _ (by omega) (by omega),
    at64_swap64 _ _ _ _ (by omega) (by omega), at64_swap64 _ _ _ _ (by omega) (by omega)]

theorem prioSortBody_perm (n : Nat) (a : PrioArrays) (i : Nat) (h : PrioLens n a)
    (hi : i < n) : List.Perm (prioQuads (prioSortBody n a i) n) (prioQuads a n) := by
  obtain ⟨_, hp, _, _⟩ := prioFindPos_spec a.tempPriority n i hi
  have e : prioQuads (prioSortBody n a i) n =
      ((List.range n).map (Equiv.swap i (prioFindPos a.tempPriority n i))).map
        (prioQuadAt a) := by
    unfold prioQuads
    rw [List.map_map]
    apply List.map_congr_left
    intro k _
    exact prioSortBody_quadAt n a i h hi k
  rw [e]
  exact (range_map_swap_perm n i _ hi hp).map _

/-- After `m` passes of the selection sort the first `m` positions hold, in
ascending order, priorities that are no larger than any later one, and the
entries are a rearrangement of the original ones. -/
theorem prioSort_passes (n : Nat) (a : PrioArrays) (h : PrioLens n a) : ∀ m, m ≤ n →
    PrioLens n ((List.range m).foldl (prioSortBody n) a) ∧
    List.Perm (prioQuads ((List.range m).foldl (prioSortBody n) a) n) (prioQuads a n) ∧
    ∀ x y, x < y → x < m → y < n →
      at64 ((List.range m).foldl (prioSortBody n) a).tempPriority x
        ≤ at64 ((List.range m).foldl (prioSortBody n) a).tempPriority y := by
  intro m
  induction m with
  | zero =>
    intro _
    exact ⟨h, List.Perm.refl _, fun x y _ hx _ => absurd hx (Nat.not_lt_zero x)⟩
  | succ m ih =>
    intro hm
    have hm' : m < n := hm
    obtain ⟨hl, hperm, hsorted⟩ := ih (Nat.le_of_lt hm')
    rw [List.range_succ, List.foldl_append]
    simp only [List.foldl_cons, List.foldl_nil]
    generalize (List.range m).foldl (prioSortBody n) a = b at hl hperm hsorted ⊢
    refine ⟨prioSortBody_lens n b m hl, (prioSortBody_perm n b m hl hm').trans hperm, ?_⟩
    obtain ⟨p1, p2, p3, p4⟩ := prioFindPos_spec b.tempPriority n m hm'
    obtain ⟨_, _, l3, _⟩ := hl
    have hat : ∀ k, at64 (prioSortBody n b m).tempPriority k =
        at64 b.tempPriority (Equiv.swap m (prioFindPos b.tempPriority n m) k) := by
      intro k
      simp only [prioSortBody]
      exact at64_swap64 _ _ _ _ (by omega) (by omega)
    intro x y hxy hx hy
    rw [hat x, hat y]
    generalize prioFindPos b.tempPriority n m = pos at p1 p2 p3 p4
    have hy_lt : Equiv.swap m pos y < n := by
      rw [Equiv.swap_apply_def]
      split_ifs <;> omega
    rcases Nat.lt_or_ge x m with hxm | hxm
    · have ex : Equiv.swap m pos x = x :=
        Equiv.swap_apply_of_ne_of_ne (by omega) (by omega)
      rw [ex]
      have hgt : x < Equiv.swap m pos y := by
        rw [Equiv.swap_apply_def]
        split_ifs <;> omega
      exact hsorted x _ hgt hxm hy_lt
    · have exm : x = m := by omega
      subst exm
      rw [Equiv.swap_apply_left]
      have hge : x ≤ Equiv.swap x pos y := by
        rw [Equiv.swap_apply_def]
        split_ifs <;> omega
      exact p3 _ hge hy_lt

theorem prioCopy_steps (ps : List Process) : ∀ k, k ≤ ps.length →
    PrioLens ps.length ((List.range k).foldl
      (fun a i =>
        let tempPID := a.tempPID.set i (procAt ps i).ProcessID
        let tempPriority := a.tempPriority.set i (procAt ps i).Priority
        let tempB := a.tempB.set i (procAt ps i).BurstDuration
        let tempArr := a.tempArr.set i (procAt ps i).ArrivalTime
        let tempPID := tempPID.set i ((i : Int) + 1)
        ({ tempB := tempB, tempPID := tempPID, tempPriority := tempPriority,
           tempArr := tempArr } : PrioArrays))
      { tempB := List.replicate ps.length 0, tempPID := List.replicate ps.length 0,
        tempPriority := List.replicate ps.length 0,
        tempArr := List.replicate ps.length 0 }) ∧
    ∀ i, i < k → prioQuadAt ((List.range k).foldl
      (fun a i =>
        let tempPID := a.tempPID.set i (procAt ps i).ProcessID
        let tempPriority := a.tempPriority.set i (procAt ps i).Priority
        let tempB := a.tempB.set i (procAt ps i).BurstDuration
        let tempArr := a.tempArr.set i (procAt ps i).ArrivalTime
        let tempPID := tempPID.set i ((i : Int) + 1)
        ({ tempB := tempB, tempPID := tempPID, tempPriority := tempPriority,
           tempArr := tempArr } : PrioArrays))
      { tempB := List.replicate ps.length 0, tempPID := List.replicate ps.length 0,
        tempPriority := List.replicate ps.length 0,
        tempArr := List.replicate ps.length 0 }) i = batchQuadAt ps i := by
  intro k
  induction k with
  | zero =>
    intro _
    exact ⟨⟨by simp, by simp, by simp, by simp⟩, fun i hi => absurd hi (Nat.not_lt_zero i)⟩
  | succ k ih =>
    intro hk
    obtain ⟨⟨l1, l2, l3, l4⟩, hq⟩ := ih (Nat.le_of_succ_le hk)
    rw [List.range_succ, List.foldl_append]
    simp only [List.foldl_cons, List.foldl_nil]
    generalize (List.range k).foldl _ _ = b at l1 l2 l3 l4 hq ⊢
    refine ⟨⟨by simp [l1], by simp [l2], by simp [l3], by simp [l4]⟩, ?_⟩
    intro i hi
    rcases Nat.lt_succ_iff_lt_or_eq.mp hi with h | h
    · have hne : k ≠ i := by omega
      have := hq i h
      simp only [prioQuadAt] at this ⊢
      rw [at64_set_ne _ _ _ _ hne, at64_set_ne _ _ _ _ hne, at64_set_ne _ _ _ _ hne,
        at64_set_ne _ _ _ _ hne, at64_set_ne _ _ _ _ hne]
      exact this
    · subst h
      simp only [prioQuadAt, batchQuadAt]
      rw [at64_set_self _ _ _ (by simp [l2]; omega), at64_set_self _ _ _ (by omega),
        at64_set_self _ _ _ (by omega), at64_set_self _ _ _ (by omega)]

theorem prioCopy_spec (ps : List Process) :
    PrioLens ps.length (prioCopy ps) ∧
    prioQuads (prioCopy ps) ps.length = (List.range ps.length).map (batchQuadAt ps) := by
  obtain ⟨h1, h2⟩ := prioCopy_steps ps ps.length (le_refl _)
  refine ⟨h1, ?_⟩
  unfold prioQuads
  apply List.map_congr_left
  intro i hi
  exact h2 i (List.mem_range.mp hi)

theorem map_range_procAt {β : Type} (f : Process → β) (ps : List Process) :
    (List.range ps.length).map (fun k => f (procAt ps k)) = ps.map f := by
  apply List.ext_getElem (by simp)
  intro i h1 h2
  have hi : i < ps.length := by simpa using h2
  simp only [List.getElem_map, List.getElem_range]
  unfold procAt
  rw [List.getD_eq_getElem ps _ hi]

theorem prioSort_spec (ps : List Process) :
    PrioLens ps.length (prioSort ps.length (prioCopy ps)) ∧
    List.Perm (prioQuads (prioSort ps.length (prioCopy ps)) ps.length)
      ((List.range ps.length).map (batchQuadAt ps)) ∧
    ∀ x y, x < y → y < ps.length →
      at64 (prioSort ps.length (prioCopy ps)).tempPriority x
        ≤ at64 (prioSort ps.length (prioCopy ps)).tempPriority y := by
  obtain ⟨c1, c2⟩ := prioCopy_spec ps
  obtain ⟨h1, h2, h3⟩ := prioSort_passes ps.length (prioCopy ps) c1 ps.length (le_refl _)
  refine ⟨h1, ?_, fun x y hxy hy => h3 x y hxy (by omega) hy⟩
  rw [← c2]
  exact h2

theorem prioTriples_eq (a : PrioArrays) (n : Nat) :
    prioTriples a n = (prioQuads a n).map (fun q => q.2) := by
  unfold prioTriples prioQuads
  rw [List.map_map]
  rfl

theorem batchTriples_eq (ps : List Process) :
    batchTriples ps = ((List.range ps.length).map (batchQuadAt ps)).map (fun q => q.2) := by
  unfold batchTriples
  rw [List.map_map, ← map_range_procAt]
  rfl

theorem prio_rows_quads (ps : List Process) (a : PrioArrays) (w tat : List Int) :
    (prioEmit ps a w tat).schedule.map (fun r => (r.id, r.priority, r.burst, r.arrival))
      = prioQuads a ps.length := by
  rw [prioEmit_schedule, List.map_map]
  rfl

/-- C11. In `SJFPrioritySchedule`, for every non-empty batch, after the
selection-sort phase the working arrays are sorted ascending by priority, and
the sequence of (priority, burst, arrival) triples of the working copy is a
permutation of the triples of the input batch; the rows of the report show
these triples in that order. -/
theorem priority_sort_sorted_perm (ps : List Process) (hne : ps ≠ []) :
    (∀ x y, x < y → y < ps.length →
      at64 (prioSort ps.length (prioCopy ps)).tempPriority x
        ≤ at64 (prioSort ps.length (prioCopy ps)).tempPriority y) ∧
    List.Perm (prioTriples (prioSort ps.length (prioCopy ps)) ps.length) (batchTriples ps) ∧
    ∃ out, SJFPrioritySchedule ps = some out ∧
      out.schedule.map (fun r => (r.priority, r.burst, r.arrival))
        = prioTriples (prioSort ps.length (prioCopy ps)) ps.length ∧
      (out.schedule.map (fun r => r.priority)).Pairwise (fun p q => p ≤ q) := by
  obtain ⟨_, hperm, hsorted⟩ := prioSort_spec ps
  refine ⟨hsorted, ?_, _, SJFPrioritySchedule_of_ne ps hne, ?_, ?_⟩
  · rw [prioTriples_eq, batchTriples_eq]
    exact hperm.map _
  · show (prioEmit ps _ _ _).schedule.map _ = _
    rw [prioEmit_schedule, List.map_map]
    rfl
  · show ((prioEmit ps _ _ _).schedule.map _).Pairwise _
    rw [prioEmit_schedule, List.map_map, List.pairwise_map]
    refine List.Pairwise.imp_of_mem ?_ (List.pairwise_lt_range ps.length)
    intro x y _ hy hxy
    exact hsorted x y hxy (List.mem_range.mp hy)

/-- Witness of C11 on the batch with priorities 3, 1, 1: the rows show the
triples in the order `(1,3,1), (1,8,2), (3,5,0)`. -/
theorem priority_sort_sorted_perm_witness :
    (SJFPrioritySchedule [⟨7, 0, 5, 3⟩, ⟨8, 1, 3, 1⟩, ⟨9, 2, 8, 1⟩]).map
      (fun o => o.schedule.map (fun r => (r.priority, r.burst, r.arrival)))
      = some [(1, 3, 1), (1, 8, 2), (3, 5, 0)] ∧
    List.Perm
      (prioTriples (prioSort 3 (prioCopy [⟨7, 0, 5, 3⟩, ⟨8, 1, 3, 1⟩, ⟨9, 2, 8, 1⟩])) 3)
      (batchTriples [⟨7, 0, 5, 3⟩, ⟨8, 1, 3, 1⟩, ⟨9, 2, 8, 1⟩]) :=
  ⟨by decide,
    (priority_sort_sorted_perm [⟨7, 0, 5, 3⟩, ⟨8, 1, 3, 1⟩, ⟨9, 2, 8, 1⟩] (by decide)).2.1⟩

/-- C12, as stated, fails: on the batch with priorities 2, 2, 1 the first pass
exchanges positions 0 and 2, so the rows come out with ids 3, 2, 1: the
process of original index 1 precedes the process of original index 0, although
both have priority 2. -/
theorem priority_sort_stable_counterexample :
    (SJFPrioritySchedule [⟨1, 0, 1, 2⟩, ⟨2, 0, 1, 2⟩, ⟨3, 0, 1, 1⟩]).map
      (fun o => o.schedule.map (fun r => (r.id, r.priority)))
      = some [(3, 1), (2, 2), (1, 2)] := by
  decide

/-- C12, amended. In `SJFPrioritySchedule`, ties between equal priorities are
resolved by the lowest current position in the unsorted part of the working
arrays: pass `i` of the selection sort picks the first position among
`i .. n-1` that holds the least priority of that range (every earlier position
of the range holds a strictly larger priority) and exchanges it with position
`i`. -/
theorem priority_sort_first_least (ps : List Process) (i : Nat) (hi : i < ps.length) :
    i ≤ prioFindPos ((List.range i).foldl (prioSortBody ps.length)
        (prioCopy ps)).tempPriority ps.length i ∧
    prioFindPos ((List.range i).foldl (prioSortBody ps.length)
        (prioCopy ps)).tempPriority ps.length i < ps.length ∧
    (∀ j, i ≤ j → j < ps.length →
      at64 ((List.range i).foldl (prioSortBody ps.length) (prioCopy ps)).tempPriority
        (prioFindPos ((List.range i).foldl (prioSortBody ps.length)
          (prioCopy ps)).tempPriority ps.length i)
      ≤ at64 ((List.range i).foldl (prioSortBody ps.length) (prioCopy ps)).tempPriority j) ∧
    (∀ j, i ≤ j → j < prioFindPos ((List.range i).foldl (prioSortBody ps.length)
        (prioCopy ps)).tempPriority ps.length i →
      at64 ((List.range i).foldl (prioSortBody ps.length) (prioCopy ps)).tempPriority
        (prioFindPos ((List.range i).foldl (prioSortBody ps.length)
          (prioCopy ps)).tempPriority ps.length i)
      < at64 ((List.range i).foldl (prioSortBody ps.length) (prioCopy ps)).tempPriority j) ∧
    (List.range (i + 1)).foldl (prioSortBody ps.length) (prioCopy ps) =
      prioSortBody ps.length
        ((List.range i).foldl (prioSortBody ps.length) (prioCopy ps)) i := by
  obtain ⟨h1, h2, h3, h4⟩ := prioFindPos_spec
    ((List.range i).foldl (prioSortBody ps.length) (prioCopy ps)).tempPriority ps.length i hi
  refine ⟨h1, h2, h3, h4, ?_⟩
  rw [List.range_succ, List.foldl_append]
  rfl

/-- Witness of the amended C12 on the batch with priorities 2, 2, 1 at pass 1:
positions 1 and 2 both hold priority 2 and the first one is chosen. -/
theorem priority_sort_first_least_witness :
    ((List.range 1).foldl (prioSortBody 3)
      (prioCopy [⟨1, 0, 1, 2⟩, ⟨2, 0, 1, 2⟩, ⟨3, 0, 1, 1⟩])).tempPriority = [1, 2, 2] ∧
    prioFindPos ((List.range 1).foldl (prioSortBody 3)
      (prioCopy [⟨1, 0, 1, 2⟩, ⟨2, 0, 1, 2⟩, ⟨3, 0, 1, 1⟩])).tempPriority 3 1 = 1 ∧
    1 ≤ prioFindPos ((List.range 1).foldl
        (prioSortBody [(⟨1, 0, 1, 2⟩ : Process), ⟨2, 0, 1, 2⟩, ⟨3, 0, 1, 1⟩].length)
        (prioCopy [⟨1, 0, 1, 2⟩, ⟨2, 0, 1, 2⟩, ⟨3, 0, 1, 1⟩])).tempPriority
        [(⟨1, 0, 1, 2⟩ : Process), ⟨2, 0, 1, 2⟩, ⟨3, 0, 1, 1⟩].length 1 :=
  ⟨by decide, by decide,
    (priority_sort_first_least [⟨1, 0, 1, 2⟩, ⟨2, 0, 1, 2⟩, ⟨3, 0, 1, 1⟩] 1 (by decide)).1⟩

/-! ## SJFPrioritySchedule: waiting times -/

/-- The inner loop `for j < k` leaves in `waiting_time[i]` only the value
written by its last pass. -/
theorem prioWaitInner_steps (a : PrioArrays) (w : List Int) (i : Nat) : ∀ k, k ≤ i →
    (List.range k).foldl
      (fun w j => w.set i (sub64 (add64 (at64 w j) (at64 a.tempB j)) (at64 a.tempArr i)))
      (w.set i 0) =
    w.set i (match k with
      | 0 => 0
      | k + 1 => sub64 (add64 (at64 w k) (at64 a.tempB k)) (at64 a.tempArr i)) := by
  intro k
  induction k with
  | zero => intro _; rfl
  | succ k ih =>
    intro hk
    rw [List.range_succ, List.foldl_append, ih (Nat.le_of_succ_le hk)]
    simp only [List.foldl_cons, List.foldl_nil, List.set_set]
    have hne : i ≠ k := by omega
    rw [at64_set_ne _ _ _ _ hne]

theorem prioWaitInner_eq (a : PrioArrays) (w : List Int) (i : Nat) :
    prioWaitInner a w (i + 1) =
      w.set (i + 1)
        (sub64 (add64 (at64 w i) (at64 a.tempB i)) (at64 a.tempArr (i + 1))) := by
  unfold prioWaitInner
  exact prioWaitInner_steps a w (i + 1) (i + 1) (le_refl _)

theorem prioWait_steps (n : Nat) (a : PrioArrays) : ∀ m, m + 1 ≤ n →
    ((List.range' 1 m).foldl (prioWaitInner a) ((List.replicate n 0).set 0 0)).length = n ∧
    ∀ i, i ≤ m →
      at64 ((List.range' 1 m).foldl (prioWaitInner a) ((List.replicate n 0).set 0 0)) i
        = prioWaitAt a i := by
  intro m
  induction m with
  | zero =>
    intro h
    refine ⟨by simp, fun i hi => ?_⟩
    have : i = 0 := by omega
    subst this
    simp only [List.range'_zero, List.foldl_nil, prioWaitAt]
    rw [at64_set_self _ _ _ (by simp; omega)]
  | succ m ih =>
    intro h
    obtain ⟨hl, hv⟩ := ih (by omega)
    rw [List.range'_concat, List.foldl_append]
    simp only [List.foldl_cons, List.foldl_nil, Nat.one_mul]
    generalize (List.range' 1 m).foldl (prioWaitInner a) ((List.replicate n 0).set 0 0)
      = w at hl hv ⊢
    have e : 1 + m = m + 1 := by omega
    rw [e, prioWaitInner_eq]
    refine ⟨by simp [hl], fun i hi => ?_⟩
    rcases Nat.lt_succ_iff_lt_or_eq.mp (Nat.lt_succ_of_le hi) with h1 | h1
    · rw [at64_set_ne _ _ _ _ (by omega)]
      exact hv i (by omega)
    · subst h1
      rw [at64_set_self _ _ _ (by omega), hv m (le_refl _)]
      rfl

theorem prioWait_spec (n : Nat) (a : PrioArrays) (hn : 0 < n) (i : Nat) (hi : i < n) :
    at64 (prioWait n a) i = prioWaitAt a i := by
  unfold prioWait
  exact (prioWait_steps n a (n - 1) (by omega)).2 i (by omega)

/-- One step of the code's recurrence is the wrapped step of the stated one. -/
theorem prioWaitAt_succ (a : PrioArrays) (i : Nat) :
    prioWaitAt a (i + 1)
      = wrap64 (prioWaitAt a i + at64 a.tempB i - at64 a.tempArr (i + 1)) := by
  simp only [prioWaitAt, sub64, add64, wrap64_sub_left]

/-- As long as the stated waiting times stay in the range of `int64`, the
code computes exactly them. -/
theorem prioWaitAt_eq_spec (a : PrioArrays) : ∀ i,
    (∀ k, k ≤ i → Int64 (prioWaitSpec a k)) → prioWaitAt a i = prioWaitSpec a i := by
  intro i
  induction i with
  | zero => intro _; rfl
  | succ i ih =>
    intro h
    rw [prioWaitAt_succ, ih (fun k hk => h k (Nat.le_succ_of_le hk))]
    exact wrap64_of_int64 _ (h (i + 1) (le_refl _))

/-- C13, as stated, fails: on the one-process batch with burst
9223372036854775807 and arrival 1 the row shows waiting 0 and completion
-9223372036854775808, which is not burst + arrival + waiting: the `int64` sum
has wrapped. -/
theorem priority_completion_wrap_counterexample :
    (SJFPrioritySchedule [⟨1, 1, 9223372036854775807, 0⟩]).map
      (fun o => o.schedule.map (fun r => (r.burst, r.arrival, r.wait, r.completion)))
      = some [(9223372036854775807, 1, 0, -9223372036854775808)] ∧
    (SJFPrioritySchedule [⟨1, 1, 9223372036854775807, 0⟩]).map
      (fun o => o.schedule.map (fun r => decide (r.completion = r.burst + r.arrival + r.wait)))
      = some [false] := by
  decide

/-- C13, amended. In `SJFPrioritySchedule`, for every non-empty batch, the
nested waiting-time loop computes, over the priority-sorted working copy,
`waiting[0] = 0` and `waiting[i] = waiting[i-1] + burst[i-1] - arrival[i]` for
every `i >= 1` in `int64` arithmetic, that is with wrap-around and with no
clamping of negative values; these are the stated values (`prioWaitSpec`) as
long as the stated values lie in the range of `int64`; and each row reports
that waiting time and completion = burst + arrival + waiting as `int64`
addition computes it, which is the sum itself whenever the sum lies in the
range of `int64`. -/
theorem priority_waiting_recurrence (ps : List Process) (hne : ps ≠ []) :
    at64 (prioWait ps.length (prioSort ps.length (prioCopy ps))) 0 = 0 ∧
    (∀ i, 1 ≤ i → i < ps.length →
      at64 (prioWait ps.length (prioSort ps.length (prioCopy ps))) i =
        wrap64 (at64 (prioWait ps.length (prioSort ps.length (prioCopy ps))) (i - 1)
          + at64 (prioSort ps.length (prioCopy ps)).tempB (i - 1)
          - at64 (prioSort ps.length (prioCopy ps)).tempArr i)) ∧
    (∀ i, i < ps.length →
      (∀ k, k ≤ i → Int64 (prioWaitSpec (prioSort ps.length (prioCopy ps)) k)) →
      at64 (prioWait ps.length (prioSort ps.length (prioCopy ps))) i =
        prioWaitSpec (prioSort ps.length (prioCopy ps)) i) ∧
    ∃ out, SJFPrioritySchedule ps = some out ∧
      ∀ i, i < ps.length → ∃ r, out.schedule[i]? = some r ∧
        r.wait = at64 (prioWait ps.length (prioSort ps.length (prioCopy ps))) i ∧
        r.burst = at64 (prioSort ps.length (prioCopy ps)).tempB i ∧
        r.arrival = at64 (prioSort ps.length (prioCopy ps)).tempArr i ∧
        r.completion = wrap64 (r.burst + r.arrival + r.wait) ∧
        (Int64 (r.burst + r.arrival + r.wait) →
          r.completion = r.burst + r.arrival + r.wait) := by
  have hpos : 0 < ps.length := List.length_pos.mpr hne
  have hw := prioWait_spec ps.length (prioSort ps.length (prioCopy ps)) hpos
  refine ⟨by rw [hw 0 hpos]; rfl, ?_, ?_, _, SJFPrioritySchedule_of_ne ps hne, ?_⟩
  · intro i h1 hi
    obtain ⟨j, rfl⟩ : ∃ j, i = j + 1 := ⟨i - 1, by omega⟩
    rw [hw (j + 1) hi, Nat.add_sub_cancel, hw j (by omega)]
    exact prioWaitAt_succ _ j
  · intro i hi hr
    rw [hw i hi]
    exact prioWaitAt_eq_spec _ i hr
  · intro i hi
    obtain ⟨_, _, h3⟩ := emit64_at (fun i => (procAt ps i).ProcessID)
      (fun i => at64 (prioSort ps.length (prioCopy ps)).tempPID i)
      (fun i => at64 (prioSort ps.length (prioCopy ps)).tempPriority i)
      (fun i => at64 (prioSort ps.length (prioCopy ps)).tempB i)
      (fun i => at64 (prioSort ps.length (prioCopy ps)).tempArr i)
      (fun i => at64 (prioWait ps.length (prioSort ps.length (prioCopy ps))) i)
      (fun i => at64 (prioTat ps.length (prioSort ps.length (prioCopy ps))
        (prioWait ps.length (prioSort ps.length (prioCopy ps)))) i) ps.length
    refine ⟨_, (h3 i hi).1, rfl, rfl, rfl, add64_add64 _ _ _, ?_⟩
    intro hr
    exact (add64_add64 _ _ _).trans (wrap64_of_int64 _ hr)

/-- Witness of the amended C13 on the batch with priorities 0, 1, bursts 1, 1
and arrivals 0, 10: the second waiting time is 0 + 1 - 10 = -9, reported
unclamped, with completion 1 + 10 - 9 = 2. -/
theorem priority_waiting_recurrence_witness :
    (SJFPrioritySchedule [⟨1, 0, 1, 0⟩, ⟨2, 10, 1, 1⟩]).map
      (fun o => o.schedule.map (fun r => (r.wait, r.completion))) = some [(0, 1), (-9, 2)] ∧
    at64 (prioWait [(⟨1, 0, 1, 0⟩ : Process), ⟨2, 10, 1, 1⟩].length
      (prioSort [(⟨1, 0, 1, 0⟩ : Process), ⟨2, 10, 1, 1⟩].length
        (prioCopy [⟨1, 0, 1, 0⟩, ⟨2, 10, 1, 1⟩]))) 0 = 0 ∧
    prioWaitSpec (prioSort [(⟨1, 0, 1, 0⟩ : Process), ⟨2, 10, 1, 1⟩].length
        (prioCopy [⟨1, 0, 1, 0⟩, ⟨2, 10, 1, 1⟩])) 1 = -9 ∧
    at64 (prioWait [(⟨1, 0, 1, 0⟩ : Process), ⟨2, 10, 1, 1⟩].length
      (prioSort [(⟨1, 0, 1, 0⟩ : Process), ⟨2, 10, 1, 1⟩].length
        (prioCopy [⟨1, 0, 1, 0⟩, ⟨2, 10, 1, 1⟩]))) 1 =
      prioWaitSpec (prioSort [(⟨1, 0, 1, 0⟩ : Process), ⟨2, 10, 1, 1⟩].length
        (prioCopy [⟨1, 0, 1, 0⟩, ⟨2, 10, 1, 1⟩])) 1 :=
  ⟨by decide, (priority_waiting_recurrence [⟨1, 0, 1, 0⟩, ⟨2, 10, 1, 1⟩] (by decide)).1,
    by decide,
    (priority_waiting_recurrence [⟨1, 0, 1, 0⟩, ⟨2, 10, 1, 1⟩] (by decide)).2.2.1 1
      (by decide)
      (fun k hk => by
        have h4 : k = 0 ∨ k = 1 := by omega
        rcases h4 with h | h <;> subst h <;> decide)⟩

/-! ## SJFPrioritySchedule: ids of the rows and of the intervals -/

theorem list_eq_of_at64_len (a b : List Int) (hl : a.length = b.length)
    (h : ∀ i, i < a.length → at64 a i = at64 b i) : a = b := by
  apply list_eq_of_at64 a b hl
  intro i
  by_cases hi : i < a.length
  · exact h i hi
  · rw [at64_of_le a i (Nat.le_of_not_lt hi), at64_of_le b i (by omega)]

theorem prioCopy_quadAt (ps : List Process) (i : Nat) (hi : i < ps.length) :
    prioQuadAt (prioCopy ps) i = batchQuadAt ps i :=
  (prioCopy_steps ps ps.length (le_refl _)).2 i hi

theorem PrioArrays_ext (a b : PrioArrays) (h1 : a.tempB = b.tempB)
    (h2 : a.tempPID = b.tempPID) (h3 : a.tempPriority = b.tempPriority)
    (h4 : a.tempArr = b.tempArr) : a = b := by
  cases a
  cases b
  simp only at h1 h2 h3 h4
  rw [h1, h2, h3, h4]

/-- The working copy depends on the batch only through its (priority, burst,
arrival) triples. -/
theorem prioCopy_congr (ps qs : List Process) (h : batchTriples ps = batchTriples qs) :
    prioCopy ps = prioCopy qs := by
  have hlen : ps.length = qs.length := by
    have := congrArg List.length h
    simpa [batchTriples] using this
  have hq : ∀ k, batchQuadAt ps k = batchQuadAt qs k := by
    intro k
    have e : ∀ rs : List Process, ((procAt rs k).Priority, (procAt rs k).BurstDuration,
        (procAt rs k).ArrivalTime) = (batchTriples rs).getD k (0, 0, 0) := by
      intro rs
      unfold batchTriples procAt
      rw [List.getD_eq_getElem?_getD, List.getD_eq_getElem?_getD, List.getElem?_map]
      cases rs[k]? <;> rfl
    have e1 := e ps
    rw [h, ← e qs] at e1
    simp only [batchQuadAt]
    simp only [Prod.mk.injEq] at e1
    rw [e1.1, e1.2.1, e1.2.2]
  have key : ∀ i, i < ps.length → prioQuadAt (prioCopy ps) i = prioQuadAt (prioCopy qs) i := by
    intro i hi
    rw [prioCopy_quadAt ps i hi, prioCopy_quadAt qs i (by omega)]
    exact hq i
  have k1 : ∀ i, i < ps.length → at64 (prioCopy ps).tempPID i = at64 (prioCopy qs).tempPID i :=
    fun i hi => congrArg (fun q => q.1) (key i hi)
  have k2 : ∀ i, i < ps.length →
      at64 (prioCopy ps).tempPriority i = at64 (prioCopy qs).tempPriority i :=
    fun i hi => congrArg (fun q => q.2.1) (key i hi)
  have k3 : ∀ i, i < ps.length → at64 (prioCopy ps).tempB i = at64 (prioCopy qs).tempB i :=
    fun i hi => congrArg (fun q => q.2.2.1) (key i hi)
  have k4 : ∀ i, i < ps.length → at64 (prioCopy ps).tempArr i = at64 (prioCopy qs).tempArr i :=
    fun i hi => congrArg (fun q => q.2.2.2) (key i hi)
  obtain ⟨c1, c2, c3, c4⟩ := (prioCopy_spec ps).1
  obtain ⟨d1, d2, d3, d4⟩ := (prioCopy_spec qs).1
  exact PrioArrays_ext _ _
    (list_eq_of_at64_len _ _ (by omega) (fun i hi => k3 i (by omega)))
    (list_eq_of_at64_len _ _ (by omega) (fun i hi => k1 i (by omega)))
    (list_eq_of_at64_len _ _ (by omega) (fun i hi => k2 i (by omega)))
    (list_eq_of_at64_len _ _ (by omega) (fun i hi => k4 i (by omega)))

theorem prioEmit_schedule_congr (ps qs : List Process) (h : ps.length = qs.length)
    (a : PrioArrays) (w tat : List Int) :
    (prioEmit ps a w tat).schedule = (prioEmit qs a w tat).schedule := by
  rw [prioEmit_schedule, prioEmit_schedule, h]

/-- C20. In `SJFPrioritySchedule`, the id shown in each metrics row is
(original batch index + 1) of the process whose priority, burst and arrival
that row shows (the rows, read as (id, priority, burst, arrival), are a
rearrangement of the input processes numbered 1..n), independently of the
input `ProcessID` values (two batches with the same priorities, bursts and
arrivals get the same rows); it equals that process's `ProcessID` for every
row only when the ids of the batch are 1..n in batch order. The PID of the
`i`-th execution interval is the `ProcessID` of the `i`-th input process. -/
theorem priority_row_ids (ps : List Process) (hne : ps ≠ []) :
    ∃ out, SJFPrioritySchedule ps = some out ∧
      List.Perm (out.schedule.map (fun r => (r.id, r.priority, r.burst, r.arrival)))
        ((List.range ps.length).map (batchQuadAt ps)) ∧
      (∀ r ∈ out.schedule, ∃ k, k < ps.length ∧ r.id = (k : Int) + 1 ∧
        r.priority = (procAt ps k).Priority ∧ r.burst = (procAt ps k).BurstDuration ∧
        r.arrival = (procAt ps k).ArrivalTime) ∧
      (∀ qs, batchTriples qs = batchTriples ps →
        (SJFPrioritySchedule qs).map (fun o => o.schedule) = some out.schedule) ∧
      ((∀ r ∈ out.schedule, ∀ k, k < ps.length → r.id = (k : Int) + 1 →
          r.id = (procAt ps k).ProcessID) ↔
        ∀ k, k < ps.length → (procAt ps k).ProcessID = (k : Int) + 1) ∧
      (∀ i, i < ps.length → ∃ g, out.gantt[i]? = some g ∧
        g.PID = (procAt ps i).ProcessID) := by
  obtain ⟨_, hperm, _⟩ := prioSort_spec ps
  have hrows : ∀ (w tat : List Int),
      List.Perm ((prioEmit ps (prioSort ps.length (prioCopy ps)) w tat).schedule.map
        (fun r => (r.id, r.priority, r.burst, r.arrival)))
        ((List.range ps.length).map (batchQuadAt ps)) := by
    intro w tat
    rw [prio_rows_quads]
    exact hperm
  refine ⟨_, SJFPrioritySchedule_of_ne ps hne, hrows _ _, ?_, ?_, ?_, ?_⟩
  · intro r hr
    have hm : (r.id, r.priority, r.burst, r.arrival) ∈
        (List.range ps.length).map (batchQuadAt ps) :=
      (hrows _ _).subset (List.mem_map_of_mem _ hr)
    obtain ⟨k, hk, e⟩ := List.mem_map.mp hm
    simp only [batchQuadAt, Prod.mk.injEq] at e
    exact ⟨k, List.mem_range.mp hk, e.1.symm, e.2.1.symm, e.2.2.1.symm, e.2.2.2.symm⟩
  · intro qs hq
    have hlen : qs.length = ps.length := by
      have := congrArg List.length hq
      simpa [batchTriples] using this
    have hqne : qs ≠ [] := by
      intro h
      rw [h] at hlen
      exact hne (List.length_eq_zero.mp hlen.symm)
    rw [SJFPrioritySchedule_of_ne qs hqne, prioCopy_congr qs ps hq, hlen]
    simp only [Option.map_some']
    congr 1
    exact prioEmit_schedule_congr qs ps hlen _ _ _
  · constructor
    · intro h k hk
      have hm : batchQuadAt ps k ∈ (prioEmit ps (prioSort ps.length (prioCopy ps))
          (prioWait ps.length (prioSort ps.length (prioCopy ps)))
          (prioTat ps.length (prioSort ps.length (prioCopy ps))
            (prioWait ps.length (prioSort ps.length (prioCopy ps))))).schedule.map
          (fun r => (r.id, r.priority, r.burst, r.arrival)) :=
        (hrows _ _).symm.subset (List.mem_map_of_mem _ (List.mem_range.mpr hk))
      obtain ⟨r, hr, e⟩ := List.mem_map.mp hm
      simp only [batchQuadAt, Prod.mk.injEq] at e
      have := h r hr k hk e.1
      rw [← this, e.1]
    · intro h r _ k hk e
      rw [e, h k hk]
  · intro i hi
    obtain ⟨_, _, h3⟩ := emit64_at (fun i => (procAt ps i).ProcessID)
      (fun i => at64 (prioSort ps.length (prioCopy ps)).tempPID i)
      (fun i => at64 (prioSort ps.length (prioCopy ps)).tempPriority i)
      (fun i => at64 (prioSort ps.length (prioCopy ps)).tempB i)
      (fun i => at64 (prioSort ps.length (prioCopy ps)).tempArr i)
      (fun i => at64 (prioWait ps.length (prioSort ps.length (prioCopy ps))) i)
      (fun i => at64 (prioTat ps.length (prioSort ps.length (prioCopy ps))
        (prioWait ps.length (prioSort ps.length (prioCopy ps)))) i) ps.length
    exact ⟨_, (h3 i hi).2, rfl⟩

/-- Witness of C20 on the batch with ids 7, 8 and priorities 3, 1: the rows
carry the ids 2, 1 (original indices plus one, not 8, 7), and interval 0 has
PID 7, the id of input process 0, while row 0 shows input process 1. -/
theorem priority_row_ids_witness :
    (SJFPrioritySchedule [⟨7, 0, 5, 3⟩, ⟨8, 1, 3, 1⟩]).map
      (fun o => o.schedule.map (fun r => (r.id, r.priority, r.burst, r.arrival)))
      = some [(2, 1, 3, 1), (1, 3, 5, 0)] ∧
    (SJFPrioritySchedule [⟨7, 0, 5, 3⟩, ⟨8, 1, 3, 1⟩]).map
      (fun o => o.gantt.map (fun g => g.PID)) = some [7, 8] ∧
    ∃ out, SJFPrioritySchedule [⟨7, 0, 5, 3⟩, ⟨8, 1, 3, 1⟩] = some out ∧
      List.Perm (out.schedule.map (fun r => (r.id, r.priority, r.burst, r.arrival)))
        ((List.range [(⟨7, 0, 5, 3⟩ : Process), ⟨8, 1, 3, 1⟩].length).map
          (batchQuadAt [⟨7, 0, 5, 3⟩, ⟨8, 1, 3, 1⟩])) :=
  ⟨by decide, by decide,
    (priority_row_ids [⟨7, 0, 5, 3⟩, ⟨8, 1, 3, 1⟩] (by decide)).imp
      (fun _ h => ⟨h.1, h.2.1⟩)⟩

/-! ## SJFSchedule: completions -/

theorem sjfScan_elig (ps : List Process) (s : SJFState) (h : SJFRun ps s)
    (hc : (sjfScan ps s).2.2 = true) : sjfElig ps s (sjfScan ps s).2.1 := by
  unfold sjfScan at hc ⊢
  rcases sjfScan_range ps s.rt s.t (s.minm, s.shortest, s.check) ps.length with
    ⟨h1, _⟩ | ⟨_, h2, h3, h4, _⟩
  · rw [h1] at hc ⊢
    exact h.held hc
  · exact ⟨h2, h3, h4⟩

theorem sjfRun_init (ps : List Process) (hb : ∀ p ∈ ps, 1 ≤ p.BurstDuration) :
    SJFRun ps (sjfInit ps) := by
  have hrt := sjfInit_rt ps
  have hge : ∀ i, 0 ≤ (procAt ps i).BurstDuration := by
    intro i
    by_cases h : i < ps.length
    · have := hb _ (procAt_mem ps i h); omega
    · rw [procAt_of_le ps i (Nat.le_of_not_lt h)]
  exact
    { len_rt := by rw [hrt]; simp
      len_wait := by simp [sjfInit]
      rt_nonneg := fun i => by rw [hrt, at64_map_burst]; exact hge i
      rt_le := fun i => by rw [hrt, at64_map_burst]
      complete_eq := by
        rw [hrt, unfinished_bursts ps hb]
        show 0 + ps.length = ps.length
        omega
      held := fun h => absurd (show false = true from h) (by decide)
      started := fun i _ h => by rw [hrt, at64_map_burst] at h; omega
      wait_nonneg := fun i => by
        have : at64 (sjfInit ps).waitingTime i = 0 := at64_replicate _ _
        omega }

/-- At a completion the waiting time written is `t + 1 - burst - arrival`
itself: it is not negative. -/
theorem sjfRun_finish (ps : List Process) (s : SJFState) (h : SJFRun ps s)
    (hc : (sjfScan ps s).2.2 = true) :
    at64 s.rt (sjfScan ps s).2.1 - 1 = 0 →
      0 ≤ s.t + 1 - (procAt ps (sjfScan ps s).2.1).BurstDuration
        - (procAt ps (sjfScan ps s).2.1).ArrivalTime := by
  intro hz
  obtain ⟨e1, e2, e3⟩ := sjfScan_elig ps s h hc
  have hle := h.rt_le (sjfScan ps s).2.1
  by_cases hst : at64 s.rt (sjfScan ps s).2.1 < (procAt ps (sjfScan ps s).2.1).BurstDuration
  · have := h.started _ e1 hst; omega
  · omega

theorem sjfRun_step (ps : List Process) (s : SJFState) (h : SJFRun ps s) :
    SJFRun ps (sjfStep ps s) := by
  cases hchk : (sjfScan ps s).2.2 with
  | false =>
    rw [sjfStep_idle ps s hchk]
    exact
      { len_rt := h.len_rt
        len_wait := h.len_wait
        rt_nonneg := h.rt_nonneg
        rt_le := h.rt_le
        complete_eq := h.complete_eq
        held := fun hc => by
          have hc' : (sjfScan ps s).2.2 = true := hc
          rw [hchk] at hc'
          exact absurd hc' (by decide)
        started := fun i hi hst => by
          have hst' : at64 s.rt i < (procAt ps i).BurstDuration := hst
          have := h.started i hi hst'
          show (procAt ps i).ArrivalTime + (procAt ps i).BurstDuration - at64 s.rt i
            ≤ s.t + 1
          omega
        wait_nonneg := h.wait_nonneg }
  | true =>
    have hfin := sjfRun_finish ps s h hchk
    obtain ⟨e1, e2, e3⟩ := sjfScan_elig ps s h hchk
    have hl : (sjfScan ps s).2.1 < s.rt.length := by rw [h.len_rt]; exact e1
    rw [sjfStep_busy ps s hchk hl]
    generalize (sjfScan ps s).2.1 = sh at e1 e2 e3 hl hfin
    have hunf := unfinished_set s.rt sh (at64 s.rt sh - 1) hl
    have hle := h.rt_le sh
    have hce := h.complete_eq
    have hnn : ∀ i, 0 ≤ at64 (s.rt.set sh (at64 s.rt sh - 1)) i := by
      intro i
      rw [at64_set]; split_ifs
      · omega
      · exact h.rt_nonneg i
    have hrl : ∀ i, at64 (s.rt.set sh (at64 s.rt sh - 1)) i ≤ (procAt ps i).BurstDuration := by
      intro i
      rw [at64_set]; split_ifs with hc
      · rw [← hc.1]; omega
      · exact h.rt_le i
    have hstart : ∀ i, i < ps.length →
        at64 (s.rt.set sh (at64 s.rt sh - 1)) i < (procAt ps i).BurstDuration →
        (procAt ps i).ArrivalTime + (procAt ps i).BurstDuration
          - at64 (s.rt.set sh (at64 s.rt sh - 1)) i ≤ s.t + 1 := by
      intro i hi hst
      by_cases hc : sh = i
      · subst hc
        rw [at64_set_self _ _ _ hl]
        by_cases hs2 : at64 s.rt sh < (procAt ps sh).BurstDuration
        · have := h.started sh hi hs2; omega
        · omega
      · rw [at64_set_ne _ _ _ _ hc] at hst ⊢
        have := h.started i hi hst; omega
    simp only [e3, if_true] at hunf
    by_cases hz : at64 s.rt sh - 1 = 0
    · rw [if_pos hz]
      have hz' : ¬ (0 < at64 s.rt sh - 1) := by omega
      simp only [hz', if_false] at hunf
      have hw := hfin hz
      exact
        { len_rt := by simp [h.len_rt]
          len_wait := by simp [h.len_wait]
          rt_nonneg := hnn
          rt_le := hrl
          complete_eq := by
            show s.complete + 1 + unfinished (s.rt.set sh (at64 s.rt sh - 1)) = _
            omega
          held := fun hc => absurd (show false = true from hc) (by decide)
          started := hstart
          wait_nonneg := fun i => by
            show 0 ≤ at64 (s.waitingTime.set sh _) i
            rw [at64_set]
            split_ifs
            · exact le_refl _
            · exact hw
            · exact h.wait_nonneg i }
    · rw [if_neg hz]
      have hz' : 0 < at64 s.rt sh - 1 := by omega
      simp only [hz', if_true] at hunf
      exact
        { len_rt := by simp [h.len_rt]
          len_wait := h.len_wait
          rt_nonneg := hnn
          rt_le := hrl
          complete_eq := by
            show s.complete + unfinished (s.rt.set sh (at64 s.rt sh - 1)) = _
            omega
          held := fun _ => ⟨e1, by show (procAt ps sh).ArrivalTime ≤ s.t + 1; omega, by
            show 0 < at64 (s.rt.set sh (at64 s.rt sh - 1)) sh
            rw [at64_set_self _ _ _ hl]; exact hz'⟩
          started := hstart
          wait_nonneg := h.wait_nonneg }

theorem sjfIter_run (ps : List Process) (hb : ∀ p ∈ ps, 1 ≤ p.BurstDuration) (k : Nat) :
    SJFRun ps (sjfIter ps k) :=
  iterLoop_inv (sjfCond ps) (sjfStep ps) (SJFRun ps)
    (fun s hs _ => sjfRun_step ps s hs) _ (sjfRun_init ps hb) k

theorem sjfIter_step_or_stay (ps : List Process) (k : Nat) :
    ((sjfIter ps k).complete < ps.length ∧ sjfIter ps (k + 1) = sjfStep ps (sjfIter ps k)) ∨
    (¬ (sjfIter ps k).complete < ps.length ∧ sjfIter ps (k + 1) = sjfIter ps k) := by
  by_cases h : (sjfIter ps k).complete < ps.length
  · exact Or.inl ⟨h, sjfIter_succ ps k h⟩
  · right
    refine ⟨h, ?_⟩
    unfold sjfIter at h ⊢
    rw [iterLoop_succ]
    have : sjfCond ps (iterLoop (sjfCond ps) (sjfStep ps) k (sjfInit ps)) = false := by
      simpa [sjfCond] using h
    simp [this]

/-- A pass changes `rt` and `waitingTime` only at the process it runs. -/
theorem sjfStep_other (ps : List Process) (s : SJFState) (h : SJFRun ps s) (i : Nat)
    (hi : sjfPick ps s ≠ some i) :
    at64 (sjfStep ps s).rt i = at64 s.rt i ∧
      at64 (sjfStep ps s).waitingTime i = at64 s.waitingTime i := by
  cases hchk : (sjfScan ps s).2.2 with
  | false => rw [sjfStep_idle ps s hchk]; exact ⟨rfl, rfl⟩
  | true =>
    have hne : (sjfScan ps s).2.1 ≠ i := by
      intro e
      apply hi
      unfold sjfPick
      simp [hchk, e]
    obtain ⟨e1, _, _⟩ := sjfScan_elig ps s h hchk
    have hl : (sjfScan ps s).2.1 < s.rt.length := by rw [h.len_rt]; exact e1
    rw [sjfStep_busy ps s hchk hl]
    split_ifs
    all_goals first
      | exact ⟨at64_set_ne _ _ _ _ hne, at64_set_ne _ _ _ _ hne⟩
      | exact ⟨at64_set_ne _ _ _ _ hne, rfl⟩

/-- The pass that runs process `i` down to 0 writes its waiting time
`t + 1 - burst - arrival`, which is not negative. -/
theorem sjfStep_completes (ps : List Process) (s : SJFState) (h : SJFRun ps s) (i : Nat)
    (hp : sjfPick ps s = some i) (hz : at64 (sjfStep ps s).rt i = 0) :
    0 ≤ s.t + 1 - (procAt ps i).BurstDuration - (procAt ps i).ArrivalTime ∧
    at64 (sjfStep ps s).waitingTime i =
      s.t + 1 - (procAt ps i).BurstDuration - (procAt ps i).ArrivalTime := by
  obtain ⟨hchk, ei⟩ := sjfPick_some ps s i hp
  have hfin := sjfRun_finish ps s h hchk
  obtain ⟨e1, _, _⟩ := sjfScan_elig ps s h hchk
  have hl : (sjfScan ps s).2.1 < s.rt.length := by rw [h.len_rt]; exact e1
  have hlw : (sjfScan ps s).2.1 < s.waitingTime.length := by rw [h.len_wait]; exact e1
  have hst := sjfStep_busy ps s hchk hl
  rw [ei] at hfin hl hlw hst
  have hzero : at64 s.rt i - 1 = 0 := by
    by_contra hne
    rw [hst, if_neg hne] at hz
    have hz' : at64 (s.rt.set i (at64 s.rt i - 1)) i = 0 := hz
    rw [at64_set_self _ _ _ hl] at hz'
    exact hne hz'
  have hw := hfin hzero
  refine ⟨hw, ?_⟩
  rw [hst, if_pos hzero]
  show at64 (s.waitingTime.set i _) i = _
  rw [at64_set_self _ _ _ hlw, if_neg (by omega)]

/-- Once a process is finished, its entries of `rt` and `waitingTime` stay. -/
theorem sjf_frozen (ps : List Process) (hb : ∀ p ∈ ps, 1 ≤ p.BurstDuration) (i k : Nat)
    (hz : at64 (sjfIter ps k).rt i = 0) : ∀ d,
    at64 (sjfIter ps (k + d)).rt i = 0 ∧
      at64 (sjfIter ps (k + d)).waitingTime i = at64 (sjfIter ps k).waitingTime i := by
  intro d
  induction d with
  | zero => exact ⟨hz, rfl⟩
  | succ d ih =>
    obtain ⟨h1, h2⟩ := ih
    rcases sjfIter_step_or_stay ps (k + d) with ⟨_, e⟩ | ⟨_, e⟩
    · have hrun := sjfIter_run ps hb (k + d)
      have hne : sjfPick ps (sjfIter ps (k + d)) ≠ some i := by
        intro hp
        obtain ⟨hchk, ei⟩ := sjfPick_some ps _ i hp
        have := (sjfScan_elig ps _ hrun hchk).2.2
        rw [ei, h1] at this
        exact absurd this (lt_irrefl 0)
      obtain ⟨o1, o2⟩ := sjfStep_other ps _ hrun i hne
      rw [← Nat.add_assoc, e, o1, o2]
      exact ⟨h1, h2⟩
    · rw [← Nat.add_assoc, e]
      exact ⟨h1, h2⟩

/-- Every finished process was run down to 0 by some earlier pass. -/
theorem sjf_finish_pass (ps : List Process) (hb : ∀ p ∈ ps, 1 ≤ p.BurstDuration) (i : Nat)
    (hi : i < ps.length) : ∀ m, at64 (sjfIter ps m).rt i = 0 →
    ∃ k, k < m ∧ (sjfIter ps k).complete < ps.length ∧
      sjfPick ps (sjfIter ps k) = some i ∧ at64 (sjfIter ps (k + 1)).rt i = 0 := by
  intro m
  induction m with
  | zero =>
    intro hz
    have h0 : at64 (sjfIter ps 0).rt i = (procAt ps i).BurstDuration := by
      show at64 (sjfInit ps).rt i = _
      rw [sjfInit_rt, at64_map_burst]
    have := hb _ (procAt_mem ps i hi)
    omega
  | succ m ih =>
    intro hz
    by_cases hprev : at64 (sjfIter ps m).rt i = 0
    · obtain ⟨k, hk, h1, h2, h3⟩ := ih hprev
      exact ⟨k, by omega, h1, h2, h3⟩
    · rcases sjfIter_step_or_stay ps m with ⟨hrun, e⟩ | ⟨_, e⟩
      · refine ⟨m, Nat.lt_succ_self m, hrun, ?_, hz⟩
        by_contra hne
        have := (sjfStep_other ps _ (sjfIter_run ps hb m) i hne).1
        rw [← e, hz] at this
        exact hprev this.symm
      · rw [e] at hz
        exact absurd hz hprev

/-- C18. In `SJFSchedule`, for every batch with bursts >= 1 and arrivals >= 0,
the clamp of a negative waiting time to 0 is never taken: at the pass (tick
`k`) that runs a process down to 0, `finishTime - burst - arrival =
k + 1 - burst - arrival` is already non-negative and is the waiting time
written; and whenever `SJFSchedule` returns, every process has such a tick `k`
and its row reports completion (burst + arrival + waiting) `= k + 1`. -/
theorem SJF_completion_is_finish_tick (ps : List Process)
    (hb : ∀ p ∈ ps, 1 ≤ p.BurstDuration ∧ 0 ≤ p.ArrivalTime) :
    (∀ k i, (sjfIter ps k).complete < ps.length →
      sjfPick ps (sjfIter ps k) = some i → at64 (sjfIter ps (k + 1)).rt i = 0 →
      (sjfIter ps k).t = (k : Int) ∧
      0 ≤ (k : Int) + 1 - (procAt ps i).BurstDuration - (procAt ps i).ArrivalTime ∧
      at64 (sjfIter ps (k + 1)).waitingTime i =
        (k : Int) + 1 - (procAt ps i).BurstDuration - (procAt ps i).ArrivalTime) ∧
    (∀ fuel out, SJFSchedule fuel ps = some out → ∀ i, i < ps.length →
      ∃ k r, k < fuel ∧ (sjfIter ps k).complete < ps.length ∧
        sjfPick ps (sjfIter ps k) = some i ∧ at64 (sjfIter ps (k + 1)).rt i = 0 ∧
        out.schedule[i]? = some r ∧
        r.wait = (k : Int) + 1 - (procAt ps i).BurstDuration - (procAt ps i).ArrivalTime ∧
        r.completion = (k : Int) + 1) := by
  have hb1 : ∀ p ∈ ps, 1 ≤ p.BurstDuration := fun p hp => (hb p hp).1
  have hA : ∀ k i, (sjfIter ps k).complete < ps.length →
      sjfPick ps (sjfIter ps k) = some i → at64 (sjfIter ps (k + 1)).rt i = 0 →
      (sjfIter ps k).t = (k : Int) ∧
      0 ≤ (k : Int) + 1 - (procAt ps i).BurstDuration - (procAt ps i).ArrivalTime ∧
      at64 (sjfIter ps (k + 1)).waitingTime i =
        (k : Int) + 1 - (procAt ps i).BurstDuration - (procAt ps i).ArrivalTime := by
    intro k i hrun hp hz
    have ht := sjfIter_t ps k hrun
    have e := sjfIter_succ ps k hrun
    rw [e] at hz ⊢
    obtain ⟨h1, h2⟩ := sjfStep_completes ps _ (sjfIter_run ps hb1 k) i hp hz
    rw [ht] at h1 h2
    exact ⟨ht, h1, h2⟩
  refine ⟨hA, ?_⟩
  intro fuel out ho i hi
  obtain ⟨s, hs, e⟩ := SJFSchedule_some ps fuel out ho
  obtain ⟨es, hc⟩ := runLoop_some _ _ _ _ _ hs
  have es' : s = sjfIter ps fuel := es
  have hrun := sjfIter_run ps hb1 fuel
  rw [← es'] at hrun
  have hz : at64 s.rt i = 0 := by
    have hcomp : ¬ s.complete < ps.length := by simpa [sjfCond] using hc
    have hu : unfinished s.rt = 0 := by
      have := hrun.complete_eq; omega
    have := unfinished_eq_zero s.rt hu i
    have := hrun.rt_nonneg i
    omega
  rw [es'] at hz
  obtain ⟨k, hk, hrk, hp, hzk⟩ := sjf_finish_pass ps hb1 i hi fuel hz
  obtain ⟨_, _, hw⟩ := hA k i hrk hp hzk
  have hfro := (sjf_frozen ps hb1 i (k + 1) hzk (fuel - (k + 1))).2
  have hfk : k + 1 + (fuel - (k + 1)) = fuel := by omega
  rw [hfk, hw] at hfro
  obtain ⟨_, _, h3⟩ := emit_at (fun i => (procAt ps i).ProcessID)
    (fun i => (procAt ps i).ProcessID) (fun i => (procAt ps i).Priority)
    (fun i => (procAt ps i).BurstDuration) (fun i => (procAt ps i).ArrivalTime)
    (fun i => at64 s.waitingTime i)
    (fun i => at64 (findTurnAroundTime ps s.waitingTime) i) ps.length
  have hrow := (h3 i hi).1
  rw [← sjfEmit_eq] at hrow
  have hsw : at64 s.waitingTime i =
      (k : Int) + 1 - (procAt ps i).BurstDuration - (procAt ps i).ArrivalTime := by
    rw [es', hfro]
  refine ⟨k, _, hk, hrk, hp, hzk, by rw [e]; exact hrow, hsw, ?_⟩
  show (procAt ps i).BurstDuration + (procAt ps i).ArrivalTime + at64 s.waitingTime i = _
  rw [hsw]
  ring

/-- Witness of C18 on the scenario batch: `SJFSchedule` returns within 16
passes with completions `[8, 4, 16]`; process 1 is run down to 0 at tick 3. -/
theorem SJF_completion_is_finish_tick_witness :
    (∀ p ∈ batch1, 1 ≤ p.BurstDuration ∧ 0 ≤ p.ArrivalTime) ∧
    (SJFSchedule 16 batch1).map (fun o => o.schedule.map (fun r => r.completion))
      = some [8, 4, 16] ∧
    ((sjfIter batch1 3).t = ((3 : Nat) : Int) ∧
      0 ≤ ((3 : Nat) : Int) + 1 - (procAt batch1 1).BurstDuration
        - (procAt batch1 1).ArrivalTime ∧
      at64 (sjfIter batch1 (3 + 1)).waitingTime 1 =
        ((3 : Nat) : Int) + 1 - (procAt batch1 1).BurstDuration
          - (procAt batch1 1).ArrivalTime) :=
  ⟨by decide, by decide,
    (SJF_completion_is_finish_tick batch1 (by decide)).1 3 1 (by decide) (by decide)
      (by decide)⟩

/-! ## Batches of one process -/

theorem float64_one : float64 ((1 : Nat) : Int) = 1 := by decide

/-- A closing loop over one process whose waiting time, turnaround and
completion are `float64`s (at most `2^53` in absolute value), the completion
being positive. -/
theorem emit_single (pid id pr b a w tt : Nat → Int)
    (hw1 : -9007199254740992 ≤ w 0) (hw2 : w 0 ≤ 9007199254740992)
    (ht1 : -9007199254740992 ≤ tt 0) (ht2 : tt 0 ≤ 9007199254740992)
    (hc : 0 < b 0 + a 0 + w 0) (hc2 : b 0 + a 0 + w 0 ≤ 9007199254740992) :
    SingleRowAverages (emitReport 1 (emitLoop pid id pr b a w tt 1)) := by
  have e : emitLoop pid id pr b a w tt 1 =
      emitBody emitInit (pid 0) (id 0) (pr 0) (b 0) (a 0) (w 0) (tt 0) := by
    rw [emitLoop_succ]; rfl
  rw [e]
  refine ⟨{ id := id 0, priority := pr 0, burst := b 0, arrival := a 0, wait := w 0,
            turnaround := tt 0, completion := b 0 + a 0 + w 0 }, ?_, ?_, ?_, ?_⟩
  · simp [emitReport, emitBody, emitInit]
  · show fdiv (fadd 0 (float64 (w 0))) (float64 ((1 : Nat) : Int)) = _
    rw [fadd_zero _ hw1 hw2, float64_one, fdiv_one]
  · show fdiv (fadd 0 (float64 (tt 0))) (float64 ((1 : Nat) : Int)) = _
    rw [fadd_zero _ ht1 ht2, float64_one, fdiv_one]
  · show fdiv (float64 ((1 : Nat) : Int))
      (float64 (if (0 : Int) < b 0 + a 0 + w 0 then b 0 + a 0 + w 0 else 0)) = _
    rw [if_pos hc, float64_one, float64_of_le _ (by omega) hc2, fdiv_of_ne _ _ (by omega)]
    simp

/-- The same for the closing loop of `SJFPrioritySchedule`. -/
theorem emit64_single (pid id pr b a w tt : Nat → Int)
    (hw1 : -9007199254740992 ≤ w 0) (hw2 : w 0 ≤ 9007199254740992)
    (ht1 : -9007199254740992 ≤ tt 0) (ht2 : tt 0 ≤ 9007199254740992)
    (hc : 0 < add64 (add64 (b 0) (a 0)) (w 0))
    (hc2 : add64 (add64 (b 0) (a 0)) (w 0) ≤ 9007199254740992) :
    SingleRowAverages (emitReport 1 (emitLoop64 pid id pr b a w tt 1)) := by
  have e : emitLoop64 pid id pr b a w tt 1 =
      emitBody64 emitInit (pid 0) (id 0) (pr 0) (b 0) (a 0) (w 0) (tt 0) := by
    rw [emitLoop64_succ]; rfl
  rw [e]
  refine ⟨{ id := id 0, priority := pr 0, burst := b 0, arrival := a 0, wait := w 0,
            turnaround := tt 0, completion := add64 (add64 (b 0) (a 0)) (w 0) },
    ?_, ?_, ?_, ?_⟩
  · simp [emitReport, emitBody64, emitInit]
  · show fdiv (fadd 0 (float64 (w 0))) (float64 ((1 : Nat) : Int)) = _
    rw [fadd_zero _ hw1 hw2, float64_one, fdiv_one]
  · show fdiv (fadd 0 (float64 (tt 0))) (float64 ((1 : Nat) : Int)) = _
    rw [fadd_zero _ ht1 ht2, float64_one, fdiv_one]
  · show fdiv (float64 ((1 : Nat) : Int))
      (float64 (if (0 : Int) < add64 (add64 (b 0) (a 0)) (w 0)
        then add64 (add64 (b 0) (a 0)) (w 0) else 0)) = _
    rw [if_pos hc, float64_one, float64_of_le _ (by omega) hc2, fdiv_of_ne _ _ (by omega)]
    simp

theorem fcfs_single (p : Process) (hb : 1 ≤ p.BurstDuration) (ha : 0 ≤ p.ArrivalTime)
    (hr : p.BurstDuration + p.ArrivalTime ≤ 9007199254740992) :
    SingleRowAverages (FCFSSchedule [p]) := by
  have e : fcfsLoop [p] = fcfsBody fcfsInit p := rfl
  have hrow : (fcfsLoop [p]).schedule = [fcfsRowAt [p] 0] := by
    have := fcfs_schedule [p]
    exact this
  have hw : fcfsWaitAfter [p] 1 = - p.ArrivalTime := by
    have h0 : burstsBefore [p] 0 = 0 := rfl
    have hp : procAt [p] 0 = p := rfl
    simp only [fcfsWaitAfter, hp, h0]
    split_ifs with h
    · unfold wrap64; omega
    · omega
  have hwait : (fcfsRowAt [p] 0).wait = - p.ArrivalTime := hw
  have htt : (fcfsRowAt [p] 0).turnaround = p.BurstDuration - p.ArrivalTime := by
    show add64 p.BurstDuration (fcfsWaitAfter [p] 1) = _
    rw [hw]; unfold add64 wrap64; omega
  have hc : (fcfsRowAt [p] 0).completion = p.BurstDuration := by
    rw [fcfsRowAt_completion, hw]
    show wrap64 (p.BurstDuration + p.ArrivalTime + - p.ArrivalTime) = _
    unfold wrap64; omega
  have hfw : (fcfsLoop [p]).totalWait = fadd 0 (float64 (fcfsRowAt [p] 0).wait) := by
    rw [e]; rfl
  have hft : (fcfsLoop [p]).totalTurnaround
      = fadd 0 (float64 (fcfsRowAt [p] 0).turnaround) := by
    rw [e]; rfl
  have hfc : (fcfsLoop [p]).lastCompletion = float64 (fcfsRowAt [p] 0).completion := by
    rw [e]; rfl
  refine ⟨fcfsRowAt [p] 0, hrow, ?_, ?_, ?_⟩
  · show fdiv (fcfsLoop [p]).totalWait (float64 ((1 : Nat) : Int)) = _
    rw [hfw, fadd_zero _ (by omega) (by omega), float64_one, fdiv_one]
  · show fdiv (fcfsLoop [p]).totalTurnaround (float64 ((1 : Nat) : Int)) = _
    rw [hft, fadd_zero _ (by omega) (by omega), float64_one, fdiv_one]
  · show fdiv (float64 ((1 : Nat) : Int)) (fcfsLoop [p]).lastCompletion = _
    rw [hfc, float64_one, float64_of_le _ (by omega) (by omega),
      fdiv_of_ne _ _ (by omega)]
    simp

theorem rrIter_step_or_stay (ps : List Process) (k : Nat) :
    ((rrIter ps k).remain ≠ 0 ∧ rrIter ps (k + 1) = rrStep ps (rrIter ps k)) ∨
    ((rrIter ps k).remain = 0 ∧ rrIter ps (k + 1) = rrIter ps k) := by
  by_cases h : (rrIter ps k).remain = 0
  · right
    refine ⟨h, ?_⟩
    unfold rrIter at h ⊢
    rw [iterLoop_succ]
    have : rrCond (iterLoop rrCond (rrStep ps) k (rrInit ps)) = false := by
      simpa [rrCond] using h
    simp [this]
  · left
    refine ⟨h, ?_⟩
    unfold rrIter at h ⊢
    rw [iterLoop_succ]
    have : rrCond (iterLoop rrCond (rrStep ps) k (rrInit ps)) = true := by
      simpa [rrCond] using h
    simp [this]

/-- With one process, every pass of the dispatch loop advances the clock. -/
theorem rrStep_time_single (ps : List Process) (s : RRState) (h : RRInv ps s)
    (hr : s.remain ≠ 0) (h1 : ps.length = 1) : s.time + 1 ≤ (rrStep ps s).time := by
  have hc : s.count = 0 := by have := h.count_lt; omega
  have hun : 0 < unfinished s.rt := by
    have := h.remain_eq
    omega
  obtain ⟨i, hi, hp⟩ := exists_pos_of_unfinished _ hun
  have hi0 : i = 0 := by rw [h.len_rt] at hi; omega
  rw [hi0, ← hc] at hp
  have hl : s.count < s.rt.length := by rw [h.len_rt]; exact h.count_lt
  unfold rrStep
  rw [(rrAdvance_fields ps _).1]
  by_cases h2 : at64 s.rt s.count ≤ 2
  · rw [rrBody_finish ps s hl h2 hp]
    show s.time + 1 ≤ s.time + at64 s.rt s.count
    omega
  · rw [rrBody_slice ps s h.flag0 (by omega)]
    show s.time + 1 ≤ s.time + 2
    omega

theorem rr_single_time (p : Process) (hb : 1 ≤ p.BurstDuration) : ∀ k,
    (rrIter [p] k).remain ≠ 0 → (k : Int) ≤ (rrIter [p] k).time := by
  have hb' : ∀ q ∈ [p], 1 ≤ q.BurstDuration := by
    intro q hq
    rw [List.mem_singleton.mp hq]; exact hb
  intro k
  induction k with
  | zero => intro _; exact le_refl _
  | succ k ih =>
    intro hrun
    rcases rrIter_step_or_stay [p] k with ⟨hr, e⟩ | ⟨hr, e⟩
    · have := rrStep_time_single [p] _ (rrIter_inv [p] (by simp) hb' k) hr rfl
      rw [e]
      have := ih hr
      push_cast
      omega
    · rw [e] at hrun
      exact absurd hr hrun

/-- With one process, the dispatch loop has ended after `burst` passes. -/
theorem rr_single_ends (p : Process) (hb : 1 ≤ p.BurstDuration) :
    (rrIter [p] p.BurstDuration.toNat).remain = 0 := by
  have hb' : ∀ q ∈ [p], 1 ≤ q.BurstDuration := by
    intro q hq
    rw [List.mem_singleton.mp hq]; exact hb
  by_contra hrun
  have h := rrIter_inv [p] (by simp) hb' p.BurstDuration.toNat
  have ht := rr_single_time p hb _ hrun
  have hun : 0 < unfinished (rrIter [p] p.BurstDuration.toNat).rt := by
    have := h.remain_eq
    omega
  obtain ⟨i, _, hp⟩ := exists_pos_of_unfinished _ hun
  have hs := sum_pos_of_pos _ h.rt_nonneg i hp
  have hck := h.clock
  have htot : totalBurst [p] = p.BurstDuration := by simp [totalBurst]
  rw [htot] at hck
  omega

theorem procAt_single (p : Process) : procAt [p] 0 = p := rfl

/-- On return of `SJFSchedule`, the waiting time of process `i` is
`k + 1 - burst - arrival` for the pass `k` that completed it, and the clock
invariant bounds that pass. -/
theorem sjf_final_wait (ps : List Process)
    (hb : ∀ p ∈ ps, 1 ≤ p.BurstDuration ∧ p.BurstDuration < maxInt)
    (fuel : Nat) (s : SJFState)
    (hs : runLoop (sjfCond ps) (sjfStep ps) fuel (sjfInit ps) = some s)
    (i : Nat) (hi : i < ps.length) :
    0 ≤ at64 s.waitingTime i ∧
    at64 s.waitingTime i + (procAt ps i).BurstDuration + (procAt ps i).ArrivalTime
      ≤ maxArrival ps + totalBurst ps := by
  have hb1 : ∀ p ∈ ps, 1 ≤ p.BurstDuration := fun p hp => (hb p hp).1
  obtain ⟨es, hc⟩ := runLoop_some _ _ _ _ _ hs
  have es' : s = sjfIter ps fuel := es
  have hrun := sjfIter_run ps hb1 fuel
  rw [← es'] at hrun
  have hz : at64 s.rt i = 0 := by
    have hcomp : ¬ s.complete < ps.length := by simpa [sjfCond] using hc
    have hu : unfinished s.rt = 0 := by
      have := hrun.complete_eq; omega
    have := unfinished_eq_zero s.rt hu i
    have := hrun.rt_nonneg i
    omega
  rw [es'] at hz
  obtain ⟨k, hk, hrk, hp, hzk⟩ := sjf_finish_pass ps hb1 i hi fuel hz
  have ht := sjfIter_t ps k hrk
  have e := sjfIter_succ ps k hrk
  have hzk' := hzk
  rw [e] at hzk'
  obtain ⟨h1, h2⟩ := sjfStep_completes ps _ (sjfIter_run ps hb1 k) i hp hzk'
  rw [ht] at h1 h2
  have hfro := (sjf_frozen ps hb1 i (k + 1) hzk (fuel - (k + 1))).2
  have hfk : k + 1 + (fuel - (k + 1)) = fuel := by omega
  rw [hfk, e, h2] at hfro
  have hsw : at64 s.waitingTime i =
      (k : Int) + 1 - (procAt ps i).BurstDuration - (procAt ps i).ArrivalTime := by
    rw [es', hfro]
  have hinv := sjfIter_inv ps hb k
  obtain ⟨hc1, hc2⟩ := sjfPick_some ps _ i hp
  have hel := sjfScan_elig ps _ (sjfIter_run ps hb1 k) hc1
  rw [hc2] at hel
  have hsum := sum_pos_of_pos _ hinv.rt_nonneg i hel.2.2
  have hck := hinv.clock
  rw [ht] at hck
  constructor
  · rw [hsw]; exact h1
  · rw [hsw]; omega

theorem maxArrival_single (p : Process) (ha : 0 ≤ p.ArrivalTime) :
    maxArrival [p] = p.ArrivalTime := by
  unfold maxArrival
  simp only [List.map_cons, List.map_nil, List.foldl_cons, List.foldl_nil]
  exact max_eq_right ha

/-- C15, as stated, fails. `SJFPrioritySchedule` on the one-process batch with
burst 9223372036854775807 and arrival 1 reports completion
-9223372036854775808 (the `int64` sum has wrapped), leaves `finalCompletion`
at 0 and passes the throughput `+Inf`, not 1 / completion.  `FCFSSchedule` on
the one-process batch with burst 9007199254740993 and arrival 0 reports
turnaround 9007199254740993 and passes the average turnaround
9007199254740992: `float64` has rounded the sum. -/
theorem single_process_averages_counterexample :
    (∀ p ∈ [(⟨1, 1, 9223372036854775807, 0⟩ : Process), ⟨1, 0, 9007199254740993, 0⟩],
      1 ≤ p.BurstDuration ∧ 0 ≤ p.ArrivalTime) ∧
    (SJFPrioritySchedule [⟨1, 1, 9223372036854775807, 0⟩]).map
      (fun o => (o.schedule.map (fun r => r.completion), o.aveThroughput))
      = some ([-9223372036854775808], F64.posInf) ∧
    (∀ out, SJFPrioritySchedule [⟨1, 1, 9223372036854775807, 0⟩] = some out →
      ¬ SingleRowAverages out) ∧
    (FCFSSchedule [⟨1, 0, 9007199254740993, 0⟩]).schedule.map (fun r => r.turnaround)
      = [9007199254740993] ∧
    (FCFSSchedule [⟨1, 0, 9007199254740993, 0⟩]).aveTurnaround
      = F64.finite 9007199254740992 ∧
    ¬ SingleRowAverages (FCFSSchedule [⟨1, 0, 9007199254740993, 0⟩]) := by
  have h1 : (SJFPrioritySchedule [⟨1, 1, 9223372036854775807, 0⟩]).map
      (fun o => (o.schedule.map (fun r => r.completion), o.aveThroughput))
      = some ([-9223372036854775808], F64.posInf) := by decide
  have h2 : (FCFSSchedule [⟨1, 0, 9007199254740993, 0⟩]).schedule.map
      (fun r => r.turnaround) = [9007199254740993] := by decide
  have h3 : (FCFSSchedule [⟨1, 0, 9007199254740993, 0⟩]).aveTurnaround
      = F64.finite 9007199254740992 := by
    have ht : (fcfsLoop [⟨1, 0, 9007199254740993, 0⟩]).totalTurnaround
        = 9007199254740992 := by decide
    show fdiv (fcfsLoop [⟨1, 0, 9007199254740993, 0⟩]).totalTurnaround
      (float64 ((1 : Nat) : Int)) = _
    rw [ht, float64_one, fdiv_one]
    norm_num
  refine ⟨by decide, h1, ?_, h2, h3, ?_⟩
  · intro out ho hs
    obtain ⟨r, _, _, _, h4⟩ := hs
    rw [ho] at h1
    have h5 : out.aveThroughput = F64.posInf := by
      have := Option.some.inj h1
      exact (Prod.mk.inj this).2
    rw [h5] at h4
    exact F64.noConfusion h4
  · intro hs
    obtain ⟨r, hr, _, h4, _⟩ := hs
    rw [hr] at h2
    have h5 : r.turnaround = 9007199254740993 := by
      have := List.cons.inj h2
      exact this.1
    rw [h3, h5] at h4
    have h6 := F64.finite.inj h4
    norm_num at h6

/-- C15, amended. For each of the four schedulers and every batch of exactly
one process with burst >= 1, arrival >= 0 and burst + arrival at most `2^53`
(so that no `int64` operation wraps and every reported value is a `float64`),
the scheduler returns, the report has one row, the average waiting time equals
that row's waiting time, the average turnaround equals its turnaround, and the
throughput equals 1 / (its completion time), as exact rationals. -/
theorem single_process_averages (p : Process) (hb : 1 ≤ p.BurstDuration)
    (ha : 0 ≤ p.ArrivalTime) (hr : p.BurstDuration + p.ArrivalTime ≤ 9007199254740992) :
    SingleRowAverages (FCFSSchedule [p]) ∧
    (∃ fuel out, SJFSchedule fuel [p] = some out) ∧
    (∀ fuel out, SJFSchedule fuel [p] = some out → SingleRowAverages out) ∧
    (∃ out, SJFPrioritySchedule [p] = some out ∧ SingleRowAverages out) ∧
    (∃ fuel out, RRSchedule fuel [p] = some out) ∧
    (∀ fuel out, RRSchedule fuel [p] = some out → SingleRowAverages out) := by
  have hb' : ∀ q ∈ [p], 1 ≤ q.BurstDuration := by
    intro q hq
    rw [List.mem_singleton.mp hq]; exact hb
  have hlt : p.BurstDuration < maxInt := by
    have : maxInt = 9223372036854775807 := rfl
    omega
  have hbl : ∀ q ∈ [p], 1 ≤ q.BurstDuration ∧ q.BurstDuration < maxInt := by
    intro q hq
    rw [List.mem_singleton.mp hq]; exact ⟨hb, hlt⟩
  have htot : totalBurst [p] = p.BurstDuration := by simp [totalBurst]
  refine ⟨fcfs_single p hb ha hr, ?_, ?_, ?_, ?_, ?_⟩
  · have hend := sjf_ends [p] hbl
    have hsome : runLoop (sjfCond [p]) (sjfStep [p]) (maxArrival [p] + totalBurst [p]).toNat
        (sjfInit [p]) = some (sjfIter [p] (maxArrival [p] + totalBurst [p]).toNat) := by
      rw [runLoop_eq]
      have : sjfCond [p] (iterLoop (sjfCond [p]) (sjfStep [p])
          (maxArrival [p] + totalBurst [p]).toNat (sjfInit [p])) = false := by
        unfold sjfIter at hend
        simpa [sjfCond] using hend
      rw [this]; rfl
    exact ⟨(maxArrival [p] + totalBurst [p]).toNat,
      emitReport [p].length (sjfEmit [p]
        (sjfIter [p] (maxArrival [p] + totalBurst [p]).toNat).waitingTime),
      by unfold SJFSchedule; rw [hsome]; rfl⟩
  · intro fuel out ho
    obtain ⟨s, hs, e⟩ := SJFSchedule_some [p] fuel out ho
    obtain ⟨hw0, hw1⟩ := sjf_final_wait [p] hbl fuel s hs 0 (by simp)
    rw [maxArrival_single p ha, htot, procAt_single] at hw1
    have htt := findTurnAroundTime_at [p] s.waitingTime 0 (by simp)
    rw [procAt_single] at htt
    rw [e, sjfEmit_eq]
    apply emit_single
    all_goals first
      | (simp only [procAt_single, htt]; omega)
      | omega
  · refine ⟨_, SJFPrioritySchedule_of_ne [p] (by simp), ?_⟩
    rw [prioEmit_eq]
    obtain ⟨_, hperm, _⟩ := prioSort_spec [p]
    have hq : prioQuads (prioSort [p].length (prioCopy [p])) [p].length
        = [batchQuadAt [p] 0] := List.perm_singleton.mp hperm
    have hq0 : prioQuadAt (prioSort [p].length (prioCopy [p])) 0 = batchQuadAt [p] 0 := by
      have : prioQuads (prioSort [p].length (prioCopy [p])) [p].length
          = [prioQuadAt (prioSort [p].length (prioCopy [p])) 0] := rfl
      rw [this] at hq
      exact List.head_eq_of_cons_eq hq
    simp only [prioQuadAt, batchQuadAt, Prod.mk.injEq, procAt_single] at hq0
    have hw := prioWait_spec [p].length (prioSort [p].length (prioCopy [p]))
      (by simp) 0 (by simp)
    simp only [prioWaitAt] at hw
    have htat := prioTat_at [p].length (prioSort [p].length (prioCopy [p]))
      (prioWait [p].length (prioSort [p].length (prioCopy [p]))) 0 (by simp)
    rw [hw, hq0.2.2.1] at htat
    have htat' : at64 (prioTat [p].length (prioSort [p].length (prioCopy [p]))
        (prioWait [p].length (prioSort [p].length (prioCopy [p])))) 0
        = p.BurstDuration := by
      rw [htat]; unfold add64 wrap64; omega
    have hcomp : add64 (add64 p.BurstDuration p.ArrivalTime) 0
        = p.BurstDuration + p.ArrivalTime := by
      unfold add64 wrap64; omega
    apply emit64_single
    all_goals (simp only [hw, hq0.2.2.1, hq0.2.2.2, htat', hcomp]; omega)
  · have hend := rr_single_ends p hb
    have hsome : runLoop rrCond (rrStep [p]) p.BurstDuration.toNat (rrInit [p])
        = some (rrIter [p] p.BurstDuration.toNat) := by
      rw [runLoop_eq]
      have : rrCond (iterLoop rrCond (rrStep [p]) p.BurstDuration.toNat (rrInit [p]))
          = false := by
        unfold rrIter at hend
        simpa [rrCond] using hend
      rw [this]; rfl
    exact ⟨p.BurstDuration.toNat,
      emitReport [p].length (rrEmit [p] (rrIter [p] p.BurstDuration.toNat)),
      by unfold RRSchedule; rw [hsome]; rfl⟩
  · intro fuel out ho
    obtain ⟨s, hs, e⟩ := RRSchedule_some [p] fuel out ho
    obtain ⟨hinv, h0⟩ := rr_final [p] (by simp) hb' fuel s hs
    have hrt := rr_final_rt [p] s hinv h0
    have htime : s.time = p.BurstDuration := by
      have := hinv.clock
      rw [sum_eq_zero_of_at64 _ hrt] at this
      omega
    obtain ⟨j, hj, hjt⟩ := hinv.last h0
    have hj0 : j = 0 := by
      have : j < 1 := hj
      omega
    rw [hj0, procAt_single] at hjt
    have hfin := (hinv.finished 0 (by simp) (hrt 0)).1
    rw [procAt_single] at hfin
    rw [e, rrEmit_eq]
    apply emit_single
    all_goals first
      | (simp only [procAt_single, hfin]; omega)
      | omega

/-- Witness of the amended C15 on the one-process batch with burst 4 and
arrival 2: the schedulers return, `SJFSchedule` with the row (wait 0,
turnaround 4, completion 6) and `RRSchedule` with the row (wait -2, turnaround
2, completion 4). -/
theorem single_process_averages_witness :
    (SJFSchedule 6 [⟨1, 2, 4, 0⟩]).map
      (fun o => o.schedule.map (fun r => (r.wait, r.turnaround, r.completion)))
      = some [(0, 4, 6)] ∧
    (RRSchedule 2 [⟨1, 2, 4, 0⟩]).map
      (fun o => o.schedule.map (fun r => (r.wait, r.turnaround, r.completion)))
      = some [(-2, 2, 4)] ∧
    SingleRowAverages (FCFSSchedule [⟨1, 2, 4, 0⟩]) ∧
    (∀ fuel out, SJFSchedule fuel [⟨1, 2, 4, 0⟩] = some out → SingleRowAverages out) ∧
    (∀ fuel out, RRSchedule fuel [⟨1, 2, 4, 0⟩] = some out → SingleRowAverages out) :=
  ⟨by decide, by decide,
    (single_process_averages ⟨1, 2, 4, 0⟩ (by decide) (by decide) (by decide)).1,
    (single_process_averages ⟨1, 2, 4, 0⟩ (by decide) (by decide) (by decide)).2.2.1,
    (single_process_averages ⟨1, 2, 4, 0⟩ (by decide) (by decide) (by decide)).2.2.2.2.2⟩

/-! ## SJFPrioritySchedule: indexing -/

theorem read64_eq (a : List Int) (i : Nat) (h : i < a.length) :
    read64 a i = some (at64 a i) := by
  unfold read64; rw [if_pos h]

theorem write64_eq (a : List Int) (i : Nat) (v : Int) (h : i < a.length) :
    write64 a i v = some (a.set i v) := by
  unfold write64; rw [if_pos h]

theorem readProc_eq (ps : List Process) (i : Nat) (h : i < ps.length) :
    readProc ps i = some (procAt ps i) := by
  unfold readProc; rw [if_pos h]

/-- A checked loop whose every pass succeeds and agrees with the unchecked
pass, as long as an invariant holds, agrees with the unchecked loop. -/
theorem foldlM_eq_some {α β : Type} (f : β → α → β) (g : β → α → Option β)
    (P : β → Prop) (l : List α)
    (hstep : ∀ b x, x ∈ l → P b → g b x = some (f b x) ∧ P (f b x)) :
    ∀ b, P b → l.foldlM g b = some (l.foldl f b) ∧ P (l.foldl f b) := by
  induction l with
  | nil => intro b hb; exact ⟨rfl, hb⟩
  | cons x xs ih =>
    intro b hb
    obtain ⟨e, hp⟩ := hstep b x (List.mem_cons_self _ _) hb
    have := ih (fun b y hy => hstep b y (List.mem_cons_of_mem _ hy)) (f b x) hp
    rw [List.foldlM_cons, e, List.foldl_cons]
    simpa using this

theorem swap64Checked_eq (a : List Int) (i pos : Nat) (hi : i < a.length)
    (hp : pos < a.length) : swap64Checked a i pos = some (swap64 a i pos) := by
  unfold swap64Checked swap64
  simp [read64_eq a i hi, read64_eq a pos hp, write64_eq a i _ hi,
    write64_eq (a.set i (at64 a pos)) pos _ (by simpa using hp)]

theorem prioFindPosChecked_eq (prio : List Int) (n i : Nat) (hl : prio.length = n)
    (hi : i < n) : prioFindPosChecked prio n i = some (prioFindPos prio n i) := by
  unfold prioFindPosChecked prioFindPos
  refine (foldlM_eq_some
    (fun pos j => if at64 prio j < at64 prio pos then j else pos) _
    (fun pos => pos < n) _ ?_ i hi).1
  intro pos j hj hpos
  have hjn : j < n := by
    have := List.mem_range'_1.mp hj
    omega
  constructor
  · simp [read64_eq prio j (by omega), read64_eq prio pos (by omega)]
  · show (if at64 prio j < at64 prio pos then j else pos) < n
    split_ifs <;> assumption

theorem prioSortBodyChecked_eq (n : Nat) (a : PrioArrays) (i : Nat) (h : PrioLens n a)
    (hi : i < n) : prioSortBodyChecked n a i = some (prioSortBody n a i) := by
  obtain ⟨h1, h2, h3, h4⟩ := h
  obtain ⟨_, hp, _, _⟩ := prioFindPos_spec a.tempPriority n i hi
  unfold prioSortBodyChecked prioSortBody
  simp [prioFindPosChecked_eq a.tempPriority n i h3 hi,
    swap64Checked_eq a.tempPriority i (prioFindPos a.tempPriority n i) (by omega) (by omega),
    swap64Checked_eq a.tempB i (prioFindPos a.tempPriority n i) (by omega) (by omega),
    swap64Checked_eq a.tempPID i (prioFindPos a.tempPriority n i) (by omega) (by omega),
    swap64Checked_eq a.tempArr i (prioFindPos a.tempPriority n i) (by omega) (by omega)]

theorem prioSortChecked_eq (n : Nat) (a : PrioArrays) (h : PrioLens n a) :
    prioSortChecked n a = some (prioSort n a) := by
  unfold prioSortChecked prioSort
  refine (foldlM_eq_some (prioSortBody n) _ (PrioLens n) _ ?_ a h).1
  intro b i hi hb
  exact ⟨prioSortBodyChecked_eq n b i hb (List.mem_range.mp hi),
    prioSortBody_lens n b i hb⟩

theorem prioCopyChecked_eq (ps : List Process) :
    prioCopyChecked ps = some (prioCopy ps) := by
  unfold prioCopyChecked prioCopy
  refine (foldlM_eq_some _ _ (PrioLens ps.length) _ ?_ _
    ⟨by simp, by simp, by simp, by simp⟩).1
  intro b i hi hb
  have hin : i < ps.length := List.mem_range.mp hi
  obtain ⟨h1, h2, h3, h4⟩ := hb
  constructor
  · simp [readProc_eq ps i hin, write64_eq b.tempPID i _ (by omega),
      write64_eq b.tempPriority i _ (by omega), write64_eq b.tempB i _ (by omega),
      write64_eq b.tempArr i _ (by omega),
      write64_eq (b.tempPID.set i (procAt ps i).ProcessID) i _ (by simp; omega)]
  · exact ⟨by simp [h1], by simp [h2], by simp [h3], by simp [h4]⟩

theorem prioWaitInnerChecked_eq (n : Nat) (a : PrioArrays) (h : PrioLens n a)
    (w : List Int) (hw : w.length = n) (i : Nat) (hi : i < n) :
    prioWaitInnerChecked a w i = some (prioWaitInner a w i) ∧
      (prioWaitInner a w i).length = n := by
  obtain ⟨h1, _, _, h4⟩ := h
  unfold prioWaitInnerChecked prioWaitInner
  rw [write64_eq w i 0 (by omega)]
  have := foldlM_eq_some
    (fun w j => w.set i (sub64 (add64 (at64 w j) (at64 a.tempB j)) (at64 a.tempArr i)))
    (fun w j => do
      let x ← read64 w j
      let b ← read64 a.tempB j
      let r ← read64 a.tempArr i
      write64 w i (sub64 (add64 x b) r))
    (fun w => w.length = n) (List.range i) (by
      intro v j hj hv
      have hji : j < i := List.mem_range.mp hj
      constructor
      · simp [read64_eq v j (by omega), read64_eq a.tempB j (by omega),
          read64_eq a.tempArr i (by omega), write64_eq v i _ (by omega)]
      · simp [hv]) (w.set i 0) (by simp [hw])
  simpa using this

theorem prioWaitChecked_eq (n : Nat) (a : PrioArrays) (h : PrioLens n a) (hn : 0 < n) :
    prioWaitChecked n a = some (prioWait n a) ∧ (prioWait n a).length = n := by
  unfold prioWaitChecked prioWait
  rw [write64_eq (List.replicate n 0) 0 0 (by simpa using hn)]
  have := foldlM_eq_some (prioWaitInner a) (prioWaitInnerChecked a)
    (fun w => w.length = n) (List.range' 1 (n - 1)) (by
      intro v i hi hv
      have hin : i < n := by
        have := List.mem_range'_1.mp hi
        omega
      exact prioWaitInnerChecked_eq n a h v hv i hin)
    ((List.replicate n 0).set 0 0) (by simp)
  simpa using this

theorem prioTatChecked_eq (n : Nat) (a : PrioArrays) (h : PrioLens n a) (w : List Int)
    (hw : w.length = n) :
    prioTatChecked n a w = some (prioTat n a w) ∧ (prioTat n a w).length = n := by
  obtain ⟨h1, _, _, _⟩ := h
  unfold prioTatChecked prioTat
  refine foldlM_eq_some
    (fun (tat : List Int) (i : Nat) => tat.set i (add64 (at64 a.tempB i) (at64 w i))) _
    (fun (tat : List Int) => tat.length = n) _ ?_ _ (by simp)
  intro v i hi hv
  have hin : i < n := List.mem_range.mp hi
  constructor
  · simp [read64_eq a.tempB i (by omega), read64_eq w i (by omega),
      write64_eq v i _ (by omega)]
  · simp [hv]

theorem prioEmitChecked_eq (ps : List Process) (a : PrioArrays)
    (h : PrioLens ps.length a) (w tat : List Int) (hw : w.length = ps.length)
    (ht : tat.length = ps.length) :
    prioEmitChecked ps a w tat = some (prioEmit ps a w tat) := by
  obtain ⟨h1, h2, h3, h4⟩ := h
  unfold prioEmitChecked prioEmit
  refine (foldlM_eq_some _ _ (fun _ => True) _ ?_ _ trivial).1
  intro s i hi _
  have hin : i < ps.length := List.mem_range.mp hi
  refine ⟨?_, trivial⟩
  simp [readProc_eq ps i hin, read64_eq a.tempPID i (by omega),
    read64_eq a.tempPriority i (by omega), read64_eq a.tempB i (by omega),
    read64_eq a.tempArr i (by omega), read64_eq w i (by omega),
    read64_eq tat i (by omega)]

/-- C19. `SJFPrioritySchedule` performs no out-of-range array access if and
only if the batch is non-empty: for every batch of length at least 1 the
function with checked indexing runs through all its accesses and returns the
same report as `SJFPrioritySchedule`; for the empty batch the copy and sort
loops make no pass and the unconditional write `waiting_time[0] = 0` indexes an
empty array, which is the failure. `FCFSSchedule`, `SJFSchedule` and
`RRSchedule` make no loop pass on the empty batch and return. -/
theorem priority_indexing_in_bounds (ps : List Process) :
    SJFPriorityScheduleChecked ps = SJFPrioritySchedule ps ∧
    ((SJFPriorityScheduleChecked ps).isSome = true ↔ ps ≠ []) ∧
    (prioCopyChecked [] = some (prioCopy []) ∧
      prioSortChecked 0 (prioCopy []) = some (prioSort 0 (prioCopy [])) ∧
      write64 (List.replicate 0 0) 0 0 = none ∧
      prioWaitChecked 0 (prioSort 0 (prioCopy [])) = none) ∧
    ((FCFSSchedule []).schedule = [] ∧ (FCFSSchedule []).gantt = [] ∧
      (SJFSchedule 0 []).isSome = true ∧ (RRSchedule 0 []).isSome = true) := by
  have hmain : SJFPriorityScheduleChecked ps = SJFPrioritySchedule ps := by
    by_cases hne : ps = []
    · subst hne
      rfl
    · have hpos : 0 < ps.length := List.length_pos.mpr hne
      obtain ⟨hl, _, _⟩ := prioSort_spec ps
      obtain ⟨e3, l3⟩ := prioWaitChecked_eq ps.length _ hl hpos
      obtain ⟨e4, l4⟩ := prioTatChecked_eq ps.length _ hl _ l3
      have e5 := prioEmitChecked_eq ps _ hl _ _ l3 l4
      rw [SJFPrioritySchedule_of_ne ps hne]
      unfold SJFPriorityScheduleChecked
      simp [prioCopyChecked_eq ps, prioSortChecked_eq ps.length _ (prioCopy_spec ps).1,
        e3, e4, e5]
  refine ⟨hmain, ?_, ⟨rfl, rfl, rfl, rfl⟩, ⟨rfl, rfl, by decide, by decide⟩⟩
  rw [hmain]
  constructor
  · intro h hne
    rw [hne] at h
    exact absurd h (by decide)
  · intro hne
    rw [SJFPrioritySchedule_of_ne ps hne]
    rfl

/-! ## Values at the ends of the `int64` and `float64` ranges

Runs of `FCFSSchedule` and `SJFPrioritySchedule` on which an `int64` sum wraps
or a quotient is not finite. -/

/-- `FCFSSchedule` on bursts 9223372036854775807, 1 and arrivals 0, 0: the
second stop field has wrapped, the stop fields are not increasing. -/
theorem fcfs_stop_wraps :
    (FCFSSchedule [⟨1, 0, 9223372036854775807, 0⟩, ⟨2, 0, 1, 0⟩]).gantt.map
      (fun g => g.Stop) = [9223372036854775807, -9223372036854775808] := by
  decide

/-- `FCFSSchedule` on bursts 9223372036854775807, 5, 1 and arrivals 0, 1, 1:
the third waiting time is negative although the process arrives before the
sum of the preceding bursts. -/
theorem fcfs_wait_wraps :
    (FCFSSchedule [⟨1, 0, 9223372036854775807, 0⟩, ⟨2, 1, 5, 0⟩, ⟨3, 1, 1, 0⟩]).schedule.map
      (fun r => r.wait) = [0, 9223372036854775806, -9223372036854775805] ∧
    (procAt [⟨1, 0, 9223372036854775807, 0⟩, ⟨2, 1, 5, 0⟩, ⟨3, 1, 1, 0⟩] 2).ArrivalTime
      ≤ burstsBefore [⟨1, 0, 9223372036854775807, 0⟩, ⟨2, 1, 5, 0⟩, ⟨3, 1, 1, 0⟩] 2 := by
  decide

/-- `FCFSSchedule` on bursts 9223372036854775807, 5, 1 and arrivals 0, 1, 10:
the third row shows waiting 9223372036854775802 and the third interval starts
at -9223372036854775804, the wrapped sum of waiting and arrival. -/
theorem fcfs_start_wraps :
    (FCFSSchedule [⟨1, 0, 9223372036854775807, 0⟩, ⟨2, 1, 5, 0⟩, ⟨3, 10, 1, 0⟩]).schedule.map
      (fun r => r.wait) = [0, 9223372036854775806, 9223372036854775802] ∧
    (FCFSSchedule [⟨1, 0, 9223372036854775807, 0⟩, ⟨2, 1, 5, 0⟩, ⟨3, 10, 1, 0⟩]).gantt.map
      (fun g => g.Start) = [0, 9223372036854775807, -9223372036854775804] := by
  decide

/-- `FCFSSchedule` on bursts 1, 5 and arrivals 5, 0: the completion time of the
last row is 0 and the throughput is `+Inf`. -/
theorem fcfs_throughput_inf :
    (FCFSSchedule [⟨1, 5, 1, 0⟩, ⟨2, 0, 5, 0⟩]).schedule.map (fun r => r.completion)
      = [1, 0] ∧
    (FCFSSchedule [⟨1, 5, 1, 0⟩, ⟨2, 0, 5, 0⟩]).aveThroughput = F64.posInf := by
  decide

/-- The waiting-time loop of `SJFPrioritySchedule` on sorted bursts
9223372036854775807, 5, 1 and arrivals 0, and its turnaround loop on sorted
bursts 5, 9223372036854775807 and arrivals 0: both sums wrap. -/
theorem priority_sums_wrap :
    (SJFPrioritySchedule [⟨1, 0, 9223372036854775807, 0⟩, ⟨2, 0, 5, 1⟩, ⟨3, 0, 1, 2⟩]).map
      (fun o => o.schedule.map (fun r => r.wait))
      = some [0, 9223372036854775807, -9223372036854775804] ∧
    (SJFPrioritySchedule [⟨1, 0, 5, 0⟩, ⟨2, 0, 9223372036854775807, 1⟩]).map
      (fun o => o.schedule.map (fun r => r.turnaround))
      = some [5, -9223372036854775804] := by
  decide

/-- On the empty batch the averages and the throughput of `FCFSSchedule`,
`SJFSchedule` and `RRSchedule` are `NaN`. -/
theorem empty_batch_nan :
    (FCFSSchedule []).aveWait = F64.nan ∧ (FCFSSchedule []).aveThroughput = F64.nan ∧
    (SJFSchedule 0 []).map (fun o => (o.aveWait, o.aveTurnaround, o.aveThroughput))
      = some (F64.nan, F64.nan, F64.nan) ∧
    (RRSchedule 0 []).map (fun o => (o.aveWait, o.aveTurnaround, o.aveThroughput))
      = some (F64.nan, F64.nan, F64.nan) := by
  decide

end Sched
